import Mathlib

/-!
# Gee-nomics: trie, genome and genome matcher

A shallow embedding of `Trie.h`, `Genome.cpp` and `GenomeMatcher.cpp`.

Conventions of the embedding
* `std::string` is `List Char`; genome names are `String` (only compared for equality).
* `int` is `Int`; 32-bit overflow is not modelled (all quantities are lengths of in-memory
  sequences).  Where an `int` is compared with a `size_t`, the conversion of the `int`
  operand to an unsigned 64-bit value is written out as `% 2 ^ 64`.
* A `Node*` is a value of `Node V`: either `Node.null` (the null pointer) or `Node.mk` with the
  pointed-to `data` vector and the 26 child pointers.
* Behaviour that is undefined in C++ (a child index outside `0..25`, a dereferenced null
  pointer, a vector index out of range) is given an inert value so that every definition is
  total; the theorems only speak about inputs on which the C++ code is defined.
* A reference parameter that a function may assign (`fragment`, `matches`, `results`,
  `locSnip`, `sequences`) is passed in and returned next to the function's result.
* An `unordered_map<string, int>` is an association list in order of first insertion; its
  iteration order is unspecified in C++, so the theorems speak about membership only.
* A finite `double` is the rational number it denotes, and arithmetic on `double`s is exact
  arithmetic followed by rounding to nearest binary64, ties to even.
-/

namespace GeeNomics

/-! ## Trie.h -/

/-- A value of type `Node*` of `Trie.h`: the null pointer, or a pointer to a node carrying a
value vector and 26 child pointers. -/
inductive Node (V : Type) where
  | null : Node V
  | mk (data : List V) (children : Fin 26 → Node V) : Node V

/-- Test `p == nullptr`. -/
def Node.isNull {V : Type} : Node V → Bool
  | .null => true
  | .mk _ _ => false

/-- The index `key[i] - 'A'` computed in `insert`, `find` and `findHelper`. -/
def charIndex (c : Char) : Int := (c.toNat : Int) - 65

/-- Reading `children[i]` of a child array for an `int` index (null outside `0..25`, where the
C++ read is undefined). -/
def childAt {V : Type} (ch : Fin 26 → Node V) (i : Int) : Node V :=
  if h : 0 ≤ i ∧ i < 26 then ch ⟨i.toNat, by omega⟩ else .null

/-- Writing `children[i] = p` (no effect outside `0..25`, where the C++ write is undefined). -/
def setChild {V : Type} (ch : Fin 26 → Node V) (i : Int) (p : Node V) : Fin 26 → Node V :=
  fun j => if ((j.val : Nat) : Int) = i then p else ch j

/-- `Trie::createNode`: a fresh node with no data and 26 null children. -/
def createNode {V : Type} : Node V := .mk [] (fun _ => .null)

/-- `Trie::isLeaf`: true when all 26 children are null. -/
def isLeaf {V : Type} : Node V → Bool
  | .null => true
  | .mk _ ch => (List.range 26).all (fun (i : Nat) => (childAt ch (i : Int)).isNull)

/-- The guarded append `if (!rec.empty()) results.insert(results.end(), rec.begin(), rec.end())`. -/
def insertAtEnd {V : Type} (results recResults : List V) : List V :=
  if recResults.isEmpty then results else results ++ recResults

/-- The loop of `Trie::insert` started at node `p` with the remaining characters `key`: creates the
missing child, descends, and finally pushes `value` on the last node's data. -/
def insertLoop {V : Type} (p : Node V) (key : List Char) (value : V) : Node V :=
  match key, p with
  | _, .null => .null
  | [], .mk d ch => .mk (d ++ [value]) ch
  | c :: cs, .mk d ch =>
    let index := charIndex c
    let ch1 := if (childAt ch index).isNull then setChild ch index createNode else ch
    .mk d (setChild ch1 index (insertLoop (childAt ch1 index) cs value))

/-- `Trie::findHelper`. -/
def findHelper {V : Type} (root : Node V) (key : List Char) (exactMatchOnly : Bool) : List V :=
  match key, root with
  | _, .null => []
  | [], .mk d _ => d
  | firstChar :: startString, .mk d ch =>
    if isLeaf (.mk d ch) then []
    else
      let firstCharIndex := charIndex firstChar
      if exactMatchOnly then
        insertAtEnd [] (findHelper (childAt ch firstCharIndex) startString exactMatchOnly)
      else
        let resultsExact := findHelper (childAt ch firstCharIndex) startString exactMatchOnly
        (List.range 26).foldl
          (fun results (i : Nat) =>
            if (i : Int) = firstCharIndex then results
            else insertAtEnd results (findHelper (childAt ch (i : Int)) startString true))
          (insertAtEnd [] resultsExact)

/-- The class `Trie<ValueType>`: its only member is the root pointer. -/
structure Trie (V : Type) where
  m_root : Node V

/-- `Trie::Trie()`: the root is a fresh empty node. -/
def Trie.new {V : Type} : Trie V := ⟨createNode⟩

/-- `Trie::reset()`: the old tree is discarded and a fresh root is created. -/
def Trie.reset {V : Type} (_t : Trie V) : Trie V := ⟨createNode⟩

/-- `Trie::insert`. -/
def Trie.insert {V : Type} (t : Trie V) (key : List Char) (value : V) : Trie V :=
  ⟨insertLoop t.m_root key value⟩

/-- `Trie::find`.  For the empty key the C++ code indexes `children['\0' - 'A']` and then calls
`substr(1)`, which is undefined/throws; the embedding returns no values there. -/
def Trie.find {V : Type} (t : Trie V) (key : List Char) (exactMatchOnly : Bool) : List V :=
  match key, t.m_root with
  | [], _ => []
  | _, .null => []
  | firstChar :: startString, .mk _ ch =>
    let firstCharIndex := charIndex firstChar
    if (childAt ch firstCharIndex).isNull then []
    else findHelper (childAt ch firstCharIndex) startString exactMatchOnly

/-- A key the trie is defined on: every character is one of `'A'..'Z'`. -/
def upperKey (key : List Char) : Bool := key.all (fun c => decide (65 ≤ c.toNat ∧ c.toNat ≤ 90))

/-- The trie obtained from the empty trie by the inserts `ins`, in order. -/
def buildTrie {V : Type} (ins : List (List Char × V)) : Trie V :=
  ins.foldl (fun t p => t.insert p.1 p.2) Trie.new


/-! ## Genome.cpp -/

/-- The class `GenomeImpl`: a name and the stored sequence of characters. -/
structure Genome where
  m_name : String
  m_sequence : List Char
  deriving DecidableEq, Repr

/-- `GenomeImpl::GenomeImpl(nm, sequence)`: the characters are copied one by one. -/
def Genome.new (nm : String) (sequence : List Char) : Genome :=
  ⟨nm, sequence.foldl (fun acc c => acc ++ [c]) []⟩

/-- `GenomeImpl::length`. -/
def Genome.length (g : Genome) : Int := (g.m_sequence.length : Int)

/-- `GenomeImpl::name`. -/
def Genome.name (g : Genome) : String := g.m_name

/-- `GenomeImpl::extract(position, length, fragment)`.  The result is the returned `bool` together
with the value of the reference parameter `fragment` after the call.  The guard compares the
`int` sum, converted to `size_t`, with `m_sequence.size()`.  The copy loop reads
`m_sequence[position] .. m_sequence[position + length - 1]` (no character when `length <= 0`;
the reads are undefined in C++ for a negative `position`, which the embedding clamps to 0). -/
def Genome.extract (g : Genome) (position length : Int) (fragment : List Char) :
    Bool × List Char :=
  if (position + length) % 2 ^ 64 > (g.m_sequence.length : Int) then (false, fragment)
  else (true, (g.m_sequence.drop position.toNat).take length.toNat)

/-- `std::getline(genomeSource, name)` on the unread part of the stream: the characters before
the first newline (the new value of `name`), and the unread part after that newline. -/
def getline (src : List Char) : List Char × List Char :=
  (src.takeWhile (fun c => c != '\n'), (src.dropWhile (fun c => c != '\n')).drop 1)

/-- `toupper(c)` in the "C" locale. -/
def toupper (c : Char) : Char := c.toUpper

/-- The `while (genomeSource.get(c))` loop of `GenomeImpl::load` and the code after it, on the
unread part of the stream, with the locals `name`, `sequence`, `prev` and the output vector
`genomes`.  Every iteration reads at least one character; `fuel` bounds the number of
iterations and `none` means it ran out.  The result is the returned `bool` and the final
`genomes`. -/
def loadLoop : Nat → List Char → List Char → List Char → Char → List Genome →
    Option (Bool × List Genome)
  | 0, _, _, _, _, _ => none
  | _ + 1, [], name, sequence, _, genomes =>
    if name ≠ [] ∧ sequence ≠ [] then
      some (true, genomes ++ [Genome.new (String.mk name) sequence])
    else some (true, genomes)
  | fuel + 1, c :: rest, name, sequence, prev, genomes =>
    if name = [] ∧ c ≠ '>' then some (false, genomes)
    else if c = '\n' ∧ prev = '\n' then some (false, genomes)
    else if c = '\n' then loadLoop fuel rest name sequence prev genomes
    else if c = '>' then
      let genomes1 :=
        if sequence ≠ [] then genomes ++ [Genome.new (String.mk name) sequence] else genomes
      let sequence1 := if sequence ≠ [] then [] else sequence
      let line := getline rest
      if line.1 = [] then some (false, genomes1)
      else loadLoop fuel line.2 line.1 sequence1 prev genomes1
    else
      let upper_c := toupper c
      if upper_c = 'A' ∨ upper_c = 'T' ∨ upper_c = 'N' ∨ upper_c = 'G' ∨ upper_c = 'C' then
        loadLoop fuel rest name (sequence ++ [upper_c]) prev genomes
      else some (false, genomes)

/-- `GenomeImpl::load(genomeSource, genomes)` on a stream with the given unread characters:
`name` and `sequence` start empty and `prev` is `'\0'`. -/
def Genome.load (genomeSource : List Char) (genomes : List Genome) :
    Option (Bool × List Genome) :=
  loadLoop (genomeSource.length + 1) genomeSource [] [] (Char.ofNat 0) genomes

/-! ## GenomeMatcher.cpp -/

/-- Modelled from the spec: the record `DNAMatch` is declared in `provided.h`, which is not part
of the sources; the spec gives it as `FragmentMatch {genomeName, position, length}`. -/
structure DNAMatch where
  genomeName : String
  length : Int
  position : Int
  deriving DecidableEq, Repr

/-- Modelled from the spec: the record `GenomeMatch` is declared in `provided.h`, which is not
part of the sources; the spec gives it as `RelatednessResult {genomeName, percentMatch}`.  The
`double` field is represented by the rational number the binary64 value denotes. -/
structure GenomeMatch where
  genomeName : String
  percentMatch : ℚ
  deriving DecidableEq

/-- The private struct `GenomeLoc`: `index` is the offset inside the genome and `genomePos` the
position of the genome in `m_genomes`. -/
structure GenomeLoc where
  index : Int
  genomePos : Int
  deriving DecidableEq, Repr

/-- The data members of `GenomeMatcherImpl`. -/
structure GenomeMatcherImpl where
  m_minSearchLength : Int
  m_genomes : List Genome
  m_trie : Trie GenomeLoc

/-- `GenomeMatcherImpl::GenomeMatcherImpl(minSearchLength)`. -/
def GenomeMatcherImpl.new (minSearchLength : Int) : GenomeMatcherImpl :=
  ⟨minSearchLength, [], Trie.new⟩

/-- `GenomeMatcherImpl::minimumSearchLength`. -/
def GenomeMatcherImpl.minimumSearchLength (m : GenomeMatcherImpl) : Int := m.m_minSearchLength

/-- One iteration of the loop of `addGenome` for offset `i`: the state is the trie and the local
string `subsequence`. -/
def addGenomeStep (genome : Genome) (minSearchLength pos : Int)
    (st : Trie GenomeLoc × List Char) (i : Nat) : Trie GenomeLoc × List Char :=
  let r := genome.extract (i : Int) minSearchLength st.2
  if r.1 then (st.1.insert r.2 ⟨(i : Int), pos⟩, r.2) else (st.1, r.2)

/-- `GenomeMatcherImpl::addGenome`. -/
def GenomeMatcherImpl.addGenome (m : GenomeMatcherImpl) (genome : Genome) : GenomeMatcherImpl :=
  let genomes := m.m_genomes ++ [genome]
  let lastIndex : Int := genome.length - m.m_minSearchLength
  let pos : Int := (genomes.length : Int) - 1
  let st := (List.range lastIndex.toNat).foldl
    (addGenomeStep genome m.m_minSearchLength pos) (m.m_trie, [])
  { m_minSearchLength := m.m_minSearchLength, m_genomes := genomes, m_trie := st.1 }

/-- Reading `m_genomes[i]` for an `int` index (`none` outside the vector, where the C++ read is
undefined). -/
def genomeAt (genomes : List Genome) (i : Int) : Option Genome :=
  if i < 0 then none else genomes[i.toNat]?

/-- One iteration of the loop of `getStrings` for the trie match `currentGenome`; the state is
the pair of vectors `DNAmatches`, `sequencestrings`.  (An entry whose `genomePos` is outside
`m_genomes`, where the C++ code is undefined, is skipped.) -/
def getStringsStep (genomes : List Genome) (minLength maxLength : Int)
    (acc : List DNAMatch × List (List Char)) (currentGenome : GenomeLoc) :
    List DNAMatch × List (List Char) :=
  match genomeAt genomes currentGenome.genomePos with
  | none => acc
  | some g =>
    let genomeLength := g.length
    if currentGenome.index + minLength ≥ genomeLength then acc
    else
      let length :=
        if currentGenome.index + maxLength > genomeLength then
          genomeLength - 1 - currentGenome.index
        else maxLength
      let currentMatch : DNAMatch :=
        { genomeName := g.name, length := length, position := currentGenome.index }
      let sequence := (g.extract currentGenome.index currentMatch.length []).2
      (acc.1 ++ [currentMatch], acc.2 ++ [sequence])

/-- `GenomeMatcherImpl::getStrings`: returns the vector of `DNAMatch` and the final value of the
reference parameter `sequences`. -/
def GenomeMatcherImpl.getStrings (m : GenomeMatcherImpl) (trieMatches : List GenomeLoc)
    (minLength maxLength : Int) : List DNAMatch × List (List Char) :=
  trieMatches.foldl (getStringsStep m.m_genomes minLength maxLength) ([], [])

/-- The loop of `checkSnip` at index `i`, given the not yet visited parts `sequence[i..]` and
`fragment[i..]`, the mismatch count so far and the incoming value of `locSnip`.  Returns the
`bool` and the final value of `locSnip`.  (`fragment[i]` at `i == fragment.size()` is the
terminating `'\0'`.) -/
def checkSnipLoop (minimumLength : Int) (exactMatchOnly : Bool) (locSnip : Int) :
    List Char → List Char → Int → Int → Bool × Int
  | [], _, _, _ => (true, 0)
  | s :: sequence, fragment, i, numSnips =>
    let numSnips := if s ≠ fragment.headD (Char.ofNat 0) then numSnips + 1 else numSnips
    if numSnips > 1 ∨ (numSnips > 0 ∧ exactMatchOnly = true) then
      if i < minimumLength then (false, locSnip) else (true, i)
    else checkSnipLoop minimumLength exactMatchOnly locSnip sequence fragment.tail (i + 1) numSnips

/-- `GenomeMatcherImpl::checkSnip`: the returned `bool` and the final value of `locSnip`. -/
def checkSnip (sequence fragment : List Char) (minimumLength : Int) (locSnip : Int)
    (exactMatchOnly : Bool) : Bool × Int :=
  checkSnipLoop minimumLength exactMatchOnly locSnip sequence fragment 0 0

/-- The `unordered_map<string, int>` tables, kept as an association list in order of first
insertion (the C++ iteration order is unspecified). -/
abbrev NameTable := List (String × Int)

/-- The value `table[key]` read through `operator[]` (0 when the key is absent). -/
def NameTable.get (t : NameTable) (key : String) : Int :=
  match t.find? (fun e => e.1 == key) with
  | some e => e.2
  | none => 0

/-- The table after `operator[]` touched `key`: an absent key is entered with value 0. -/
def NameTable.touch (t : NameTable) (key : String) : NameTable :=
  if t.any (fun e => e.1 == key) then t else t ++ [(key, 0)]

/-- The assignment `table[key] = v`. -/
def NameTable.assign (t : NameTable) (key : String) (v : Int) : NameTable :=
  (t.touch key).map (fun e => if e.1 == key then (key, v) else e)

/-- Reading `v[i]` of a vector of `DNAMatch` (an inert record outside the vector, where the C++
read is undefined). -/
def matchAt (v : List DNAMatch) (i : Int) : DNAMatch :=
  if i < 0 then ⟨"", 0, 0⟩ else v.getD i.toNat ⟨"", 0, 0⟩

/-- One iteration of the scoring and deduplication loop of `findGenomesWithThisDNA` for index
`i`; the state is the vector `DNAMatches` and the table `nameTable`. -/
def dedupStep (sequences : List (List Char)) (fragment : List Char) (minimumLength : Int)
    (exactMatchOnly : Bool) (st : List DNAMatch × NameTable) (i : Nat) :
    List DNAMatch × NameTable :=
  let r := checkSnip (sequences.getD i []) fragment minimumLength 0 exactMatchOnly
  if !r.1 then st
  else
    let DNAMatches :=
      if r.2 ≠ 0 then st.1.set i { matchAt st.1 (i : Int) with length := r.2 } else st.1
    let name := (matchAt DNAMatches (i : Int)).genomeName
    let currentIndex := NameTable.get st.2 name
    let nameTable := NameTable.touch st.2 name
    if currentIndex = 0 then
      if (matchAt DNAMatches currentIndex).genomeName ≠ name then
        (DNAMatches, NameTable.assign nameTable name (i : Int))
      else if (matchAt DNAMatches currentIndex).position > (matchAt DNAMatches (i : Int)).position
      then (DNAMatches, NameTable.assign nameTable name (i : Int))
      else (DNAMatches, nameTable)
    else if (matchAt DNAMatches currentIndex).position > (matchAt DNAMatches (i : Int)).position
    then (DNAMatches, NameTable.assign nameTable name (i : Int))
    else (DNAMatches, nameTable)

/-- `GenomeMatcherImpl::findGenomesWithThisDNA`: the returned `bool` and the value of the
reference parameter `matches` after the call. -/
def GenomeMatcherImpl.findGenomesWithThisDNA (m : GenomeMatcherImpl) (fragment : List Char)
    (minimumLength : Int) (exactMatchOnly : Bool) (mtchs : List DNAMatch) :
    Bool × List DNAMatch :=
  if (fragment.length : Int) < minimumLength % 2 ^ 64 ∨ minimumLength < m.m_minSearchLength then
    (false, mtchs)
  else
    let minSearchLengthFrag := fragment.take (m.m_minSearchLength % 2 ^ 64).toNat
    let trieMatches := m.m_trie.find minSearchLengthFrag exactMatchOnly
    let gs := m.getStrings trieMatches minimumLength (fragment.length : Int)
    let st := (List.range gs.1.length).foldl
      (dedupStep gs.2 fragment minimumLength exactMatchOnly) (gs.1, [])
    let results := st.2.map (fun it => matchAt st.1 it.2)
    if !results.isEmpty then (true, results) else (false, mtchs)

/-! ## Binary64 arithmetic used by `findRelatedGenomes`

A finite `double` is represented by the rational number it denotes.  Each arithmetic operation
returns the exact result rounded to the nearest binary64 value, ties to even (the IEEE 754
default).  Overflow to infinity and gradual underflow are not modelled: `Binary64.round` is the
IEEE result whenever that result is a normal number, which is the case for every value computed
by `findRelatedGenomes` (quotients of positive `int`s and their products with 100). -/

/-- Rounding of a rational to the nearest integer, ties to the even integer. -/
def roundHalfEven (x : ℚ) : Int :=
  if x - ⌊x⌋ < 1 / 2 then ⌊x⌋
  else if 1 / 2 < x - ⌊x⌋ then ⌊x⌋ + 1
  else if ⌊x⌋ % 2 = 0 then ⌊x⌋ else ⌊x⌋ + 1

/-- Rounding of a rational to the nearest binary64 number (53-bit significand), ties to even:
with `e = ⌊log₂ |q|⌋`, the spacing of binary64 numbers around `q` is `2 ^ (e - 52)`. -/
def Binary64.round (q : ℚ) : ℚ :=
  if q = 0 then 0
  else roundHalfEven (q / (2 : ℚ) ^ (Int.log 2 |q| - 52)) * (2 : ℚ) ^ (Int.log 2 |q| - 52)

/-- The conversion `double(n)` of an `int`, which is exact (an `int` has 31 significant bits). -/
def Binary64.ofInt (n : Int) : ℚ := (n : ℚ)

/-- Division of two `double`s. -/
def Binary64.div (a b : ℚ) : ℚ := Binary64.round (a / b)

/-- Multiplication of two `double`s. -/
def Binary64.mul (a b : ℚ) : ℚ := Binary64.round (a * b)

/-- One iteration of the first loop of `findRelatedGenomes`, for the query fragment number `i`:
the fragment is extracted, searched for, and on success the count of every returned genome
name is increased by one (`numMatches[name] += 1`). -/
def tallyStep (m : GenomeMatcherImpl) (query : Genome) (fragmentMatchLength : Int)
    (exactMatchOnly : Bool) (numMatches : NameTable) (i : Nat) : NameTable :=
  let fragment := (query.extract ((i : Int) * fragmentMatchLength) fragmentMatchLength []).2
  let r := m.findGenomesWithThisDNA fragment fragmentMatchLength exactMatchOnly []
  if r.1 then
    r.2.foldl
      (fun nm mt => NameTable.assign nm mt.genomeName (NameTable.get nm mt.genomeName + 1))
      numMatches
  else numMatches

/-- `GenomeMatcherImpl::findRelatedGenomes`: the returned `bool` and the value of the reference
parameter `results` after the call.  `numSequences` is the truncating `int` division; the
percentage is `(double(count) / double(numSequences)) * 100` in binary64 arithmetic. -/
def GenomeMatcherImpl.findRelatedGenomes (m : GenomeMatcherImpl) (query : Genome)
    (fragmentMatchLength : Int) (exactMatchOnly : Bool) (matchPercentThreshold : ℚ)
    (results : List GenomeMatch) : Bool × List GenomeMatch :=
  if fragmentMatchLength < m.m_minSearchLength then (false, results)
  else
    let numSequences := Int.tdiv query.length fragmentMatchLength
    let numMatches := (List.range numSequences.toNat).foldl
      (tallyStep m query fragmentMatchLength exactMatchOnly) []
    let localResults := numMatches.filterMap (fun it =>
      let p := Binary64.mul
        (Binary64.div (Binary64.ofInt it.2) (Binary64.ofInt numSequences)) (Binary64.ofInt 100)
      if p ≥ matchPercentThreshold then some (⟨it.1, p⟩ : GenomeMatch) else none)
    if !localResults.isEmpty then (true, localResults) else (false, results)

/-! ## Reference notions used to state the properties -/

/-- Number of aligned positions at which two strings differ (compared up to the shorter one). -/
def mismatchCount : List Char → List Char → Nat
  | a :: as, b :: bs => (if a = b then 0 else 1) + mismatchCount as bs
  | _, _ => 0

/-- The keys `k'` an approximate lookup of `k` is specified to reach: same length, same first
character, and at most one differing position. -/
def nearKey (k k' : List Char) : Bool :=
  decide (k'.length = k.length ∧ k'.head? = k.head? ∧ mismatchCount k' k ≤ 1)

/-- What the loop of `insert` descends into: the existing child, or a freshly created one. -/
def orCreate {V : Type} (p : Node V) : Node V := if p.isNull then createNode else p

/-- A key accepted by `insert` and `find`: non-empty and made of the letters `'A'..'Z'`. -/
def validKey (key : List Char) : Bool := !key.isEmpty && upperKey key

/-- The engine reached from `GenomeMatcherImpl(seedLength)` by `addGenome` of the given genomes,
in order. -/
def buildLibrary (seedLength : Int) (genomes : List Genome) : GenomeMatcherImpl :=
  genomes.foldl (fun m g => m.addGenome g) (GenomeMatcherImpl.new seedLength)

/-- A sequence over the DNA alphabet `{A, C, G, T, N}`. -/
def dnaSequence (s : List Char) : Bool :=
  s.all (fun c => c == 'A' || c == 'C' || c == 'G' || c == 'T' || c == 'N')

/-- The `len` characters of `s` starting at index `i`. -/
def substringAt (s : List Char) (i : Nat) (len : Int) : List Char :=
  (s.drop i).take len.toNat

/-- The value range of the C++ type `int`. -/
def isInt32 (x : Int) : Prop := -2 ^ 31 ≤ x ∧ x < 2 ^ 31

instance (x : Int) : Decidable (isInt32 x) := by unfold isInt32; exact inferInstance

/-- The keys of a table, in the order of the association list. -/
def NameTable.keys (t : NameTable) : List String := t.map Prod.fst

/-- The trie matches of the seed lookup made by `findGenomesWithThisDNA`. -/
def GenomeMatcherImpl.seedMatches (m : GenomeMatcherImpl) (fragment : List Char)
    (exactMatchOnly : Bool) : List GenomeLoc :=
  m.m_trie.find (fragment.take (m.m_minSearchLength % 2 ^ 64).toNat) exactMatchOnly

/-- The seeded candidates of a call: the records and sequences `getStrings` builds from the seed
lookup. -/
def GenomeMatcherImpl.candidates (m : GenomeMatcherImpl) (fragment : List Char)
    (minimumLength : Int) (exactMatchOnly : Bool) : List DNAMatch × List (List Char) :=
  m.getStrings (m.seedMatches fragment exactMatchOnly) minimumLength (fragment.length : Int)

/-- Candidate number `i` survives scoring: `checkSnip` returns true on its sequence. -/
def accepted (sequences : List (List Char)) (fragment : List Char) (minimumLength : Int)
    (exactMatchOnly : Bool) (i : Nat) : Bool :=
  (checkSnip (sequences.getD i []) fragment minimumLength 0 exactMatchOnly).1

/-- The candidates of a call that survive scoring (the qualifying hits), in candidate order. -/
def GenomeMatcherImpl.survivors (m : GenomeMatcherImpl) (fragment : List Char)
    (minimumLength : Int) (exactMatchOnly : Bool) : List DNAMatch :=
  let gs := m.candidates fragment minimumLength exactMatchOnly
  ((List.range gs.1.length).filter (accepted gs.2 fragment minimumLength exactMatchOnly)).map
    (fun (i : Nat) => matchAt gs.1 (i : Int))

/-- The state of the scoring and deduplication loop after the indices below `j`. -/
def dedupState (D0 : List DNAMatch) (sequences : List (List Char)) (fragment : List Char)
    (minimumLength : Int) (exactMatchOnly : Bool) (j : Nat) : List DNAMatch × NameTable :=
  (List.range j).foldl (dedupStep sequences fragment minimumLength exactMatchOnly) (D0, [])

/-- The invariant of the scoring and deduplication loop after the indices below `j`. -/
def DedupInv (D0 : List DNAMatch) (sequences : List (List Char)) (fragment : List Char)
    (minimumLength : Int) (exactMatchOnly : Bool) (j : Nat) (st : List DNAMatch × NameTable) :
    Prop :=
  st.1.length = D0.length
  ∧ (∀ i : Int, (matchAt st.1 i).genomeName = (matchAt D0 i).genomeName
      ∧ (matchAt st.1 i).position = (matchAt D0 i).position)
  ∧ (NameTable.keys st.2).Nodup
  ∧ (∀ e ∈ st.2, 0 ≤ e.2 ∧ e.2 < (D0.length : Int) ∧ (matchAt D0 e.2).genomeName = e.1)
  ∧ (∀ N, N ∈ NameTable.keys st.2 ↔
      ∃ i, i < j ∧ accepted sequences fragment minimumLength exactMatchOnly i = true
        ∧ (matchAt D0 (i : Int)).genomeName = N)

/-- A record describes a genuine match of `fragment` in the library: some genome with the
record's name contains, at `position`, `length` characters that differ from the first `length`
characters of `fragment` in at most one position (in none when `exactOnly`). -/
def genuineMatch (genomes : List Genome) (fragment : List Char) (exactOnly : Bool)
    (r : DNAMatch) : Bool :=
  genomes.any (fun g =>
    g.name == r.genomeName
    && decide (0 ≤ r.position ∧ 0 ≤ r.length ∧ r.position + r.length ≤ g.length)
    && decide (mismatchCount (substringAt g.m_sequence r.position.toNat r.length)
        (fragment.take r.length.toNat) ≤ (if exactOnly then 0 else 1)))

/-- Number of query fragments: `floor(length(query) / fragmentLength)`. -/
def fragmentCount (query : Genome) (fragmentLength : Int) : Nat :=
  (query.length / fragmentLength).toNat

/-- The `j`-th query fragment: the `fragmentLength` characters of the query starting at
`j * fragmentLength`. -/
def queryFragment (query : Genome) (fragmentLength : Int) (j : Nat) : List Char :=
  substringAt query.m_sequence (j * fragmentLength.toNat) fragmentLength

/-- `findGenomesWithThisDNA` on the `j`-th query fragment succeeds with a record named `N`. -/
def reportsName (m : GenomeMatcherImpl) (query : Genome) (fragmentLength : Int)
    (exactOnly : Bool) (N : String) (j : Nat) : Bool :=
  (m.findGenomesWithThisDNA (queryFragment query fragmentLength j) fragmentLength exactOnly []).1
  && decide (N ∈ (m.findGenomesWithThisDNA (queryFragment query fragmentLength j)
      fragmentLength exactOnly []).2.map DNAMatch.genomeName)

/-- The number `hits(N)` of query fragments for which `findGenomesWithThisDNA` reports `N`. -/
def hitCount (m : GenomeMatcherImpl) (query : Genome) (fragmentLength : Int)
    (exactOnly : Bool) (N : String) : Nat :=
  ((List.range (fragmentCount query fragmentLength)).filter
    (reportsName m query fragmentLength exactOnly N)).length

/-- The percentage as the code computes it: `(double(hits) / double(n)) * 100`, each operation
rounded to binary64. -/
def percentOf (hits n : Int) : ℚ :=
  Binary64.mul (Binary64.div (Binary64.ofInt hits) (Binary64.ofInt n)) (Binary64.ofInt 100)

/-- The genome names a call of `findRelatedGenomes` returned: those of the output vector when
the call succeeded, none when it failed. -/
def returnedNames (r : Bool × List GenomeMatch) : List String :=
  if r.1 then r.2.map GenomeMatch.genomeName else []

/-- The number of query fragments among the first `j` for which `N` is reported. -/
def hitsBelow (m : GenomeMatcherImpl) (query : Genome) (fragmentLength : Int)
    (exactOnly : Bool) (N : String) (j : Nat) : Nat :=
  ((List.range j).filter (reportsName m query fragmentLength exactOnly N)).length

/-- The table `numMatches` after the first `j` query fragments. -/
def tallyState (m : GenomeMatcherImpl) (query : Genome) (fragmentLength : Int)
    (exactOnly : Bool) (j : Nat) : NameTable :=
  (List.range j).foldl (tallyStep m query fragmentLength exactOnly) []

/-- The vector `localResults` built by the second loop of `findRelatedGenomes`. -/
def relatedRecords (m : GenomeMatcherImpl) (query : Genome) (fragmentLength : Int)
    (exactOnly : Bool) (threshold : ℚ) : List GenomeMatch :=
  (tallyState m query fragmentLength exactOnly (fragmentCount query fragmentLength)).filterMap
    (fun it =>
      if percentOf it.2 (fragmentCount query fragmentLength : Int) ≥ threshold then
        some (⟨it.1, percentOf it.2 (fragmentCount query fragmentLength : Int)⟩ : GenomeMatch)
      else none)

/-- Sample engine for the rounding of the percentage: seed length 1, one genome `AAA`. -/
def roundingLibrary : GenomeMatcherImpl := buildLibrary 1 [Genome.new "G" "AAA".toList]

/-- Sample query of 50 characters, 29 of which (`A`) occur in the sample genome. -/
def roundingQuery : Genome := Genome.new "Q" (List.replicate 29 'A' ++ List.replicate 21 'C')

/-- The candidate `getStrings` builds for one trie match, if it builds one: the record and the
extracted sequence. -/
def candidateOf (genomes : List Genome) (minLength maxLength : Int) (loc : GenomeLoc) :
    Option (DNAMatch × List Char) :=
  match genomeAt genomes loc.genomePos with
  | none => none
  | some g =>
    if loc.index + minLength ≥ g.length then none
    else
      some (⟨g.name,
          if loc.index + maxLength > g.length then g.length - 1 - loc.index else maxLength,
          loc.index⟩,
        (g.extract loc.index
          (if loc.index + maxLength > g.length then g.length - 1 - loc.index else maxLength)
          []).2)

/-- The mismatch budget of a scoring pass: 0 when `exactOnly`, else 1. -/
def mismatchBudget (exactOnly : Bool) : Nat := if exactOnly then 0 else 1

/-- The number of indices `0..p`, `p` included, at which `s` and `fragment` differ. -/
def mismatchesThrough (s fragment : List Char) (p : Nat) : Nat :=
  mismatchCount (s.take (p + 1)) (fragment.take (p + 1))

/-- The index `p` is the least one such that `s[0..p]` and `fragment[0..p]` (both up to and
including index `p`) differ in more than `b` positions. -/
def firstExceeding (s fragment : List Char) (b p : Nat) : Prop :=
  b < mismatchesThrough s fragment p ∧ ∀ q, q < p → mismatchesThrough s fragment q ≤ b

/-- Every value stored below a node satisfies `P`. -/
def Node.All {V : Type} (P : V → Prop) : Node V → Prop
  | .null => True
  | .mk d ch => (∀ v ∈ d, P v) ∧ ∀ i : Fin 26, Node.All P (ch i)

/-! ## Trie: auxiliary lemmas -/

theorem insertAtEnd_eq {V : Type} (r x : List V) : insertAtEnd r x = r ++ x := by
  unfold insertAtEnd
  cases x <;> simp

theorem childAt_setChild {V : Type} (ch : Fin 26 → Node V) (i j : Int) (p : Node V)
    (hi : 0 ≤ i ∧ i < 26) :
    childAt (setChild ch i p) j = if j = i then p else childAt ch j := by
  unfold childAt setChild
  by_cases hj : 0 ≤ j ∧ j < 26
  · simp only [hj, and_self, dite_true]
    have : ((j.toNat : Nat) : Int) = j := Int.toNat_of_nonneg hj.1
    simp [this]
  · have hne : j ≠ i := by rintro rfl; exact hj hi
    simp [hj, hne]

theorem childAt_out {V : Type} (ch : Fin 26 → Node V) (i : Int) (h : ¬ (0 ≤ i ∧ i < 26)) :
    childAt ch i = .null := by
  unfold childAt; simp [h]

theorem foldl_skip_eq_flatMap {V : Type} (g : Nat → List V) (idx : Int) (l : List Nat)
    (init : List V) :
    l.foldl (fun results (i : Nat) =>
        if (i : Int) = idx then results else results ++ g i) init
      = init ++ (l.filter (fun (i : Nat) => decide ((i : Int) ≠ idx))).flatMap g := by
  induction l generalizing init with
  | nil => simp
  | cons a l ih =>
    simp only [List.foldl_cons]
    rw [ih]
    by_cases h : (a : Int) = idx
    · simp [h, List.filter_cons]
    · simp [h, List.filter_cons]

theorem childAt_null_of_isLeaf {V : Type} (d : List V) (ch : Fin 26 → Node V)
    (h : isLeaf (.mk d ch) = true) (i : Int) : childAt ch i = .null := by
  by_cases hi : 0 ≤ i ∧ i < 26
  · simp only [isLeaf, List.all_eq_true, List.mem_range] at h
    have := h i.toNat (by omega)
    rw [Int.toNat_of_nonneg hi.1] at this
    cases hc : childAt ch i with
    | null => rfl
    | mk _ _ => rw [hc] at this; simp [Node.isNull] at this
  · exact childAt_out ch i hi

@[simp] theorem findHelper_null {V : Type} (key : List Char) (b : Bool) :
    findHelper (Node.null : Node V) key b = [] := by
  cases key <;> simp [findHelper]

@[simp] theorem findHelper_nil {V : Type} (d : List V) (ch : Fin 26 → Node V) (b : Bool) :
    findHelper (.mk d ch) [] b = d := by
  simp [findHelper]

theorem findHelper_cons_true {V : Type} (d : List V) (ch : Fin 26 → Node V) (c : Char)
    (cs : List Char) :
    findHelper (.mk d ch) (c :: cs) true = findHelper (childAt ch (charIndex c)) cs true := by
  by_cases hl : isLeaf (.mk d ch) = true
  · simp [findHelper, hl, childAt_null_of_isLeaf d ch hl]
  · simp [findHelper, hl, insertAtEnd_eq]

theorem findHelper_cons_false {V : Type} (d : List V) (ch : Fin 26 → Node V) (c : Char)
    (cs : List Char) :
    findHelper (.mk d ch) (c :: cs) false
      = findHelper (childAt ch (charIndex c)) cs false
        ++ ((List.range 26).filter (fun (i : Nat) => decide ((i : Int) ≠ charIndex c))).flatMap
            (fun i => findHelper (childAt ch (i : Int)) cs true) := by
  by_cases hl : isLeaf (.mk d ch) = true
  · simp [findHelper, hl, childAt_null_of_isLeaf d ch hl]
  · simp only [findHelper, hl, Bool.false_eq_true, if_false, insertAtEnd_eq, List.nil_append]
    exact foldl_skip_eq_flatMap (fun (i : Nat) => findHelper (childAt ch (i : Int)) cs true) _ _ _

theorem charIndex_inj (c c' : Char) : charIndex c = charIndex c' ↔ c = c' := by
  constructor
  · intro h
    have h1 : c.toNat = c'.toNat := by unfold charIndex at h; omega
    rw [← Char.ofNat_toNat c, ← Char.ofNat_toNat c', h1]
  · rintro rfl; rfl

theorem charIndex_range (c : Char) (h : 65 ≤ c.toNat ∧ c.toNat ≤ 90) :
    0 ≤ charIndex c ∧ charIndex c < 26 := by
  unfold charIndex; omega

theorem findHelper_createNode {V : Type} (key : List Char) (b : Bool) :
    findHelper (createNode : Node V) key b = [] := by
  cases key with
  | nil => simp [createNode]
  | cons c cs =>
    have hl : isLeaf (createNode : Node V) = true := by
      simp [isLeaf, createNode, childAt, Node.isNull]
    simp only [createNode] at hl ⊢
    simp [findHelper, hl]

theorem findHelper_orCreate {V : Type} (p : Node V) (key : List Char) (b : Bool) :
    findHelper (orCreate p) key b = findHelper p key b := by
  cases p with
  | null => simp [orCreate, Node.isNull, findHelper_createNode]
  | mk d ch => simp [orCreate, Node.isNull]

theorem orCreate_isNull {V : Type} (p : Node V) : (orCreate p).isNull = false := by
  cases p <;> simp [orCreate, Node.isNull, createNode]

theorem insertLoop_isNull {V : Type} (p : Node V) (key : List Char) (v : V)
    (hp : p.isNull = false) : (insertLoop p key v).isNull = false := by
  cases p with
  | null => simp [Node.isNull] at hp
  | mk d ch => cases key <;> simp [insertLoop, Node.isNull]

/-- One step of the insert loop on a non-null node: the data is kept and exactly the child at
the key character's index is replaced. -/
theorem insertLoop_cons {V : Type} (d : List V) (ch : Fin 26 → Node V) (c : Char)
    (cs : List Char) (v : V) (hc : 0 ≤ charIndex c ∧ charIndex c < 26) :
    ∃ ch', insertLoop (.mk d ch) (c :: cs) v = .mk d ch' ∧
      ∀ j, childAt ch' j =
        if j = charIndex c then insertLoop (orCreate (childAt ch (charIndex c))) cs v
        else childAt ch j := by
  refine ⟨_, rfl, ?_⟩
  intro j
  rw [childAt_setChild _ _ _ _ hc]
  by_cases hj : j = charIndex c
  · subst hj
    simp only [if_true]
    by_cases hn : (childAt ch (charIndex c)).isNull = true
    · simp only [hn, if_true, childAt_setChild _ _ _ _ hc, orCreate]
    · simp only [hn, orCreate]; rfl
  · simp only [hj, if_false]
    by_cases hn : (childAt ch (charIndex c)).isNull = true
    · simp only [hn, if_true, childAt_setChild _ _ _ _ hc, hj, if_false]
    · simp only [hn]; rfl

/-- Exact lookup below a node after the insert loop ran from that node. -/
theorem findHelper_insertLoop_true {V : Type} (v : V) (key : List Char) :
    ∀ (p : Node V) (k : List Char), p.isNull = false → upperKey key = true →
      findHelper (insertLoop p key v) k true
        = findHelper p k true ++ (if k = key then [v] else []) := by
  induction key with
  | nil =>
    intro p k hp _
    cases p with
    | null => simp [Node.isNull] at hp
    | mk d ch =>
      cases k with
      | nil => simp [insertLoop]
      | cons c cs => simp [insertLoop, findHelper_cons_true]
  | cons c' cs' ih =>
    intro p k hp hk
    cases p with
    | null => simp [Node.isNull] at hp
    | mk d ch =>
      simp only [upperKey, List.all_cons, Bool.and_eq_true, decide_eq_true_eq] at hk
      have hc := charIndex_range c' hk.1
      obtain ⟨ch', he, hch'⟩ := insertLoop_cons d ch c' cs' v hc
      rw [he]
      cases k with
      | nil => simp
      | cons c cs =>
        rw [findHelper_cons_true, findHelper_cons_true, hch']
        by_cases hcc : c = c'
        · subst hcc
          simp only [if_true]
          rw [ih _ cs (orCreate_isNull _) (by simpa [upperKey] using hk.2), findHelper_orCreate]
          simp
        · have : charIndex c ≠ charIndex c' := fun h => hcc ((charIndex_inj _ _).1 h)
          simp [this, hcc]

theorem flatMap_single_extra {V : Type} (l : List Nat) (hl : l.Nodup) (i0 : Nat) (hi : i0 ∈ l)
    (f f' : Nat → List V) (X : List V) (h0 : f' i0 = f i0 ++ X)
    (hne : ∀ i, i ≠ i0 → f' i = f i) :
    List.Perm (l.flatMap f') (l.flatMap f ++ X) := by
  induction l with
  | nil => simp at hi
  | cons a l ih =>
    rw [List.nodup_cons] at hl
    simp only [List.flatMap_cons]
    by_cases ha : a = i0
    · subst ha
      have hrest : l.flatMap f' = l.flatMap f := by
        apply List.flatMap_congr
        intro i him
        exact hne i (fun h => hl.1 (h ▸ him))
      rw [hrest, h0, List.append_assoc, List.append_assoc]
      exact List.Perm.append_left _ List.perm_append_comm
    · have him : i0 ∈ l := by
        rcases List.mem_cons.1 hi with h | h
        · exact absurd h.symm ha
        · exact h
      rw [hne a ha, List.append_assoc]
      exact List.Perm.append_left _ (ih hl.2 him)

theorem mismatchCount_eq_zero_iff (a b : List Char) (hlen : a.length = b.length) :
    mismatchCount a b = 0 ↔ a = b := by
  induction a generalizing b with
  | nil => cases b <;> simp_all [mismatchCount]
  | cons x xs ih =>
    cases b with
    | nil => simp at hlen
    | cons y ys =>
      simp only [List.length_cons, add_left_inj] at hlen
      by_cases hxy : x = y
      · simp [mismatchCount, hxy, ih ys hlen]
      · simp [mismatchCount, hxy]

/-- Approximate lookup below a node after the insert loop ran from that node: the new value
shows up exactly when the remaining key has the same length and at most one mismatch. -/
theorem findHelper_insertLoop_false {V : Type} (v : V) (key : List Char) :
    ∀ (p : Node V) (k : List Char), p.isNull = false → upperKey key = true →
      List.Perm (findHelper (insertLoop p key v) k false)
        (findHelper p k false
          ++ (if key.length = k.length ∧ mismatchCount key k ≤ 1 then [v] else [])) := by
  induction key with
  | nil =>
    intro p k hp _
    cases p with
    | null => simp [Node.isNull] at hp
    | mk d ch =>
      cases k with
      | nil => simp [insertLoop, mismatchCount]
      | cons c cs => simp [insertLoop, findHelper_cons_false]
  | cons c' cs' ih =>
    intro p k hp hk
    cases p with
    | null => simp [Node.isNull] at hp
    | mk d ch =>
      simp only [upperKey, List.all_cons, Bool.and_eq_true, decide_eq_true_eq] at hk
      have hc := charIndex_range c' hk.1
      have hk2 : upperKey cs' = true := by simpa [upperKey] using hk.2
      obtain ⟨ch', he, hch'⟩ := insertLoop_cons d ch c' cs' v hc
      rw [he]
      cases k with
      | nil => simp
      | cons c cs =>
        rw [findHelper_cons_false, findHelper_cons_false]
        by_cases hcc : c = c'
        · subst hcc
          have hsib : ((List.range 26).filter
                (fun (i : Nat) => decide ((i : Int) ≠ charIndex c))).flatMap
                  (fun i => findHelper (childAt ch' (i : Int)) cs true)
              = ((List.range 26).filter
                (fun (i : Nat) => decide ((i : Int) ≠ charIndex c))).flatMap
                  (fun i => findHelper (childAt ch (i : Int)) cs true) := by
            apply List.flatMap_congr
            intro i hi
            simp only [List.mem_filter, decide_eq_true_eq] at hi
            rw [hch', if_neg hi.2]
          rw [hsib, hch', if_pos rfl]
          have h1 := ih (orCreate (childAt ch (charIndex c))) cs (orCreate_isNull _) hk2
          rw [findHelper_orCreate] at h1
          have hcond : ((c :: cs').length = (c :: cs).length ∧ mismatchCount (c :: cs') (c :: cs) ≤ 1)
              ↔ (cs'.length = cs.length ∧ mismatchCount cs' cs ≤ 1) := by
            simp [mismatchCount]
          simp only [hcond]
          refine (h1.append_right _).trans ?_
          rw [List.append_assoc, List.append_assoc]
          exact List.Perm.append_left _ List.perm_append_comm
        · have hne : charIndex c' ≠ charIndex c := fun h => hcc ((charIndex_inj _ _).1 h).symm
          have hex : findHelper (childAt ch' (charIndex c)) cs false
              = findHelper (childAt ch (charIndex c)) cs false := by
            rw [hch', if_neg (Ne.symm hne)]
          rw [hex, List.append_assoc]
          refine List.Perm.append_left _ ?_
          have hcond : ((c' :: cs').length = (c :: cs).length ∧ mismatchCount (c' :: cs') (c :: cs) ≤ 1)
              ↔ cs = cs' := by
            have hcc' : ¬ c' = c := fun h => hcc h.symm
            simp only [List.length_cons, add_left_inj, mismatchCount, hcc', if_false]
            constructor
            · rintro ⟨hl, hm⟩
              exact ((mismatchCount_eq_zero_iff cs' cs hl).1 (by omega)).symm
            · rintro rfl
              exact ⟨rfl, by rw [(mismatchCount_eq_zero_iff cs cs rfl).2 rfl]⟩
          simp only [hcond]
          apply flatMap_single_extra _ ((List.nodup_range 26).filter _) (charIndex c').toNat
          · simp only [List.mem_filter, List.mem_range, decide_eq_true_eq]
            refine ⟨by omega, ?_⟩
            rw [Int.toNat_of_nonneg hc.1]; exact hne
          · simp only [Int.toNat_of_nonneg hc.1]
            rw [hch', if_pos rfl,
              findHelper_insertLoop_true v cs' _ cs (orCreate_isNull _) hk2, findHelper_orCreate]
          · intro i hi
            have : (i : Int) ≠ charIndex c' := by
              intro h; apply hi; rw [← h]; simp
            rw [hch', if_neg this]

theorem find_cons_eq {V : Type} (d : List V) (ch : Fin 26 → Node V) (c : Char) (cs : List Char)
    (b : Bool) :
    (Trie.mk (.mk d ch)).find (c :: cs) b = findHelper (childAt ch (charIndex c)) cs b := by
  simp only [Trie.find]
  cases h : childAt ch (charIndex c) with
  | null => simp [Node.isNull]
  | mk d' ch' => simp [Node.isNull]

theorem find_new {V : Type} (k : List Char) (b : Bool) : (Trie.new : Trie V).find k b = [] := by
  cases k with
  | nil => simp [Trie.find]
  | cons c cs =>
    simp only [Trie.new, createNode]
    rw [find_cons_eq]
    simp [childAt]

theorem insert_root_isNull {V : Type} (t : Trie V) (key : List Char) (v : V)
    (ht : t.m_root.isNull = false) : (t.insert key v).m_root.isNull = false :=
  insertLoop_isNull _ _ _ ht

theorem validKey_cons {key : List Char} (h : validKey key = true) :
    ∃ c cs, key = c :: cs ∧ (65 ≤ c.toNat ∧ c.toNat ≤ 90) ∧ upperKey cs = true := by
  cases key with
  | nil => simp [validKey] at h
  | cons c cs =>
    refine ⟨c, cs, rfl, ?_⟩
    simpa [validKey, upperKey] using h

/-- Effect of one `insert` on exact lookups. -/
theorem find_insert_true {V : Type} (t : Trie V) (ht : t.m_root.isNull = false)
    (key k : List Char) (v : V) (hkey : validKey key = true) (hk : k ≠ []) :
    (t.insert key v).find k true = t.find k true ++ (if k = key then [v] else []) := by
  obtain ⟨c', cs', rfl, hc', hcs'⟩ := validKey_cons hkey
  obtain ⟨r⟩ := t
  cases r with
  | null => simp [Node.isNull] at ht
  | mk d ch =>
    cases k with
    | nil => exact absurd rfl hk
    | cons c cs =>
      have hc := charIndex_range c' hc'
      obtain ⟨ch', he, hch'⟩ := insertLoop_cons d ch c' cs' v hc
      simp only [Trie.insert, he]
      rw [find_cons_eq, find_cons_eq, hch']
      by_cases hcc : c = c'
      · subst hcc
        rw [if_pos rfl, findHelper_insertLoop_true v cs' _ cs (orCreate_isNull _) hcs',
          findHelper_orCreate]
        simp
      · have : charIndex c ≠ charIndex c' := fun h => hcc ((charIndex_inj _ _).1 h)
        simp [this, hcc]

/-- Effect of one `insert` on approximate lookups. -/
theorem find_insert_false {V : Type} (t : Trie V) (ht : t.m_root.isNull = false)
    (key k : List Char) (v : V) (hkey : validKey key = true) (hk : k ≠ []) :
    List.Perm ((t.insert key v).find k false)
      (t.find k false ++ (if nearKey k key = true then [v] else [])) := by
  obtain ⟨c', cs', rfl, hc', hcs'⟩ := validKey_cons hkey
  obtain ⟨r⟩ := t
  cases r with
  | null => simp [Node.isNull] at ht
  | mk d ch =>
    cases k with
    | nil => exact absurd rfl hk
    | cons c cs =>
      have hc := charIndex_range c' hc'
      obtain ⟨ch', he, hch'⟩ := insertLoop_cons d ch c' cs' v hc
      simp only [Trie.insert, he]
      rw [find_cons_eq, find_cons_eq, hch']
      by_cases hcc : c = c'
      · subst hcc
        rw [if_pos rfl]
        have h1 := findHelper_insertLoop_false v cs' (orCreate (childAt ch (charIndex c))) cs
          (orCreate_isNull _) hcs'
        rw [findHelper_orCreate] at h1
        have hcond : nearKey (c :: cs) (c :: cs') = true
            ↔ (cs'.length = cs.length ∧ mismatchCount cs' cs ≤ 1) := by
          simp [nearKey, mismatchCount]
        simpa only [hcond] using h1
      · have hne : charIndex c ≠ charIndex c' := fun h => hcc ((charIndex_inj _ _).1 h)
        have hcond : ¬ nearKey (c :: cs) (c' :: cs') = true := by
          have hcc' : ¬ c' = c := fun h => hcc h.symm
          simp [nearKey, hcc']
        simp [hne, hcond]

theorem foldl_insert_isNull {V : Type} (ins : List (List Char × V)) (t : Trie V)
    (ht : t.m_root.isNull = false) :
    (ins.foldl (fun t p => t.insert p.1 p.2) t).m_root.isNull = false := by
  induction ins generalizing t with
  | nil => exact ht
  | cons p ps ih => exact ih _ (insert_root_isNull t p.1 p.2 ht)

theorem buildTrie_isNull {V : Type} (ins : List (List Char × V)) :
    (buildTrie ins).m_root.isNull = false :=
  foldl_insert_isNull ins _ rfl

theorem find_foldl_insert_true {V : Type} (ins : List (List Char × V)) (t : Trie V)
    (ht : t.m_root.isNull = false) (k : List Char)
    (hins : ∀ p ∈ ins, validKey p.1 = true) (hk : k ≠ []) :
    (ins.foldl (fun t p => t.insert p.1 p.2) t).find k true
      = t.find k true ++ (ins.filter (fun p => decide (p.1 = k))).map Prod.snd := by
  induction ins generalizing t with
  | nil => simp
  | cons p ps ih =>
    simp only [List.foldl_cons]
    rw [ih _ (insert_root_isNull t p.1 p.2 ht) (fun q hq => hins q (List.mem_cons_of_mem _ hq)),
      find_insert_true t ht p.1 k p.2 (hins p (List.mem_cons_self _ _)) hk]
    by_cases hpk : p.1 = k
    · simp [hpk, List.filter_cons]
    · have : ¬ k = p.1 := fun h => hpk h.symm
      simp [hpk, this, List.filter_cons]

theorem find_foldl_insert_false {V : Type} (ins : List (List Char × V)) (t : Trie V)
    (ht : t.m_root.isNull = false) (k : List Char)
    (hins : ∀ p ∈ ins, validKey p.1 = true) (hk : k ≠ []) :
    List.Perm ((ins.foldl (fun t p => t.insert p.1 p.2) t).find k false)
      (t.find k false ++ (ins.filter (fun p => nearKey k p.1)).map Prod.snd) := by
  induction ins generalizing t with
  | nil => simp
  | cons p ps ih =>
    simp only [List.foldl_cons]
    refine (ih _ (insert_root_isNull t p.1 p.2 ht)
      (fun q hq => hins q (List.mem_cons_of_mem _ hq))).trans ?_
    refine ((find_insert_false t ht p.1 k p.2 (hins p (List.mem_cons_self _ _)) hk).append_right
      _).trans ?_
    by_cases hpk : nearKey k p.1 = true
    · simp [hpk, List.filter_cons]
    · simp [hpk, List.filter_cons]

/-! ## Genome and library: auxiliary lemmas -/

theorem foldl_push_eq (s acc : List Char) : s.foldl (fun a c => a ++ [c]) acc = acc ++ s := by
  induction s generalizing acc with
  | nil => simp
  | cons c cs ih => simp [ih]

theorem Genome.new_eq (nm : String) (s : List Char) : Genome.new nm s = ⟨nm, s⟩ := by
  simp [Genome.new, foldl_push_eq]

theorem extract_in_range (g : Genome) (position length : Int) (fragment : List Char)
    (hp : 0 ≤ position) (hl : 0 ≤ length) (h : position + length ≤ g.length) :
    g.extract position length fragment
      = (true, (g.m_sequence.drop position.toNat).take length.toNat) := by
  unfold Genome.extract
  have h2 : ¬ ((position + length) % 2 ^ 64 > (g.m_sequence.length : Int)) := by
    unfold Genome.length at h; omega
  rw [if_neg h2]

theorem addGenome_genomes (m : GenomeMatcherImpl) (g : Genome) :
    (m.addGenome g).m_genomes = m.m_genomes ++ [g] := rfl

theorem addGenome_seed (m : GenomeMatcherImpl) (g : Genome) :
    (m.addGenome g).m_minSearchLength = m.m_minSearchLength := rfl

theorem addGenome_foldl_eq (g : Genome) (seed pos : Int) (hseed : 0 ≤ seed) (l : List Nat)
    (hl : ∀ i ∈ l, (i : Int) + seed ≤ g.length) (t : Trie GenomeLoc) (s : List Char) :
    (l.foldl (addGenomeStep g seed pos) (t, s)).1
      = (l.map (fun i => (substringAt g.m_sequence i seed, (⟨(i : Int), pos⟩ : GenomeLoc)))).foldl
          (fun t p => t.insert p.1 p.2) t := by
  induction l generalizing t s with
  | nil => rfl
  | cons i l ih =>
    simp only [List.foldl_cons, List.map_cons]
    have hi := hl i (List.mem_cons_self _ _)
    have he := extract_in_range g (i : Int) seed s (by omega) hseed hi
    have hstep : addGenomeStep g seed pos (t, s) i
        = (t.insert (substringAt g.m_sequence i seed) ⟨(i : Int), pos⟩,
            substringAt g.m_sequence i seed) := by
      simp [addGenomeStep, he, substringAt]
    rw [hstep]
    exact ih (fun j hj => hl j (List.mem_cons_of_mem _ hj)) _ _

theorem addGenome_trie (m : GenomeMatcherImpl) (g : Genome) (hseed : 0 ≤ m.m_minSearchLength) :
    (m.addGenome g).m_trie
      = ((List.range (g.length - m.m_minSearchLength).toNat).map
          (fun i => (substringAt g.m_sequence i m.m_minSearchLength,
            (⟨(i : Int), (m.m_genomes.length : Int)⟩ : GenomeLoc)))).foldl
          (fun t p => t.insert p.1 p.2) m.m_trie := by
  have h := addGenome_foldl_eq g m.m_minSearchLength (((m.m_genomes ++ [g]).length : Int) - 1)
    hseed (List.range (g.length - m.m_minSearchLength).toNat)
    (by intro i hi; rw [List.mem_range] at hi; omega) m.m_trie []
  have hpos : (((m.m_genomes ++ [g]).length : Int) - 1) = (m.m_genomes.length : Int) := by
    simp
  have hdef : (m.addGenome g).m_trie
      = ((List.range (g.length - m.m_minSearchLength).toNat).foldl
          (addGenomeStep g m.m_minSearchLength (((m.m_genomes ++ [g]).length : Int) - 1))
          (m.m_trie, [])).1 := rfl
  rw [hdef, h, hpos]

theorem buildLibrary_snoc (seed : Int) (gs : List Genome) (g : Genome) :
    buildLibrary seed (gs ++ [g]) = (buildLibrary seed gs).addGenome g := by
  simp [buildLibrary, List.foldl_append]

theorem buildLibrary_seed (seed : Int) (gs : List Genome) :
    (buildLibrary seed gs).m_minSearchLength = seed := by
  induction gs using List.reverseRecOn with
  | nil => rfl
  | append_singleton gs g ih => rw [buildLibrary_snoc, addGenome_seed, ih]

theorem buildLibrary_genomes (seed : Int) (gs : List Genome) :
    (buildLibrary seed gs).m_genomes = gs := by
  induction gs using List.reverseRecOn with
  | nil => rfl
  | append_singleton gs g ih => rw [buildLibrary_snoc, addGenome_genomes, ih]

theorem addGenomeStep_root (g : Genome) (seed pos : Int) (st : Trie GenomeLoc × List Char)
    (i : Nat) (h : st.1.m_root.isNull = false) :
    (addGenomeStep g seed pos st i).1.m_root.isNull = false := by
  unfold addGenomeStep
  simp only
  split
  · exact insert_root_isNull _ _ _ h
  · exact h

theorem addGenome_root (m : GenomeMatcherImpl) (g : Genome) (h : m.m_trie.m_root.isNull = false) :
    (m.addGenome g).m_trie.m_root.isNull = false := by
  unfold GenomeMatcherImpl.addGenome
  simp only
  generalize (List.range (g.length - m.m_minSearchLength).toNat) = l
  have : ∀ (st : Trie GenomeLoc × List Char), st.1.m_root.isNull = false →
      (l.foldl (addGenomeStep g m.m_minSearchLength
        (((m.m_genomes ++ [g]).length : Int) - 1)) st).1.m_root.isNull = false := by
    induction l with
    | nil => intro st hst; exact hst
    | cons i l ih => intro st hst; exact ih _ (addGenomeStep_root g _ _ st i hst)
  exact this _ h

theorem buildLibrary_root (seed : Int) (gs : List Genome) :
    (buildLibrary seed gs).m_trie.m_root.isNull = false := by
  induction gs using List.reverseRecOn with
  | nil => rfl
  | append_singleton gs g ih => rw [buildLibrary_snoc]; exact addGenome_root _ g ih

theorem dnaSequence_upper (s : List Char) (h : dnaSequence s = true) : upperKey s = true := by
  simp only [dnaSequence, List.all_eq_true] at h
  simp only [upperKey, List.all_eq_true, decide_eq_true_eq]
  intro c hc
  have := h c hc
  simp only [Bool.or_eq_true, beq_iff_eq] at this
  rcases this with (((rfl | rfl) | rfl) | rfl) | rfl <;> decide

theorem upperKey_substringAt (s : List Char) (i : Nat) (len : Int) (h : upperKey s = true) :
    upperKey (substringAt s i len) = true := by
  simp only [upperKey, List.all_eq_true] at h ⊢
  intro c hc
  exact h c (List.mem_of_mem_drop (List.mem_of_mem_take hc))

theorem length_substringAt (s : List Char) (i : Nat) (len : Int)
    (h : (i : Int) + len ≤ (s.length : Int)) : (substringAt s i len).length = len.toNat := by
  simp only [substringAt, List.length_take, List.length_drop]
  omega

theorem validKey_substringAt (s : List Char) (i : Nat) (len : Int) (hs : dnaSequence s = true)
    (hl : 1 ≤ len) (h : (i : Int) + len ≤ (s.length : Int)) :
    validKey (substringAt s i len) = true := by
  have hlen := length_substringAt s i len h
  have hne : (substringAt s i len) ≠ [] := by
    intro h0; rw [h0] at hlen; simp at hlen; omega
  simp [validKey, hne, upperKey_substringAt s i len (dnaSequence_upper s hs)]

/-! ## Name tables: auxiliary lemmas -/

theorem NameTable.any_iff (t : NameTable) (key : String) :
    t.any (fun e => e.1 == key) = true ↔ key ∈ NameTable.keys t := by
  simp only [List.any_eq_true, beq_iff_eq, NameTable.keys, List.mem_map]

theorem NameTable.touch_of_mem (t : NameTable) (key : String) (h : key ∈ NameTable.keys t) :
    NameTable.touch t key = t := by
  unfold NameTable.touch
  rw [if_pos ((NameTable.any_iff t key).2 h)]

theorem NameTable.touch_of_not_mem (t : NameTable) (key : String)
    (h : key ∉ NameTable.keys t) : NameTable.touch t key = t ++ [(key, 0)] := by
  unfold NameTable.touch
  rw [if_neg (fun h' => h ((NameTable.any_iff t key).1 h'))]

theorem NameTable.mem_keys_touch (t : NameTable) (key k : String) :
    k ∈ NameTable.keys (NameTable.touch t key) ↔ k ∈ NameTable.keys t ∨ k = key := by
  by_cases h : key ∈ NameTable.keys t
  · rw [NameTable.touch_of_mem t key h]
    constructor
    · intro hk; exact Or.inl hk
    · rintro (hk | rfl)
      · exact hk
      · exact h
  · rw [NameTable.touch_of_not_mem t key h]
    simp [NameTable.keys]

theorem NameTable.nodup_touch (t : NameTable) (key : String)
    (h : (NameTable.keys t).Nodup) : (NameTable.keys (NameTable.touch t key)).Nodup := by
  by_cases hk : key ∈ NameTable.keys t
  · rw [NameTable.touch_of_mem t key hk]; exact h
  · rw [NameTable.touch_of_not_mem t key hk]
    simp only [NameTable.keys, List.map_append, List.map_cons, List.map_nil]
    rw [List.nodup_append]
    refine ⟨h, by simp, ?_⟩
    intro a ha hb
    simp only [List.mem_singleton] at hb
    subst hb
    exact hk ha

theorem NameTable.mem_touch (t : NameTable) (key : String) (e : String × Int) :
    e ∈ NameTable.touch t key ↔ e ∈ t ∨ (key ∉ NameTable.keys t ∧ e = (key, 0)) := by
  by_cases h : key ∈ NameTable.keys t
  · rw [NameTable.touch_of_mem t key h]; simp [h]
  · rw [NameTable.touch_of_not_mem t key h]; simp [h]

theorem NameTable.keys_assign (t : NameTable) (key : String) (v : Int) :
    NameTable.keys (NameTable.assign t key v) = NameTable.keys (NameTable.touch t key) := by
  unfold NameTable.assign NameTable.keys
  rw [List.map_map]
  apply List.map_congr_left
  intro e _
  by_cases h : e.1 = key
  · simp [h]
  · simp [h]

theorem NameTable.mem_assign (t : NameTable) (key : String) (v : Int) (e : String × Int) :
    e ∈ NameTable.assign t key v ↔ e = (key, v) ∨ (e.1 ≠ key ∧ e ∈ t) := by
  unfold NameTable.assign
  rw [List.mem_map]
  constructor
  · rintro ⟨a, ha, rfl⟩
    by_cases h : a.1 = key
    · left; simp [h]
    · right
      simp only [beq_iff_eq, h, if_false]
      refine ⟨h, ?_⟩
      rcases (NameTable.mem_touch t key a).1 ha with h1 | ⟨_, h2⟩
      · exact h1
      · exact absurd (by rw [h2]) h
  · rintro (rfl | ⟨hne, he⟩)
    · have hk : key ∈ NameTable.keys (NameTable.touch t key) :=
        (NameTable.mem_keys_touch t key key).2 (Or.inr rfl)
      simp only [NameTable.keys, List.mem_map] at hk
      obtain ⟨a, ha, rfl⟩ := hk
      exact ⟨a, ha, by simp⟩
    · exact ⟨e, (NameTable.mem_touch t key e).2 (Or.inl he), by simp [hne]⟩

theorem NameTable.get_of_not_mem (t : NameTable) (key : String)
    (h : key ∉ NameTable.keys t) : NameTable.get t key = 0 := by
  unfold NameTable.get
  have : t.find? (fun e => e.1 == key) = none := by
    rw [List.find?_eq_none]
    intro e he hek
    simp only [beq_iff_eq] at hek
    exact h (by simp only [NameTable.keys, List.mem_map]; exact ⟨e, he, hek⟩)
  rw [this]

theorem NameTable.get_of_mem (t : NameTable) (key : String) (v : Int)
    (hnd : (NameTable.keys t).Nodup) (h : (key, v) ∈ t) : NameTable.get t key = v := by
  unfold NameTable.get
  induction t with
  | nil => simp at h
  | cons a t ih =>
    simp only [NameTable.keys, List.map_cons, List.nodup_cons] at hnd
    by_cases ha : a.1 = key
    · have hfind : List.find? (fun e => e.1 == key) (a :: t) = some a := by
        simp [List.find?_cons, ha]
      rw [hfind]
      rcases List.mem_cons.1 h with h1 | h1
      · rw [← h1]
      · exfalso
        apply hnd.1
        rw [ha, List.mem_map]
        exact ⟨(key, v), h1, rfl⟩
    · have hfind : List.find? (fun e => e.1 == key) (a :: t)
          = List.find? (fun e => e.1 == key) t := by
        simp [List.find?_cons, ha]
      rw [hfind]
      rcases List.mem_cons.1 h with h1 | h1
      · exact absurd (by rw [← h1]) ha
      · exact ih hnd.2 h1

theorem NameTable.nodup_assign (t : NameTable) (key : String) (v : Int)
    (h : (NameTable.keys t).Nodup) : (NameTable.keys (NameTable.assign t key v)).Nodup := by
  rw [NameTable.keys_assign]; exact NameTable.nodup_touch t key h

theorem NameTable.get_assign_self (t : NameTable) (key : String) (v : Int)
    (h : (NameTable.keys t).Nodup) : NameTable.get (NameTable.assign t key v) key = v :=
  NameTable.get_of_mem _ key v (NameTable.nodup_assign t key v h)
    ((NameTable.mem_assign t key v (key, v)).2 (Or.inl rfl))

theorem NameTable.mem_of_mem_keys (t : NameTable) (key : String) (h : key ∈ NameTable.keys t) :
    (key, NameTable.get t key) ∈ t := by
  induction t with
  | nil => simp [NameTable.keys] at h
  | cons a t ih =>
    by_cases ha : a.1 = key
    · have : NameTable.get (a :: t) key = a.2 := by
        simp [NameTable.get, List.find?_cons, ha]
      rw [this, ← ha]
      exact List.mem_cons_self _ _
    · have hg : NameTable.get (a :: t) key = NameTable.get t key := by
        simp [NameTable.get, List.find?_cons, ha]
      rw [hg]
      have hk : key ∈ NameTable.keys t := by
        simp only [NameTable.keys, List.map_cons, List.mem_cons] at h
        rcases h with h | h
        · exact absurd h.symm ha
        · exact h
      exact List.mem_cons_of_mem _ (ih hk)

theorem NameTable.get_assign_other (t : NameTable) (key k : String) (v : Int)
    (h : (NameTable.keys t).Nodup) (hk : k ≠ key) :
    NameTable.get (NameTable.assign t key v) k = NameTable.get t k := by
  by_cases hm : k ∈ NameTable.keys t
  · apply NameTable.get_of_mem _ k _ (NameTable.nodup_assign t key v h)
    rw [NameTable.mem_assign]
    exact Or.inr ⟨hk, NameTable.mem_of_mem_keys t k hm⟩
  · rw [NameTable.get_of_not_mem t k hm]
    apply NameTable.get_of_not_mem
    rw [NameTable.keys_assign, NameTable.mem_keys_touch]
    rintro (h1 | h1)
    · exact hm h1
    · exact hk h1

/-! ## The scoring and deduplication loop: auxiliary lemmas -/

theorem matchAt_set_name (l : List DNAMatch) (i : Nat) (z : Int) (j : Int) :
    (matchAt (l.set i { matchAt l (i : Int) with length := z }) j).genomeName
        = (matchAt l j).genomeName
    ∧ (matchAt (l.set i { matchAt l (i : Int) with length := z }) j).position
        = (matchAt l j).position := by
  unfold matchAt
  have hi0 : ¬ ((i : Int) < 0) := by omega
  simp only [hi0, if_false, List.getD_eq_getElem?_getD, Int.toNat_ofNat]
  by_cases hneg : j < 0
  · simp [hneg]
  simp only [hneg, if_false]
  by_cases hij : i = j.toNat
  · subst hij
    by_cases hlt : j.toNat < l.length
    · simp [List.getElem?_set_self, hlt]
    · have hge : l.length ≤ j.toNat := by omega
      simp [List.getElem?_eq_none, hge]
  · simp [List.getElem?_set_ne hij]

theorem dedupInv_touch {D0 : List DNAMatch} {S : List (List Char)} {fragment : List Char}
    {minimumLength : Int} {exact : Bool} {j : Nat} {st : List DNAMatch × NameTable}
    (D : List DNAMatch) (T : NameTable)
    (h : DedupInv D0 S fragment minimumLength exact j st) (hj : j < D0.length)
    (hacc : accepted S fragment minimumLength exact j = true)
    (hlen : D.length = D0.length)
    (hD : ∀ i : Int, (matchAt D i).genomeName = (matchAt D0 i).genomeName
      ∧ (matchAt D i).position = (matchAt D0 i).position)
    (hkeys : ∀ N, N ∈ NameTable.keys T ↔
      N ∈ NameTable.keys st.2 ∨ N = (matchAt D0 (j : Int)).genomeName)
    (hnd : (NameTable.keys T).Nodup)
    (hent : ∀ e ∈ T, e ∈ st.2 ∨ e = ((matchAt D0 (j : Int)).genomeName, (j : Int))
      ∨ (e = ((matchAt D0 (j : Int)).genomeName, 0)
          ∧ (matchAt D0 0).genomeName = (matchAt D0 (j : Int)).genomeName)) :
    DedupInv D0 S fragment minimumLength exact (j + 1) (D, T) := by
  obtain ⟨_, _, _, h4, h5⟩ := h
  refine ⟨hlen, hD, hnd, ?_, ?_⟩
  · intro e he
    rcases hent e he with h1 | h1 | ⟨h1, h2⟩
    · exact h4 e h1
    · subst h1
      exact ⟨by simp, by simp; omega, rfl⟩
    · subst h1
      exact ⟨le_refl _, by simp; omega, h2⟩
  · intro N
    rw [hkeys, h5]
    constructor
    · rintro (⟨i, hi, ha, hn⟩ | rfl)
      · exact ⟨i, by omega, ha, hn⟩
      · exact ⟨j, by omega, hacc, rfl⟩
    · rintro ⟨i, hi, ha, hn⟩
      by_cases hij : i = j
      · subst hij; exact Or.inr hn.symm
      · exact Or.inl ⟨i, by omega, ha, hn⟩

theorem dedupStep_rejected (S : List (List Char)) (fragment : List Char) (minimumLength : Int)
    (exact : Bool) (st : List DNAMatch × NameTable) (j : Nat)
    (h : accepted S fragment minimumLength exact j = false) :
    dedupStep S fragment minimumLength exact st j = st := by
  unfold accepted at h
  simp only [dedupStep, h, Bool.not_false, if_true]

theorem dedupInv_step {D0 : List DNAMatch} {S : List (List Char)} {fragment : List Char}
    {minimumLength : Int} {exact : Bool} {j : Nat} {st : List DNAMatch × NameTable}
    (h : DedupInv D0 S fragment minimumLength exact j st) (hj : j < D0.length) :
    DedupInv D0 S fragment minimumLength exact (j + 1)
      (dedupStep S fragment minimumLength exact st j) := by
  by_cases hacc : accepted S fragment minimumLength exact j = true
  · have hr : (checkSnip (S.getD j []) fragment minimumLength 0 exact).1 = true := hacc
    obtain ⟨h1, h2, h3, h4, h5⟩ := id h
    -- the vector after the possible update of `length`
    have hDfacts : ∀ D : List DNAMatch,
        D = (if (checkSnip (S.getD j []) fragment minimumLength 0 exact).2 ≠ 0 then
              st.1.set j { matchAt st.1 (j : Int) with
                length := (checkSnip (S.getD j []) fragment minimumLength 0 exact).2 }
            else st.1) →
        D.length = D0.length ∧ ∀ i : Int, (matchAt D i).genomeName = (matchAt D0 i).genomeName
          ∧ (matchAt D i).position = (matchAt D0 i).position := by
      intro D hD
      by_cases hz : (checkSnip (S.getD j []) fragment minimumLength 0 exact).2 ≠ 0
      · rw [if_pos hz] at hD
        subst hD
        refine ⟨by rw [List.length_set]; exact h1, fun i => ?_⟩
        have := matchAt_set_name st.1 j
          (checkSnip (S.getD j []) fragment minimumLength 0 exact).2 i
        exact ⟨this.1.trans (h2 i).1, this.2.trans (h2 i).2⟩
      · rw [if_neg hz] at hD
        subst hD
        exact ⟨h1, h2⟩
    simp only [dedupStep, hr, Bool.not_true, Bool.false_eq_true, if_false]
    generalize hDdef : (if (checkSnip (S.getD j []) fragment minimumLength 0 exact).2 ≠ 0 then
              st.1.set j { matchAt st.1 (j : Int) with
                length := (checkSnip (S.getD j []) fragment minimumLength 0 exact).2 }
            else st.1) = D
    obtain ⟨hDlen, hDn⟩ := hDfacts D hDdef.symm
    have hname : (matchAt D (j : Int)).genomeName = (matchAt D0 (j : Int)).genomeName :=
      (hDn _).1
    rw [hname]
    generalize hnm : (matchAt D0 (j : Int)).genomeName = name
    have hassign : DedupInv D0 S fragment minimumLength exact (j + 1)
        (D, NameTable.assign (NameTable.touch st.2 name) name (j : Int)) := by
      apply dedupInv_touch D _ h hj hacc hDlen hDn
      · intro N
        rw [NameTable.keys_assign, NameTable.mem_keys_touch, NameTable.mem_keys_touch, hnm]
        tauto
      · exact NameTable.nodup_assign _ _ _ (NameTable.nodup_touch _ _ h3)
      · intro e he
        rw [NameTable.mem_assign] at he
        rcases he with he | ⟨hne, he⟩
        · right; left; rw [hnm]; exact he
        · rcases (NameTable.mem_touch _ _ _).1 he with he | ⟨_, he⟩
          · exact Or.inl he
          · exact absurd (by rw [he]) hne
    have hleave : (NameTable.get st.2 name = 0 → (matchAt D0 0).genomeName = name) →
        DedupInv D0 S fragment minimumLength exact (j + 1) (D, NameTable.touch st.2 name) := by
      intro hzero
      apply dedupInv_touch D _ h hj hacc hDlen hDn
      · intro N
        rw [NameTable.mem_keys_touch, hnm]
      · exact NameTable.nodup_touch _ _ h3
      · intro e he
        rcases (NameTable.mem_touch _ _ _).1 he with he | ⟨hnk, he⟩
        · exact Or.inl he
        · right; right
          rw [hnm]
          exact ⟨he, hzero (NameTable.get_of_not_mem _ _ hnk)⟩
    by_cases hc0 : NameTable.get st.2 name = 0
    · simp only [hc0, if_true]
      by_cases hn0 : (matchAt D 0).genomeName ≠ name
      · rw [if_pos hn0]; exact hassign
      · rw [if_neg hn0]
        by_cases hp : (matchAt D 0).position > (matchAt D (j : Int)).position
        · rw [if_pos hp]; exact hassign
        · rw [if_neg hp]
          apply hleave
          intro _
          rw [← (hDn 0).1]
          exact not_not.1 hn0
    · simp only [hc0, if_false]
      by_cases hp : (matchAt D (NameTable.get st.2 name)).position
          > (matchAt D (j : Int)).position
      · rw [if_pos hp]; exact hassign
      · rw [if_neg hp]
        exact hleave (fun h0 => absurd h0 hc0)
  · have hacc' : accepted S fragment minimumLength exact j = false := by
      simpa using hacc
    rw [dedupStep_rejected S fragment minimumLength exact st j hacc']
    obtain ⟨h1, h2, h3, h4, h5⟩ := h
    refine ⟨h1, h2, h3, h4, ?_⟩
    intro N
    rw [h5]
    constructor
    · rintro ⟨i, hi, ha, hn⟩; exact ⟨i, by omega, ha, hn⟩
    · rintro ⟨i, hi, ha, hn⟩
      have : i ≠ j := by rintro rfl; rw [hacc'] at ha; exact absurd ha (by simp)
      exact ⟨i, by omega, ha, hn⟩

theorem dedupState_succ (D0 : List DNAMatch) (S : List (List Char)) (fragment : List Char)
    (minimumLength : Int) (exact : Bool) (j : Nat) :
    dedupState D0 S fragment minimumLength exact (j + 1)
      = dedupStep S fragment minimumLength exact
          (dedupState D0 S fragment minimumLength exact j) j := by
  simp [dedupState, List.range_succ, List.foldl_append]

theorem dedupInv_state (D0 : List DNAMatch) (S : List (List Char)) (fragment : List Char)
    (minimumLength : Int) (exact : Bool) (j : Nat) (hj : j ≤ D0.length) :
    DedupInv D0 S fragment minimumLength exact j
      (dedupState D0 S fragment minimumLength exact j) := by
  induction j with
  | zero =>
    refine ⟨rfl, fun i => ⟨rfl, rfl⟩, by simp [dedupState, NameTable.keys], ?_, ?_⟩
    · intro e he; simp [dedupState] at he
    · intro N; simp [dedupState, NameTable.keys]
  | succ j ih =>
    rw [dedupState_succ]
    exact dedupInv_step (ih (by omega)) (by omega)

theorem mem_survivors_names (m : GenomeMatcherImpl) (fragment : List Char) (minimumLength : Int)
    (exact : Bool) (N : String) :
    N ∈ (m.survivors fragment minimumLength exact).map DNAMatch.genomeName ↔
      ∃ i, i < (m.candidates fragment minimumLength exact).1.length
        ∧ accepted (m.candidates fragment minimumLength exact).2 fragment minimumLength exact i
            = true
        ∧ (matchAt (m.candidates fragment minimumLength exact).1 (i : Int)).genomeName = N := by
  simp only [GenomeMatcherImpl.survivors, List.map_map, List.mem_map, List.mem_filter,
    List.mem_range, Function.comp]
  constructor
  · rintro ⟨i, ⟨hi, ha⟩, hn⟩; exact ⟨i, hi, ha, hn⟩
  · rintro ⟨i, hi, ha, hn⟩; exact ⟨i, ⟨hi, ha⟩, hn⟩

/-- What `findGenomesWithThisDNA` computes once the parameter check has passed: the records
returned are read off the final name table; their names are pairwise distinct and are exactly
the names of the surviving candidates, and each stems from a candidate. -/
theorem findGenomes_passed (m : GenomeMatcherImpl) (fragment : List Char) (minimumLength : Int)
    (exact : Bool) (mtchs : List DNAMatch)
    (hguard : ¬ ((fragment.length : Int) < minimumLength % 2 ^ 64
      ∨ minimumLength < m.m_minSearchLength)) :
    ∃ results : List DNAMatch,
      m.findGenomesWithThisDNA fragment minimumLength exact mtchs
        = (if results = [] then (false, mtchs) else (true, results))
      ∧ (results.map DNAMatch.genomeName).Nodup
      ∧ (∀ N, N ∈ results.map DNAMatch.genomeName ↔
          N ∈ (m.survivors fragment minimumLength exact).map DNAMatch.genomeName)
      ∧ (∀ r ∈ results, ∃ i : Nat, i < (m.candidates fragment minimumLength exact).1.length
          ∧ r.genomeName
              = (matchAt (m.candidates fragment minimumLength exact).1 (i : Int)).genomeName
          ∧ r.position
              = (matchAt (m.candidates fragment minimumLength exact).1 (i : Int)).position) := by
  generalize hgs : m.candidates fragment minimumLength exact = gs
  have hinv := dedupInv_state gs.1 gs.2 fragment minimumLength exact gs.1.length (le_refl _)
  generalize hst : dedupState gs.1 gs.2 fragment minimumLength exact gs.1.length = st at hinv
  obtain ⟨h1, h2, h3, h4, h5⟩ := hinv
  have hnames : (st.2.map (fun it => matchAt st.1 it.2)).map DNAMatch.genomeName
      = NameTable.keys st.2 := by
    rw [List.map_map]
    apply List.map_congr_left
    intro e he
    simp only [Function.comp]
    rw [(h2 e.2).1]
    exact (h4 e he).2.2
  refine ⟨st.2.map (fun it => matchAt st.1 it.2), ?_, ?_, ?_, ?_⟩
  · unfold GenomeMatcherImpl.findGenomesWithThisDNA
    rw [if_neg hguard]
    have hc : m.getStrings (m.m_trie.find (fragment.take (m.m_minSearchLength % 2 ^ 64).toNat)
        exact) minimumLength (fragment.length : Int) = gs := hgs
    simp only [hc]
    have hd : (List.range gs.1.length).foldl (dedupStep gs.2 fragment minimumLength exact)
        (gs.1, []) = st := hst
    rw [hd]
    by_cases he : st.2.map (fun it => matchAt st.1 it.2) = []
    · simp [he]
    · simp [he]
  · rw [hnames]; exact h3
  · intro N
    rw [hnames, h5, ← hgs, mem_survivors_names]
  · intro r hr
    rw [List.mem_map] at hr
    obtain ⟨e, he, rfl⟩ := hr
    obtain ⟨hlo, hhi, _⟩ := h4 e he
    refine ⟨e.2.toNat, by omega, ?_, ?_⟩
    · rw [Int.toNat_of_nonneg hlo]; exact (h2 e.2).1
    · rw [Int.toNat_of_nonneg hlo]; exact (h2 e.2).2

theorem find_bare {V : Type} (d : List V) (key : List Char) (b : Bool) :
    (Trie.mk (.mk d (fun _ => .null))).find key b = [] := by
  cases key with
  | nil => simp [Trie.find]
  | cons c cs =>
    rw [find_cons_eq]
    simp [childAt]

theorem addGenomeStep_bare (g : Genome) (seed pos : Int) (hseed : seed ≤ 0)
    (st : Trie GenomeLoc × List Char) (i : Nat)
    (h : ∃ d, st.1.m_root = .mk d (fun _ => .null)) :
    ∃ d, (addGenomeStep g seed pos st i).1.m_root = .mk d (fun _ => .null) := by
  obtain ⟨d, hd⟩ := h
  unfold addGenomeStep
  simp only
  split
  · rename_i hs
    have h2 : (g.extract (i : Int) seed st.2).2 = [] := by
      unfold Genome.extract at hs ⊢
      split
      · rename_i hc; rw [if_pos hc] at hs; simp at hs
      · have : seed.toNat = 0 := by omega
        simp [this]
    rw [h2]
    exact ⟨d ++ [⟨(i : Int), pos⟩], by simp [Trie.insert, hd, insertLoop]⟩
  · exact ⟨d, hd⟩

theorem addGenome_bare (m : GenomeMatcherImpl) (g : Genome) (hseed : m.m_minSearchLength ≤ 0)
    (h : ∃ d, m.m_trie.m_root = .mk d (fun _ => .null)) :
    ∃ d, (m.addGenome g).m_trie.m_root = .mk d (fun _ => .null) := by
  unfold GenomeMatcherImpl.addGenome
  simp only
  generalize (List.range (g.length - m.m_minSearchLength).toNat) = l
  have : ∀ (st : Trie GenomeLoc × List Char), (∃ d, st.1.m_root = .mk d (fun _ => .null)) →
      ∃ d, (l.foldl (addGenomeStep g m.m_minSearchLength
        (((m.m_genomes ++ [g]).length : Int) - 1)) st).1.m_root = .mk d (fun _ => .null) := by
    induction l with
    | nil => intro st hst; exact hst
    | cons i l ih => intro st hst; exact ih _ (addGenomeStep_bare g _ _ hseed st i hst)
  exact this _ h

theorem buildLibrary_bare (seed : Int) (gs : List Genome) (hseed : seed ≤ 0) :
    ∃ d, (buildLibrary seed gs).m_trie.m_root = .mk d (fun _ => .null) := by
  induction gs using List.reverseRecOn with
  | nil => exact ⟨[], rfl⟩
  | append_singleton gs g ih =>
    rw [buildLibrary_snoc]
    exact addGenome_bare _ g (by rw [buildLibrary_seed]; exact hseed) ih

theorem seedMatches_nil_of_nonpos (seed : Int) (gs : List Genome) (hseed : seed ≤ 0)
    (fragment : List Char) (exact : Bool) :
    (buildLibrary seed gs).seedMatches fragment exact = [] := by
  obtain ⟨d, hd⟩ := buildLibrary_bare seed gs hseed
  unfold GenomeMatcherImpl.seedMatches
  have : (buildLibrary seed gs).m_trie = Trie.mk (.mk d (fun _ => .null)) := by
    cases h : (buildLibrary seed gs).m_trie with
    | mk r => rw [h] at hd; simp only at hd; rw [hd]
  rw [this, find_bare]

theorem survivors_nil_of_seedMatches_nil (m : GenomeMatcherImpl) (fragment : List Char)
    (minimumLength : Int) (exact : Bool) (h : m.seedMatches fragment exact = []) :
    m.survivors fragment minimumLength exact = [] := by
  simp [GenomeMatcherImpl.survivors, GenomeMatcherImpl.candidates, h,
    GenomeMatcherImpl.getStrings]

/-! ## Binary64 rounding: auxiliary lemmas -/

theorem roundHalfEven_le (x : ℚ) (k : Int) (h : x ≤ (k : ℚ)) : roundHalfEven x ≤ k := by
  have hf : ⌊x⌋ ≤ k := by
    have := Int.floor_le x
    exact_mod_cast (Int.floor_le x).trans h |> fun h' => (Int.cast_le (R := ℚ)).1 h'
  unfold roundHalfEven
  by_cases hlt : ⌊x⌋ < k
  · split_ifs <;> omega
  · have heq : ⌊x⌋ = k := by omega
    have hx : x - (⌊x⌋ : ℚ) < 1 / 2 := by
      rw [heq]
      linarith
    rw [if_pos hx]
    exact hf

theorem le_roundHalfEven (x : ℚ) (k : Int) (h : (k : ℚ) ≤ x) : k ≤ roundHalfEven x := by
  have hf : k ≤ ⌊x⌋ := Int.le_floor.2 h
  unfold roundHalfEven
  split_ifs <;> omega

theorem roundHalfEven_eq (x : ℚ) (k : Int) (h1 : (k : ℚ) - 1 / 2 < x) (h2 : x < (k : ℚ) + 1 / 2) :
    roundHalfEven x = k := by
  unfold roundHalfEven
  by_cases hk : (k : ℚ) ≤ x
  · have hf : ⌊x⌋ = k := by
      rw [Int.floor_eq_iff]
      exact ⟨hk, by linarith⟩
    rw [hf, if_pos (by linarith)]
  · have hf : ⌊x⌋ = k - 1 := by
      rw [Int.floor_eq_iff]
      push_cast
      exact ⟨by linarith, by linarith⟩
    have h3 : ¬ (x - ((k - 1 : Int) : ℚ) < 1 / 2) := by
      push_cast; linarith
    have h4 : 1 / 2 < x - ((k - 1 : Int) : ℚ) := by
      push_cast; linarith
    rw [hf, if_neg h3, if_pos h4]
    omega

theorem log_two_eq (q : ℚ) (e : Int) (hq : 0 < q) (h1 : (2 : ℚ) ^ e ≤ q)
    (h2 : q < (2 : ℚ) ^ (e + 1)) : Int.log 2 q = e := by
  have ha : e ≤ Int.log 2 q :=
    (Int.zpow_le_iff_le_log (b := 2) (by norm_num) hq).1 (by exact_mod_cast h1)
  have hb : Int.log 2 q < e + 1 :=
    (Int.lt_zpow_iff_log_lt (b := 2) (by norm_num) hq).1 (by exact_mod_cast h2)
  omega

theorem two_zpow_log_le (q : ℚ) (hq : 0 < q) : (2 : ℚ) ^ Int.log 2 q ≤ q := by
  have := Int.zpow_log_le_self (b := 2) (r := q) (by norm_num) hq
  exact_mod_cast this

theorem lt_two_zpow_log_succ (q : ℚ) : q < (2 : ℚ) ^ (Int.log 2 q + 1) := by
  have := Int.lt_zpow_succ_log_self (b := 2) (by norm_num) q
  exact_mod_cast this

/-- Evaluation of `Binary64.round` at a positive rational with known binade and significand. -/
theorem Binary64.round_eq (q : ℚ) (e k : Int) (hq : 0 < q) (h1 : (2 : ℚ) ^ e ≤ q)
    (h2 : q < (2 : ℚ) ^ (e + 1))
    (h3 : (k : ℚ) - 1 / 2 < q / (2 : ℚ) ^ (e - 52))
    (h4 : q / (2 : ℚ) ^ (e - 52) < (k : ℚ) + 1 / 2) :
    Binary64.round q = (k : ℚ) * (2 : ℚ) ^ (e - 52) := by
  unfold Binary64.round
  rw [if_neg (ne_of_gt hq), abs_of_pos hq, log_two_eq q e hq h1 h2, roundHalfEven_eq _ k h3 h4]

theorem Binary64.round_pos (q : ℚ) (hq : 0 < q) : 0 < Binary64.round q := by
  unfold Binary64.round
  rw [if_neg (ne_of_gt hq), abs_of_pos hq]
  have hu : (0 : ℚ) < (2 : ℚ) ^ (Int.log 2 q - 52) := zpow_pos (by norm_num) _
  apply mul_pos _ hu
  have h1 : (1 : ℚ) ≤ q / (2 : ℚ) ^ (Int.log 2 q - 52) := by
    rw [le_div_iff₀ hu, one_mul]
    calc (2 : ℚ) ^ (Int.log 2 q - 52) ≤ (2 : ℚ) ^ Int.log 2 q :=
          zpow_le_zpow_right₀ (by norm_num) (by omega)
      _ ≤ q := two_zpow_log_le q hq
  have h2 : (1 : Int) ≤ roundHalfEven (q / (2 : ℚ) ^ (Int.log 2 q - 52)) :=
    le_roundHalfEven _ 1 (by exact_mod_cast h1)
  exact_mod_cast (by omega : (0 : Int) < roundHalfEven (q / (2 : ℚ) ^ (Int.log 2 q - 52)))

/-- Rounding never crosses a binary64 number: if `q ≤ B` and `B` is a multiple of the spacing of
its own binade, then `round q ≤ B`. -/
theorem Binary64.round_le (q B : ℚ) (k : Int) (hq : 0 < q) (hqB : q ≤ B)
    (hB : B = (k : ℚ) * (2 : ℚ) ^ (Int.log 2 B - 52)) : Binary64.round q ≤ B := by
  have hBpos : 0 < B := lt_of_lt_of_le hq hqB
  unfold Binary64.round
  rw [if_neg (ne_of_gt hq), abs_of_pos hq]
  have hu : (0 : ℚ) < (2 : ℚ) ^ (Int.log 2 q - 52) := zpow_pos (by norm_num) _
  have hmono : Int.log 2 q ≤ Int.log 2 B := Int.log_mono_right hq hqB
  rcases eq_or_lt_of_le hmono with heq | hlt
  · have hm : q / (2 : ℚ) ^ (Int.log 2 q - 52) ≤ (k : ℚ) := by
      rw [div_le_iff₀ hu, heq, ← hB]
      exact hqB
    have := roundHalfEven_le _ k hm
    calc (roundHalfEven (q / (2 : ℚ) ^ (Int.log 2 q - 52)) : ℚ) * (2 : ℚ) ^ (Int.log 2 q - 52)
        ≤ (k : ℚ) * (2 : ℚ) ^ (Int.log 2 q - 52) :=
          mul_le_mul_of_nonneg_right (by exact_mod_cast this) (le_of_lt hu)
      _ = B := by rw [heq, ← hB]
  · have hm : q / (2 : ℚ) ^ (Int.log 2 q - 52) ≤ (((2 : Int) ^ 53 : Int) : ℚ) := by
      rw [div_le_iff₀ hu]
      have h53 : ((((2 : Int) ^ 53 : Int) : ℚ)) = (2 : ℚ) ^ (53 : Int) := by norm_num
      rw [h53, ← zpow_add₀ (by norm_num : (2 : ℚ) ≠ 0)]
      have : (53 : Int) + (Int.log 2 q - 52) = Int.log 2 q + 1 := by ring
      rw [this]
      exact le_of_lt (lt_two_zpow_log_succ q)
    have := roundHalfEven_le _ _ hm
    calc (roundHalfEven (q / (2 : ℚ) ^ (Int.log 2 q - 52)) : ℚ) * (2 : ℚ) ^ (Int.log 2 q - 52)
        ≤ (((2 : Int) ^ 53 : Int) : ℚ) * (2 : ℚ) ^ (Int.log 2 q - 52) :=
          mul_le_mul_of_nonneg_right (by exact_mod_cast this) (le_of_lt hu)
      _ = (2 : ℚ) ^ (Int.log 2 q + 1) := by
          have h53 : ((((2 : Int) ^ 53 : Int) : ℚ)) = (2 : ℚ) ^ (53 : Int) := by norm_num
          rw [h53, ← zpow_add₀ (by norm_num : (2 : ℚ) ≠ 0)]
          congr 1; ring
      _ ≤ (2 : ℚ) ^ Int.log 2 B := zpow_le_zpow_right₀ (by norm_num) (by omega)
      _ ≤ B := two_zpow_log_le B hBpos

/-! ## The tally loop of `findRelatedGenomes`: auxiliary lemmas -/

theorem findGenomes_names_nodup (m : GenomeMatcherImpl) (fragment : List Char)
    (minimumLength : Int) (exact : Bool) (mtchs : List DNAMatch)
    (h : (m.findGenomesWithThisDNA fragment minimumLength exact mtchs).1 = true) :
    ((m.findGenomesWithThisDNA fragment minimumLength exact mtchs).2.map
      DNAMatch.genomeName).Nodup := by
  by_cases hguard : (fragment.length : Int) < minimumLength % 2 ^ 64
      ∨ minimumLength < m.m_minSearchLength
  · unfold GenomeMatcherImpl.findGenomesWithThisDNA at h
    rw [if_pos hguard] at h
    simp at h
  · obtain ⟨results, hr, hnd, _, _⟩ :=
      findGenomes_passed m fragment minimumLength exact mtchs hguard
    rw [hr] at h ⊢
    by_cases he : results = []
    · rw [if_pos he] at h; simp at h
    · rw [if_neg he]; exact hnd

/-- Effect of the inner loop `numMatches[matches[j].genomeName] += 1` over records with pairwise
distinct names. -/
theorem tally_inner (L : List DNAMatch) (nm : NameTable)
    (hL : (L.map DNAMatch.genomeName).Nodup) (hnm : (NameTable.keys nm).Nodup) :
    (NameTable.keys (L.foldl
        (fun nm mt => NameTable.assign nm mt.genomeName (NameTable.get nm mt.genomeName + 1))
        nm)).Nodup
    ∧ ∀ N : String,
        NameTable.get (L.foldl
          (fun nm mt => NameTable.assign nm mt.genomeName (NameTable.get nm mt.genomeName + 1))
          nm) N
          = NameTable.get nm N + (if N ∈ L.map DNAMatch.genomeName then 1 else 0)
        ∧ (N ∈ NameTable.keys (L.foldl
            (fun nm mt => NameTable.assign nm mt.genomeName (NameTable.get nm mt.genomeName + 1))
            nm)
          ↔ N ∈ NameTable.keys nm ∨ N ∈ L.map DNAMatch.genomeName) := by
  induction L generalizing nm with
  | nil => exact ⟨hnm, fun N => ⟨by simp, by simp⟩⟩
  | cons a L ih =>
    simp only [List.map_cons, List.nodup_cons] at hL
    simp only [List.foldl_cons]
    have hnd' := NameTable.nodup_assign nm a.genomeName (NameTable.get nm a.genomeName + 1) hnm
    obtain ⟨h1, h2⟩ := ih _ hL.2 hnd'
    refine ⟨h1, fun N => ?_⟩
    obtain ⟨h3, h4⟩ := h2 N
    refine ⟨?_, ?_⟩
    · rw [h3]
      by_cases hN : N = a.genomeName
      · subst hN
        rw [NameTable.get_assign_self _ _ _ hnm]
        simp [hL.1]
      · rw [NameTable.get_assign_other _ _ _ _ hnm hN]
        simp [hN]
    · rw [h4, NameTable.keys_assign, NameTable.mem_keys_touch]
      simp only [List.map_cons, List.mem_cons]
      tauto

theorem hitsBelow_succ (m : GenomeMatcherImpl) (query : Genome) (fragmentLength : Int)
    (exact : Bool) (N : String) (j : Nat) :
    hitsBelow m query fragmentLength exact N (j + 1)
      = hitsBelow m query fragmentLength exact N j
        + (if reportsName m query fragmentLength exact N j = true then 1 else 0) := by
  unfold hitsBelow
  rw [List.range_succ, List.filter_append, List.length_append]
  by_cases h : reportsName m query fragmentLength exact N j = true
  · simp [h]
  · simp [h]

theorem fragment_in_range (query : Genome) (fragmentLength : Int) (hfl : 1 ≤ fragmentLength)
    (j : Nat) (hj : j < fragmentCount query fragmentLength) :
    (j : Int) * fragmentLength + fragmentLength ≤ query.length := by
  unfold fragmentCount at hj
  have h1 : (j : Int) + 1 ≤ query.length / fragmentLength := by omega
  have h2 := (Int.le_ediv_iff_mul_le (by omega : (0 : Int) < fragmentLength)).1 h1
  linarith

theorem extract_queryFragment (query : Genome) (fragmentLength : Int) (hfl : 1 ≤ fragmentLength)
    (j : Nat) (hj : j < fragmentCount query fragmentLength) :
    (query.extract ((j : Int) * fragmentLength) fragmentLength []).2
      = queryFragment query fragmentLength j := by
  have h := fragment_in_range query fragmentLength hfl j hj
  rw [extract_in_range query _ _ [] (by positivity) (by omega) h]
  unfold queryFragment substringAt
  have : ((j : Int) * fragmentLength).toNat = j * fragmentLength.toNat := by
    have h0 : (0 : Int) ≤ fragmentLength := by omega
    obtain ⟨n, hn⟩ := Int.eq_ofNat_of_zero_le h0
    subst hn
    rw [← Int.natCast_mul, Int.toNat_ofNat, Int.toNat_ofNat]
  rw [this]

theorem tallyState_succ (m : GenomeMatcherImpl) (query : Genome) (fragmentLength : Int)
    (exact : Bool) (j : Nat) :
    tallyState m query fragmentLength exact (j + 1)
      = tallyStep m query fragmentLength exact (tallyState m query fragmentLength exact j) j := by
  simp [tallyState, List.range_succ, List.foldl_append]

/-- The invariant of the tally loop: after `j` fragments the table has pairwise distinct keys,
the count of every name is the number of fragments that reported it, and the keys are the
names reported at least once. -/
theorem tally_invariant (m : GenomeMatcherImpl) (query : Genome) (fragmentLength : Int)
    (exact : Bool) (hfl : 1 ≤ fragmentLength) (j : Nat)
    (hj : j ≤ fragmentCount query fragmentLength) :
    (NameTable.keys (tallyState m query fragmentLength exact j)).Nodup
    ∧ ∀ N : String,
        NameTable.get (tallyState m query fragmentLength exact j) N
          = (hitsBelow m query fragmentLength exact N j : Int)
        ∧ (N ∈ NameTable.keys (tallyState m query fragmentLength exact j)
          ↔ 1 ≤ hitsBelow m query fragmentLength exact N j) := by
  induction j with
  | zero =>
    refine ⟨by simp [tallyState, NameTable.keys], fun N => ⟨?_, ?_⟩⟩
    · simp [tallyState, hitsBelow, NameTable.get]
    · simp [tallyState, hitsBelow, NameTable.keys]
  | succ j ih =>
    obtain ⟨hnd, hall⟩ := ih (by omega)
    rw [tallyState_succ]
    unfold tallyStep
    simp only
    rw [extract_queryFragment query fragmentLength hfl j (by omega)]
    by_cases hr : (m.findGenomesWithThisDNA (queryFragment query fragmentLength j)
        fragmentLength exact []).1 = true
    · rw [if_pos hr]
      obtain ⟨h1, h2⟩ := tally_inner _ _ (findGenomes_names_nodup m _ _ _ _ hr) hnd
      refine ⟨h1, fun N => ?_⟩
      obtain ⟨h3, h4⟩ := h2 N
      obtain ⟨h5, h6⟩ := hall N
      have hrep : reportsName m query fragmentLength exact N j = true
          ↔ N ∈ (m.findGenomesWithThisDNA (queryFragment query fragmentLength j)
              fragmentLength exact []).2.map DNAMatch.genomeName := by
        simp [reportsName, hr]
      rw [hitsBelow_succ]
      refine ⟨?_, ?_⟩
      · rw [h3, h5]
        by_cases hN : N ∈ (m.findGenomesWithThisDNA (queryFragment query fragmentLength j)
              fragmentLength exact []).2.map DNAMatch.genomeName
        · rw [if_pos hN, if_pos (hrep.2 hN)]; simp
        · rw [if_neg hN, if_neg (fun h => hN (hrep.1 h))]; simp
      · rw [h4, h6]
        by_cases hN : N ∈ (m.findGenomesWithThisDNA (queryFragment query fragmentLength j)
              fragmentLength exact []).2.map DNAMatch.genomeName
        · rw [if_pos (hrep.2 hN)]
          constructor
          · intro _; omega
          · intro _; exact Or.inr hN
        · rw [if_neg (fun h => hN (hrep.1 h))]
          constructor
          · rintro (h | h)
            · omega
            · exact absurd h hN
          · intro h; exact Or.inl (by omega)
    · rw [if_neg hr]
      refine ⟨hnd, fun N => ?_⟩
      have hrep : ¬ reportsName m query fragmentLength exact N j = true := by
        simp [reportsName, hr]
      rw [hitsBelow_succ, if_neg hrep]
      exact hall N

/-! ## The percentage computed by `findRelatedGenomes`: auxiliary lemmas -/

theorem log_two_one : Int.log 2 (1 : ℚ) = 0 :=
  log_two_eq 1 0 (by norm_num) (by norm_num) (by norm_num)

theorem log_two_hundred : Int.log 2 (100 : ℚ) = 6 :=
  log_two_eq 100 6 (by norm_num) (by norm_num) (by norm_num)

theorem Binary64.round_one : Binary64.round 1 = 1 := by
  rw [Binary64.round_eq 1 0 (2 ^ 52) (by norm_num) (by norm_num) (by norm_num) (by norm_num)
    (by norm_num)]
  norm_num

theorem Binary64.round_hundred : Binary64.round 100 = 100 := by
  rw [Binary64.round_eq 100 6 (100 * 2 ^ 46) (by norm_num) (by norm_num) (by norm_num)
    (by norm_num) (by norm_num)]
  norm_num

theorem Binary64.round_le_one (q : ℚ) (hq : 0 < q) (h : q ≤ 1) : Binary64.round q ≤ 1 :=
  Binary64.round_le q 1 (2 ^ 52) hq h (by rw [log_two_one]; norm_num)

theorem Binary64.round_le_hundred (q : ℚ) (hq : 0 < q) (h : q ≤ 100) :
    Binary64.round q ≤ 100 :=
  Binary64.round_le q 100 (100 * 2 ^ 46) hq h (by rw [log_two_hundred]; norm_num)

/-- The computed percentage of `1 ≤ hits ≤ n` lies in `(0, 100]`. -/
theorem percentOf_bounds (hits n : Int) (h1 : 1 ≤ hits) (h2 : hits ≤ n) :
    0 < percentOf hits n ∧ percentOf hits n ≤ 100 := by
  unfold percentOf Binary64.mul Binary64.div Binary64.ofInt
  have hn : (0 : ℚ) < (n : ℚ) := by exact_mod_cast (by omega : (0 : Int) < n)
  have hh : (0 : ℚ) < (hits : ℚ) := by exact_mod_cast (by omega : (0 : Int) < hits)
  have hq : (0 : ℚ) < (hits : ℚ) / (n : ℚ) := div_pos hh hn
  have hq1 : (hits : ℚ) / (n : ℚ) ≤ 1 := by
    rw [div_le_one hn]; exact_mod_cast h2
  have hy := Binary64.round_pos _ hq
  have hy1 := Binary64.round_le_one _ hq hq1
  have hz : (0 : ℚ) < Binary64.round ((hits : ℚ) / (n : ℚ)) * ((100 : Int) : ℚ) := by
    push_cast; linarith
  have hz1 : Binary64.round ((hits : ℚ) / (n : ℚ)) * ((100 : Int) : ℚ) ≤ 100 := by
    push_cast; linarith
  exact ⟨Binary64.round_pos _ hz, Binary64.round_le_hundred _ hz hz1⟩

/-- The computed percentage of `hits = n` is exactly 100. -/
theorem percentOf_self (n : Int) (hn : 1 ≤ n) : percentOf n n = 100 := by
  unfold percentOf Binary64.mul Binary64.div Binary64.ofInt
  have hn' : (n : ℚ) ≠ 0 := by exact_mod_cast (by omega : n ≠ 0)
  rw [div_self hn', Binary64.round_one]
  push_cast
  rw [one_mul, Binary64.round_hundred]

/-- For `int` operands with `hits < n`, the computed percentage stays below 100: both
roundings stop at the binary64 numbers `1 - 2^-31` and `100 - 100 * 2^-31`. -/
theorem percentOf_lt_hundred (hits n : Int) (h1 : 1 ≤ hits) (h2 : hits < n)
    (h3 : n < 2 ^ 31) : percentOf hits n < 100 := by
  unfold percentOf Binary64.mul Binary64.div Binary64.ofInt
  have hn : (0 : ℚ) < (n : ℚ) := by exact_mod_cast (by omega : (0 : Int) < n)
  have hh : (0 : ℚ) < (hits : ℚ) := by exact_mod_cast (by omega : (0 : Int) < hits)
  have hq : (0 : ℚ) < (hits : ℚ) / (n : ℚ) := div_pos hh hn
  have hn31 : (n : ℚ) ≤ 2147483648 := by
    exact_mod_cast (by omega : n ≤ 2147483648)
  have hhn : (hits : ℚ) ≤ (n : ℚ) - 1 := by
    exact_mod_cast (by omega : hits ≤ n - 1)
  have hq1 : (hits : ℚ) / (n : ℚ) ≤ 2147483647 / 2147483648 := by
    rw [div_le_div_iff₀ hn (by norm_num)]
    nlinarith
  have hlog1 : Int.log 2 (2147483647 / 2147483648 : ℚ) = -1 :=
    log_two_eq _ (-1) (by norm_num) (by norm_num) (by norm_num)
  have hy := Binary64.round_pos _ hq
  have hy1 : Binary64.round ((hits : ℚ) / (n : ℚ)) ≤ 2147483647 / 2147483648 :=
    Binary64.round_le _ _ 9007199250546688 hq hq1 (by rw [hlog1]; norm_num)
  have hz : (0 : ℚ) < Binary64.round ((hits : ℚ) / (n : ℚ)) * ((100 : Int) : ℚ) := by
    push_cast; linarith
  have hz1 : Binary64.round ((hits : ℚ) / (n : ℚ)) * ((100 : Int) : ℚ)
      ≤ 214748364700 / 2147483648 := by
    push_cast; linarith
  have hlog2 : Int.log 2 (214748364700 / 2147483648 : ℚ) = 6 :=
    log_two_eq _ 6 (by norm_num) (by norm_num) (by norm_num)
  have hp : Binary64.round (Binary64.round ((hits : ℚ) / (n : ℚ)) * ((100 : Int) : ℚ))
      ≤ 214748364700 / 2147483648 :=
    Binary64.round_le _ _ 7036874414489600 hz hz1 (by rw [hlog2]; norm_num)
  have : (214748364700 / 2147483648 : ℚ) < 100 := by norm_num
  linarith

theorem percentOf_ge_hundred_iff (hits n : Int) (h1 : 1 ≤ hits) (h2 : hits ≤ n)
    (h3 : n < 2 ^ 31) : 100 ≤ percentOf hits n ↔ hits = n := by
  constructor
  · intro h
    by_contra hne
    have := percentOf_lt_hundred hits n h1 (by omega) h3
    linarith
  · rintro rfl
    rw [percentOf_self hits h1]

/-! ## `findRelatedGenomes`: auxiliary lemmas -/

theorem hitsBelow_le (m : GenomeMatcherImpl) (query : Genome) (fragmentLength : Int)
    (exact : Bool) (N : String) (j : Nat) : hitsBelow m query fragmentLength exact N j ≤ j := by
  unfold hitsBelow
  calc ((List.range j).filter (reportsName m query fragmentLength exact N)).length
      ≤ (List.range j).length := List.length_filter_le _ _
    _ = j := List.length_range j

theorem findRelated_eq (m : GenomeMatcherImpl) (query : Genome) (fragmentLength : Int)
    (exact : Bool) (threshold : ℚ) (results : List GenomeMatch)
    (hseed : 1 ≤ m.m_minSearchLength) (hfl : m.m_minSearchLength ≤ fragmentLength) :
    m.findRelatedGenomes query fragmentLength exact threshold results
      = (if relatedRecords m query fragmentLength exact threshold = [] then (false, results)
         else (true, relatedRecords m query fragmentLength exact threshold)) := by
  unfold GenomeMatcherImpl.findRelatedGenomes
  rw [if_neg (by omega)]
  have hlen : (0 : Int) ≤ query.length := by unfold Genome.length; omega
  have hdiv : Int.tdiv query.length fragmentLength = query.length / fragmentLength :=
    Int.tdiv_eq_ediv hlen (by omega)
  have hnn : (0 : Int) ≤ query.length / fragmentLength := Int.ediv_nonneg hlen (by omega)
  have hcount : ((fragmentCount query fragmentLength : Nat) : Int)
      = query.length / fragmentLength := by
    unfold fragmentCount; omega
  simp only [hdiv]
  have hrec : (List.filterMap (fun it : String × Int =>
        if Binary64.mul (Binary64.div (Binary64.ofInt it.2)
            (Binary64.ofInt (query.length / fragmentLength))) (Binary64.ofInt 100) ≥ threshold
        then some (⟨it.1, Binary64.mul (Binary64.div (Binary64.ofInt it.2)
            (Binary64.ofInt (query.length / fragmentLength))) (Binary64.ofInt 100)⟩ : GenomeMatch)
        else none)
      ((List.range (query.length / fragmentLength).toNat).foldl
        (tallyStep m query fragmentLength exact) []))
      = relatedRecords m query fragmentLength exact threshold := by
    unfold relatedRecords tallyState percentOf
    rw [hcount]
    rfl
  rw [hrec]
  by_cases he : relatedRecords m query fragmentLength exact threshold = []
  · simp [he]
  · simp [he]

theorem mem_relatedRecords (m : GenomeMatcherImpl) (query : Genome) (fragmentLength : Int)
    (exact : Bool) (threshold : ℚ) (hfl : 1 ≤ fragmentLength) (N : String) (p : ℚ) :
    (⟨N, p⟩ : GenomeMatch) ∈ relatedRecords m query fragmentLength exact threshold
      ↔ 1 ≤ hitCount m query fragmentLength exact N
        ∧ p = percentOf (hitCount m query fragmentLength exact N : Int)
              (fragmentCount query fragmentLength : Int)
        ∧ threshold ≤ p := by
  obtain ⟨hnd, hall⟩ := tally_invariant m query fragmentLength exact hfl
    (fragmentCount query fragmentLength) (le_refl _)
  obtain ⟨hget, hkey⟩ := hall N
  have hhc : hitCount m query fragmentLength exact N
      = hitsBelow m query fragmentLength exact N (fragmentCount query fragmentLength) := rfl
  unfold relatedRecords
  rw [List.mem_filterMap]
  constructor
  · rintro ⟨⟨k, v⟩, hmem, hsome⟩
    simp only at hsome
    split at hsome
    · rename_i hthr
      simp only [Option.some.injEq, GenomeMatch.mk.injEq] at hsome
      obtain ⟨hk, hp⟩ := hsome
      subst hk
      have hv : v = (hitCount m query fragmentLength exact k : Int) := by
        rw [hhc, ← hget]
        exact (NameTable.get_of_mem _ k v hnd hmem).symm
      have hin : k ∈ NameTable.keys
          (tallyState m query fragmentLength exact (fragmentCount query fragmentLength)) := by
        simp only [NameTable.keys, List.mem_map]
        exact ⟨(k, v), hmem, rfl⟩
      refine ⟨by rw [hhc]; exact hkey.1 hin, ?_, ?_⟩
      · rw [← hp, hv]
      · rw [← hp]; exact hthr
    · simp at hsome
  · rintro ⟨h1, h2, h3⟩
    refine ⟨(N, (hitCount m query fragmentLength exact N : Int)), ?_, ?_⟩
    · rw [hhc, ← hget]
      exact NameTable.mem_of_mem_keys _ N (hkey.2 (by rw [← hhc]; exact h1))
    · simp only
      rw [← h2, if_pos h3]

theorem relatedRecords_nodup (m : GenomeMatcherImpl) (query : Genome) (fragmentLength : Int)
    (exact : Bool) (threshold : ℚ) (hfl : 1 ≤ fragmentLength) :
    ((relatedRecords m query fragmentLength exact threshold).map
      GenomeMatch.genomeName).Nodup := by
  obtain ⟨hnd, _⟩ := tally_invariant m query fragmentLength exact hfl
    (fragmentCount query fragmentLength) (le_refl _)
  unfold relatedRecords
  generalize tallyState m query fragmentLength exact (fragmentCount query fragmentLength) = t
    at hnd ⊢
  induction t with
  | nil => simp
  | cons a t ih =>
    simp only [NameTable.keys, List.map_cons, List.nodup_cons] at hnd
    rw [List.filterMap_cons]
    split
    · rename_i hnone
      exact ih hnd.2
    · rename_i b hsome
      simp only [List.map_cons, List.nodup_cons]
      refine ⟨?_, ih hnd.2⟩
      have hb : b.genomeName = a.1 := by
        split at hsome
        · simp only [Option.some.injEq] at hsome; rw [← hsome]
        · simp at hsome
      rw [hb]
      intro hmem
      apply hnd.1
      rw [List.mem_map] at hmem ⊢
      obtain ⟨r, hr, hrn⟩ := hmem
      rw [List.mem_filterMap] at hr
      obtain ⟨e, he, hes⟩ := hr
      refine ⟨e, he, ?_⟩
      split at hes
      · simp only [Option.some.injEq] at hes; rw [← hrn, ← hes]
      · simp at hes

theorem one_le_hitsBelow_iff (m : GenomeMatcherImpl) (query : Genome) (fragmentLength : Int)
    (exact : Bool) (N : String) (j : Nat) :
    1 ≤ hitsBelow m query fragmentLength exact N j
      ↔ ∃ i, i < j ∧ reportsName m query fragmentLength exact N i = true := by
  induction j with
  | zero => simp [hitsBelow]
  | succ j ih =>
    rw [hitsBelow_succ]
    by_cases h : reportsName m query fragmentLength exact N j = true
    · rw [if_pos h]
      constructor
      · intro _; exact ⟨j, by omega, h⟩
      · intro _; omega
    · rw [if_neg h, Nat.add_zero, ih]
      constructor
      · rintro ⟨i, hi, hr⟩; exact ⟨i, by omega, hr⟩
      · rintro ⟨i, hi, hr⟩
        have : i ≠ j := by rintro rfl; exact h hr
        exact ⟨i, by omega, hr⟩

theorem hitsBelow_eq_iff (m : GenomeMatcherImpl) (query : Genome) (fragmentLength : Int)
    (exact : Bool) (N : String) (j : Nat) :
    hitsBelow m query fragmentLength exact N j = j
      ↔ ∀ i, i < j → reportsName m query fragmentLength exact N i = true := by
  induction j with
  | zero => simp [hitsBelow]
  | succ j ih =>
    rw [hitsBelow_succ]
    have hle := hitsBelow_le m query fragmentLength exact N j
    by_cases h : reportsName m query fragmentLength exact N j = true
    · rw [if_pos h]
      constructor
      · intro heq i hi
        by_cases hij : i = j
        · rw [hij]; exact h
        · exact ih.1 (by omega) i (by omega)
      · intro hall
        have := ih.2 (fun i hi => hall i (by omega))
        omega
    · rw [if_neg h]
      constructor
      · intro heq; omega
      · intro hall; exact absurd (hall j (by omega)) h

theorem mem_returnedNames (m : GenomeMatcherImpl) (query : Genome) (fragmentLength : Int)
    (exact : Bool) (threshold : ℚ) (results : List GenomeMatch)
    (hseed : 1 ≤ m.m_minSearchLength) (hfl : m.m_minSearchLength ≤ fragmentLength)
    (N : String) :
    N ∈ returnedNames (m.findRelatedGenomes query fragmentLength exact threshold results)
      ↔ 1 ≤ hitCount m query fragmentLength exact N
        ∧ threshold ≤ percentOf (hitCount m query fragmentLength exact N : Int)
            (fragmentCount query fragmentLength : Int) := by
  rw [findRelated_eq m query fragmentLength exact threshold results hseed hfl]
  have hmem : N ∈ (relatedRecords m query fragmentLength exact threshold).map
        GenomeMatch.genomeName
      ↔ 1 ≤ hitCount m query fragmentLength exact N
        ∧ threshold ≤ percentOf (hitCount m query fragmentLength exact N : Int)
            (fragmentCount query fragmentLength : Int) := by
    rw [List.mem_map]
    constructor
    · rintro ⟨⟨k, p⟩, hr, rfl⟩
      have := (mem_relatedRecords m query fragmentLength exact threshold (by omega) k p).1 hr
      exact ⟨this.1, by rw [← this.2.1]; exact this.2.2⟩
    · rintro ⟨h1, h2⟩
      exact ⟨⟨N, _⟩,
        (mem_relatedRecords m query fragmentLength exact threshold (by omega) N _).2
          ⟨h1, rfl, h2⟩, rfl⟩
  by_cases he : relatedRecords m query fragmentLength exact threshold = []
  · rw [if_pos he]
    rw [he] at hmem
    simp only [returnedNames, Bool.false_eq_true, if_false]
    exact hmem
  · rw [if_neg he]
    simp only [returnedNames, if_true]
    exact hmem

set_option maxRecDepth 100000 in
theorem rounding_tally :
    tallyState roundingLibrary roundingQuery 1 false 50 = [("G", 29)] := by
  decide

theorem rounding_fragmentCount : fragmentCount roundingQuery 1 = 50 := by decide

theorem rounding_hitCount : hitCount roundingLibrary roundingQuery 1 false "G" = 29 := by
  have h := (tally_invariant roundingLibrary roundingQuery 1 false (by decide) 50
    (by rw [rounding_fragmentCount])).2 "G"
  rw [rounding_tally] at h
  have hg : NameTable.get [("G", 29)] "G" = 29 := by decide
  rw [hg] at h
  have : hitCount roundingLibrary roundingQuery 1 false "G"
      = hitsBelow roundingLibrary roundingQuery 1 false "G" 50 := by
    unfold hitCount; rw [rounding_fragmentCount]; rfl
  rw [this]
  exact_mod_cast h.1.symm

/-- The binary64 value of `(29.0 / 50.0) * 100`. -/
theorem percentOf_29_50 : percentOf 29 50 = 8162774324609023 / 140737488355328 := by
  unfold percentOf Binary64.mul Binary64.div Binary64.ofInt
  have h1 : Binary64.round (((29 : Int) : ℚ) / ((50 : Int) : ℚ))
      = ((5224175567749775 : Int) : ℚ) * (2 : ℚ) ^ ((-1 : Int) - 52) :=
    Binary64.round_eq _ (-1) 5224175567749775 (by norm_num) (by norm_num) (by norm_num)
      (by norm_num) (by norm_num)
  rw [h1]
  have h2 : Binary64.round (((5224175567749775 : Int) : ℚ) * (2 : ℚ) ^ ((-1 : Int) - 52)
        * ((100 : Int) : ℚ))
      = ((8162774324609023 : Int) : ℚ) * (2 : ℚ) ^ ((5 : Int) - 52) :=
    Binary64.round_eq _ 5 8162774324609023 (by norm_num) (by norm_num) (by norm_num)
      (by norm_num) (by norm_num)
  rw [h2]
  norm_num

/-! ## Seeds of the library and candidates: auxiliary lemmas -/

theorem mismatchCount_self (k : List Char) : mismatchCount k k = 0 :=
  (mismatchCount_eq_zero_iff k k rfl).2 rfl

theorem nearKey_self (k : List Char) : nearKey k k = true := by
  simp [nearKey, mismatchCount_self]

theorem mem_find_foldl_insert_of_mem {V : Type} (ins : List (List Char × V)) (t : Trie V)
    (ht : t.m_root.isNull = false) (k : List Char) (hins : ∀ p ∈ ins, validKey p.1 = true)
    (hk : k ≠ []) (b : Bool) (v : V) (hv : v ∈ t.find k b) :
    v ∈ (ins.foldl (fun t p => t.insert p.1 p.2) t).find k b := by
  cases b with
  | true =>
    rw [find_foldl_insert_true ins t ht k hins hk]
    exact List.mem_append_left _ hv
  | false =>
    rw [(find_foldl_insert_false ins t ht k hins hk).mem_iff]
    exact List.mem_append_left _ hv

theorem mem_find_foldl_insert_of_new {V : Type} (ins : List (List Char × V)) (t : Trie V)
    (ht : t.m_root.isNull = false) (k : List Char) (hins : ∀ p ∈ ins, validKey p.1 = true)
    (hk : k ≠ []) (b : Bool) (v : V) (hv : (k, v) ∈ ins) :
    v ∈ (ins.foldl (fun t p => t.insert p.1 p.2) t).find k b := by
  cases b with
  | true =>
    rw [find_foldl_insert_true ins t ht k hins hk]
    apply List.mem_append_right
    rw [List.mem_map]
    exact ⟨(k, v), by rw [List.mem_filter]; exact ⟨hv, by simp⟩, rfl⟩
  | false =>
    rw [(find_foldl_insert_false ins t ht k hins hk).mem_iff]
    apply List.mem_append_right
    rw [List.mem_map]
    exact ⟨(k, v), by rw [List.mem_filter]; exact ⟨hv, nearKey_self k⟩, rfl⟩

/-- Every seed indexed by `addGenome` is found by the lookup of its own key, in both modes: in a
library with seed length at least 1 over DNA genomes, the location `(offset o, genome idx)` with
`o < length(g) - seedLength` is among the trie matches of the key `g[o .. o + seedLength)`. -/
theorem library_seed_found (seed : Int) (hseed : 1 ≤ seed) (gs : List Genome)
    (hdna : ∀ g ∈ gs, dnaSequence g.m_sequence = true) (idx : Nat) (g : Genome)
    (hg : gs[idx]? = some g) (o : Nat) (ho : (o : Int) < g.length - seed) (b : Bool) :
    (⟨(o : Int), (idx : Int)⟩ : GenomeLoc)
      ∈ (buildLibrary seed gs).m_trie.find (substringAt g.m_sequence o seed) b := by
  induction gs using List.reverseRecOn with
  | nil => simp at hg
  | append_singleton gs g' ih =>
    rw [buildLibrary_snoc]
    have htrie := addGenome_trie (buildLibrary seed gs) g'
      (by rw [buildLibrary_seed]; omega)
    rw [buildLibrary_seed, buildLibrary_genomes] at htrie
    rw [htrie]
    have hle : (o : Int) + seed ≤ (g.m_sequence.length : Int) := by
      unfold Genome.length at ho; omega
    have hgmem : g ∈ gs ++ [g'] := List.getElem?_mem hg
    have hne : substringAt g.m_sequence o seed ≠ [] := by
      have hlen := length_substringAt g.m_sequence o seed hle
      intro h0; rw [h0] at hlen; simp at hlen; omega
    have hvalid : ∀ p ∈ (List.range (g'.length - seed).toNat).map
        (fun i => (substringAt g'.m_sequence i seed,
          (⟨(i : Int), (gs.length : Int)⟩ : GenomeLoc))), validKey p.1 = true := by
      intro p hp
      rw [List.mem_map] at hp
      obtain ⟨j, hj, rfl⟩ := hp
      rw [List.mem_range] at hj
      exact validKey_substringAt _ _ _ (hdna g' (by simp)) hseed
        (by unfold Genome.length at hj; omega)
    by_cases hidx : idx < gs.length
    · have hg' : gs[idx]? = some g := by
        rw [List.getElem?_append_left hidx] at hg; exact hg
      exact mem_find_foldl_insert_of_mem _ _ (buildLibrary_root seed gs) _ hvalid hne b _
        (ih (fun x hx => hdna x (List.mem_append_left _ hx)) hg')
    · have hlt : idx < (gs ++ [g']).length := by
        by_contra hc
        rw [List.getElem?_eq_none (by omega)] at hg
        simp at hg
      have hidx' : idx = gs.length := by
        simp only [List.length_append, List.length_singleton] at hlt; omega
      subst hidx'
      have hgg : g = g' := by
        rw [List.getElem?_append_right (le_refl _)] at hg
        simpa using hg.symm
      subst hgg
      apply mem_find_foldl_insert_of_new _ _ (buildLibrary_root seed gs) _ hvalid hne b
      rw [List.mem_map]
      exact ⟨o, by rw [List.mem_range]; omega, rfl⟩

theorem getStrings_foldl_eq (genomes : List Genome) (minLength maxLength : Int)
    (l : List GenomeLoc) (acc : List DNAMatch × List (List Char)) :
    l.foldl (getStringsStep genomes minLength maxLength) acc
      = (acc.1 ++ (l.filterMap (candidateOf genomes minLength maxLength)).map Prod.fst,
         acc.2 ++ (l.filterMap (candidateOf genomes minLength maxLength)).map Prod.snd) := by
  induction l generalizing acc with
  | nil => simp
  | cons loc l ih =>
    simp only [List.foldl_cons]
    rw [ih]
    unfold getStringsStep candidateOf
    cases hga : genomeAt genomes loc.genomePos with
    | none => simp [List.filterMap_cons, candidateOf, hga]
    | some g =>
      by_cases hc : loc.index + minLength ≥ g.length
      · simp [List.filterMap_cons, candidateOf, hga, hc]
      · simp [List.filterMap_cons, candidateOf, hga, hc]

/-- The candidates of `getStrings` are, in order, the candidates of the individual trie
matches. -/
theorem getStrings_eq (m : GenomeMatcherImpl) (trieMatches : List GenomeLoc)
    (minLength maxLength : Int) :
    m.getStrings trieMatches minLength maxLength
      = ((trieMatches.filterMap (candidateOf m.m_genomes minLength maxLength)).map Prod.fst,
         (trieMatches.filterMap (candidateOf m.m_genomes minLength maxLength)).map Prod.snd) := by
  unfold GenomeMatcherImpl.getStrings
  rw [getStrings_foldl_eq]
  simp

theorem checkSnipLoop_prefix (minimumLength : Int) (exact : Bool) (locSnip : Int)
    (s rest : List Char) (i : Int) :
    checkSnipLoop minimumLength exact locSnip s (s ++ rest) i 0 = (true, 0) := by
  induction s generalizing i with
  | nil => simp [checkSnipLoop]
  | cons c s ih =>
    simp only [checkSnipLoop, List.cons_append, List.headD_cons, ne_eq, not_true, if_false,
      List.tail_cons]
    have : ¬ ((0 : Int) > 1 ∨ ((0 : Int) > 0 ∧ exact = true)) := by omega
    rw [if_neg this]
    exact ih (i + 1)

theorem matchAt_map_fst (l : List (DNAMatch × List Char)) (i : Nat) (h : i < l.length) :
    matchAt (l.map Prod.fst) (i : Int) = (l.get ⟨i, h⟩).1 := by
  unfold matchAt
  have hi0 : ¬ ((i : Int) < 0) := by omega
  simp [hi0, List.getD_eq_getElem?_getD, h]

theorem getD_map_snd (l : List (DNAMatch × List Char)) (i : Nat) (h : i < l.length) :
    (l.map Prod.snd).getD i [] = (l.get ⟨i, h⟩).2 := by
  simp [List.getD_eq_getElem?_getD, h]

/-- Completeness of `findGenomesWithThisDNA` away from the end of the genome: in a library with
seed length at least 1 over DNA genomes, if a genome `g` contains `fragment` at an offset `o`
with `o + minimumLength < length(g)`, then the call succeeds in both modes and returns a record
named `name(g)`. -/
theorem findGenomes_complete_before_end (seed : Int) (gs : List Genome) (fragment : List Char)
    (minimumLength : Int) (exact : Bool) (mtchs : List DNAMatch) (idx : Nat) (g : Genome)
    (o : Nat) (hseed : 1 ≤ seed) (hint : isInt32 seed)
    (hdna : ∀ x ∈ gs, dnaSequence x.m_sequence = true)
    (h1 : seed ≤ minimumLength) (h2 : minimumLength ≤ (fragment.length : Int))
    (hg : gs[idx]? = some g)
    (hocc : substringAt g.m_sequence o (fragment.length : Int) = fragment)
    (hend : (o : Int) + minimumLength < g.length) :
    ((buildLibrary seed gs).findGenomesWithThisDNA fragment minimumLength exact mtchs).1 = true
    ∧ g.name ∈ ((buildLibrary seed gs).findGenomesWithThisDNA fragment minimumLength exact
        mtchs).2.map DNAMatch.genomeName := by
  generalize hm : buildLibrary seed gs = m
  have hmseed : m.m_minSearchLength = seed := by rw [← hm, buildLibrary_seed]
  have hmgen : m.m_genomes = gs := by rw [← hm, buildLibrary_genomes]
  -- the occurrence lies inside the genome
  have hfit : (o : Int) + (fragment.length : Int) ≤ g.length := by
    have hlen : (substringAt g.m_sequence o (fragment.length : Int)).length = fragment.length := by
      rw [hocc]
    simp only [substringAt, List.length_take, List.length_drop, Int.toNat_ofNat] at hlen
    unfold Genome.length
    omega
  -- the parameter check passes
  have hguard : ¬ ((fragment.length : Int) < minimumLength % 2 ^ 64
      ∨ minimumLength < m.m_minSearchLength) := by
    rw [hmseed]
    have : minimumLength % 2 ^ 64 ≤ minimumLength := by omega
    omega
  -- the seed key is the seed of the genome at `o`
  have hkey : fragment.take (m.m_minSearchLength % 2 ^ 64).toNat
      = substringAt g.m_sequence o seed := by
    rw [hmseed]
    have hs : seed % 2 ^ 64 = seed := Int.emod_eq_of_lt (by omega) (by have := hint.2; omega)
    rw [hs]
    conv_lhs => rw [← hocc]
    unfold substringAt
    rw [List.take_take]
    congr 1
    simp only [Int.toNat_ofNat]
    omega
  have hloc : (⟨(o : Int), (idx : Int)⟩ : GenomeLoc) ∈ m.seedMatches fragment exact := by
    unfold GenomeMatcherImpl.seedMatches
    rw [hkey, ← hm]
    exact library_seed_found seed hseed gs hdna idx g hg o (by omega) exact
  -- its candidate is the record at `o` with the whole fragment as sequence
  have hcand : candidateOf m.m_genomes minimumLength (fragment.length : Int)
      ⟨(o : Int), (idx : Int)⟩ = some (⟨g.name, (fragment.length : Int), (o : Int)⟩, fragment) := by
    unfold candidateOf genomeAt
    have hi0 : ¬ ((idx : Int) < 0) := by omega
    simp only [hi0, if_false, Int.toNat_ofNat, hmgen, hg]
    rw [if_neg (by omega), if_neg (by omega)]
    rw [extract_in_range g _ _ [] (by omega) (by omega) hfit]
    simp only [Int.toNat_ofNat]
    have : (g.m_sequence.drop o).take fragment.length = fragment := by
      have := hocc
      simpa [substringAt] using this
    rw [this]
  have hmemc : ((⟨g.name, (fragment.length : Int), (o : Int)⟩ : DNAMatch), fragment)
      ∈ (m.seedMatches fragment exact).filterMap
          (candidateOf m.m_genomes minimumLength (fragment.length : Int)) := by
    rw [List.mem_filterMap]
    exact ⟨_, hloc, hcand⟩
  obtain ⟨i, hi, hget⟩ := List.getElem_of_mem hmemc
  have hcands : m.candidates fragment minimumLength exact
      = (((m.seedMatches fragment exact).filterMap
            (candidateOf m.m_genomes minimumLength (fragment.length : Int))).map Prod.fst,
         ((m.seedMatches fragment exact).filterMap
            (candidateOf m.m_genomes minimumLength (fragment.length : Int))).map Prod.snd) := by
    unfold GenomeMatcherImpl.candidates
    rw [getStrings_eq]
  have hsurv : g.name ∈ (m.survivors fragment minimumLength exact).map DNAMatch.genomeName := by
    rw [mem_survivors_names, hcands]
    refine ⟨i, by simpa using hi, ?_, ?_⟩
    · unfold accepted
      simp only
      rw [getD_map_snd _ i hi]
      have : (((m.seedMatches fragment exact).filterMap
          (candidateOf m.m_genomes minimumLength (fragment.length : Int))).get ⟨i, hi⟩)
          = (⟨g.name, (fragment.length : Int), (o : Int)⟩, fragment) := hget
      rw [this]
      unfold checkSnip
      have := checkSnipLoop_prefix minimumLength exact 0 fragment [] 0
      rw [List.append_nil] at this
      rw [this]
    · simp only
      rw [matchAt_map_fst _ i hi]
      have : (((m.seedMatches fragment exact).filterMap
          (candidateOf m.m_genomes minimumLength (fragment.length : Int))).get ⟨i, hi⟩)
          = (⟨g.name, (fragment.length : Int), (o : Int)⟩, fragment) := hget
      rw [this]
  obtain ⟨results, hr, _, hnames, _⟩ :=
    findGenomes_passed m fragment minimumLength exact mtchs hguard
  have hin : g.name ∈ results.map DNAMatch.genomeName := (hnames g.name).2 hsurv
  have hne : results ≠ [] := by
    intro h0; rw [h0] at hin; simp at hin
  rw [hr, if_neg hne]
  exact ⟨rfl, hin⟩

/-! ## Exact and approximate lookup compared: auxiliary lemmas -/

theorem findHelper_true_prefix {V : Type} (key : List Char) :
    ∀ root : Node V, findHelper root key true <+: findHelper root key false := by
  induction key with
  | nil =>
    intro root
    cases root with
    | null => simp
    | mk d ch => simp
  | cons c cs ih =>
    intro root
    cases root with
    | null => simp
    | mk d ch =>
      rw [findHelper_cons_true, findHelper_cons_false]
      exact (ih _).trans (List.prefix_append _ _)

theorem find_true_prefix {V : Type} (t : Trie V) (k : List Char) :
    t.find k true <+: t.find k false := by
  obtain ⟨r⟩ := t
  cases k with
  | nil => simp [Trie.find]
  | cons c cs =>
    cases r with
    | null => simp [Trie.find]
    | mk d ch =>
      rw [find_cons_eq, find_cons_eq]
      exact findHelper_true_prefix cs _

/-- `findRelatedGenomes` reads only the sequence of the query genome, not its name. -/
theorem findRelated_query_name (m : GenomeMatcherImpl) (nm nm' : String) (s : List Char)
    (fragmentLength : Int) (exact : Bool) (threshold : ℚ) (results : List GenomeMatch) :
    m.findRelatedGenomes ⟨nm, s⟩ fragmentLength exact threshold results
      = m.findRelatedGenomes ⟨nm', s⟩ fragmentLength exact threshold results := rfl

/-! ## `Genome::load`: the loop always finishes within its fuel -/

theorem getline_rest_length (src : List Char) : (getline src).2.length ≤ src.length := by
  unfold getline
  simp only [List.length_drop]
  have := (List.dropWhile_suffix (fun c => c != '\n') (l := src)).length_le
  omega

theorem loadLoop_isSome (fuel : Nat) :
    ∀ (src name sequence : List Char) (prev : Char) (genomes : List Genome),
      src.length < fuel → (loadLoop fuel src name sequence prev genomes).isSome = true := by
  induction fuel with
  | zero => intro src _ _ _ _ h; omega
  | succ fuel ih =>
    intro src name sequence prev genomes h
    cases src with
    | nil =>
      unfold loadLoop
      split <;> rfl
    | cons c rest =>
      have hrest : rest.length < fuel := by simp only [List.length_cons] at h; omega
      unfold loadLoop
      simp only
      split
      · rfl
      · split
        · rfl
        · split
          · exact ih _ _ _ _ _ hrest
          · split
            · split
              · rfl
              · exact ih _ _ _ _ _ (lt_of_le_of_lt (getline_rest_length rest) hrest)
            · split
              · exact ih _ _ _ _ _ hrest
              · rfl

/-- `load` returns on every input. -/
theorem load_isSome (genomeSource : List Char) (genomes : List Genome) :
    (Genome.load genomeSource genomes).isSome = true :=
  loadLoop_isSome _ _ _ _ _ _ (Nat.lt_succ_self _)

/-! ## Scoring (`checkSnip`): auxiliary lemmas -/

theorem checkSnip_cond_iff (numSnips : Int) (exact : Bool) :
    (numSnips > 1 ∨ (numSnips > 0 ∧ exact = true)) ↔ ((mismatchBudget exact : Nat) : Int) < numSnips := by
  cases exact
  · simp [mismatchBudget]
  · simp [mismatchBudget]; omega

theorem mismatchCount_nil_left (f : List Char) : mismatchCount [] f = 0 := by
  cases f <;> rfl

/-- The scoring loop with `n` mismatches counted so far, when the count first exceeds the budget
at relative index `p`. -/
theorem checkSnipLoop_exceeding (minimumLength : Int) (exact : Bool) (locSnip : Int)
    (s : List Char) :
    ∀ (f : List Char) (i : Int) (n p : Nat), s.length ≤ f.length → n ≤ mismatchBudget exact →
      mismatchBudget exact < n + mismatchesThrough s f p →
      (∀ q, q < p → n + mismatchesThrough s f q ≤ mismatchBudget exact) →
      checkSnipLoop minimumLength exact locSnip s f i (n : Int)
        = if i + (p : Int) < minimumLength then (false, locSnip) else (true, i + (p : Int)) := by
  induction s with
  | nil =>
    intro f i n p _ hn hex _
    simp only [mismatchesThrough, List.take_nil, mismatchCount_nil_left] at hex
    omega
  | cons c s ih =>
    intro f i n p hlen hn hex hleast
    cases f with
    | nil => simp at hlen
    | cons d f =>
      simp only [List.length_cons, add_le_add_iff_right] at hlen
      have hstep : ∀ q, mismatchesThrough (c :: s) (d :: f) (q + 1)
          = (if c = d then 0 else 1) + mismatchesThrough s f q := by
        intro q; simp [mismatchesThrough, mismatchCount]
      have hzero : mismatchesThrough (c :: s) (d :: f) 0 = (if c = d then 0 else 1) := by
        simp [mismatchesThrough, mismatchCount, mismatchCount_nil_left]
      simp only [checkSnipLoop, List.headD_cons, List.tail_cons]
      have hnum : (if c ≠ d then (n : Int) + 1 else (n : Int))
          = ((n + (if c = d then 0 else 1) : Nat) : Int) := by
        by_cases hcd : c = d <;> simp [hcd]
      rw [hnum]
      cases p with
      | zero =>
        rw [hzero] at hex
        rw [if_pos ((checkSnip_cond_iff _ exact).2 (by exact_mod_cast hex))]
        simp
      | succ p =>
        have h0 := hleast 0 (by omega)
        rw [hzero] at h0
        have hnot : ¬ (mismatchBudget exact < n + (if c = d then 0 else 1)) := by omega
        rw [if_neg (fun hc => hnot (by exact_mod_cast (checkSnip_cond_iff _ exact).1 hc))]
        rw [ih f (i + 1) (n + (if c = d then 0 else 1)) p hlen h0
          (by rw [hstep] at hex; omega)
          (by intro q hq; have := hleast (q + 1) (by omega); rw [hstep] at this; omega)]
        have : i + 1 + (p : Int) = i + ((p + 1 : Nat) : Int) := by push_cast; ring
        rw [this]

/-- The scoring loop with `n` mismatches counted so far, when the count never exceeds the
budget. -/
theorem checkSnipLoop_within (minimumLength : Int) (exact : Bool) (locSnip : Int)
    (s : List Char) :
    ∀ (f : List Char) (i : Int) (n : Nat), s.length ≤ f.length →
      (∀ q, n + mismatchesThrough s f q ≤ mismatchBudget exact) →
      checkSnipLoop minimumLength exact locSnip s f i (n : Int) = (true, 0) := by
  induction s with
  | nil => intro f i n _ _; simp [checkSnipLoop]
  | cons c s ih =>
    intro f i n hlen hall
    cases f with
    | nil => simp at hlen
    | cons d f =>
      simp only [List.length_cons, add_le_add_iff_right] at hlen
      have hstep : ∀ q, mismatchesThrough (c :: s) (d :: f) (q + 1)
          = (if c = d then 0 else 1) + mismatchesThrough s f q := by
        intro q; simp [mismatchesThrough, mismatchCount]
      have hzero : mismatchesThrough (c :: s) (d :: f) 0 = (if c = d then 0 else 1) := by
        simp [mismatchesThrough, mismatchCount, mismatchCount_nil_left]
      simp only [checkSnipLoop, List.headD_cons, List.tail_cons]
      have hnum : (if c ≠ d then (n : Int) + 1 else (n : Int))
          = ((n + (if c = d then 0 else 1) : Nat) : Int) := by
        by_cases hcd : c = d <;> simp [hcd]
      rw [hnum]
      have h0 := hall 0
      rw [hzero] at h0
      have hnot : ¬ (mismatchBudget exact < n + (if c = d then 0 else 1)) := by omega
      rw [if_neg (fun hc => hnot (by exact_mod_cast (checkSnip_cond_iff _ exact).1 hc))]
      exact ih f (i + 1) _ hlen
        (by intro q; have := hall (q + 1); rw [hstep] at this; omega)

/-- The result of `checkSnip` by the first index at which the mismatches exceed the budget. -/
theorem checkSnip_exceeding (s f : List Char) (minimumLength : Int) (exact : Bool) (p : Nat)
    (hlen : s.length ≤ f.length) (hp : firstExceeding s f (mismatchBudget exact) p) :
    checkSnip s f minimumLength 0 exact
      = if (p : Int) < minimumLength then (false, 0) else (true, (p : Int)) := by
  unfold checkSnip
  have h := checkSnipLoop_exceeding minimumLength exact 0 s f 0 0 p hlen (Nat.zero_le _)
    (by simpa using hp.1) (by intro q hq; simpa using hp.2 q hq)
  simpa using h

theorem checkSnip_within (s f : List Char) (minimumLength : Int) (exact : Bool)
    (hlen : s.length ≤ f.length)
    (hall : ∀ q, mismatchesThrough s f q ≤ mismatchBudget exact) :
    checkSnip s f minimumLength 0 exact = (true, 0) := by
  unfold checkSnip
  have h := checkSnipLoop_within minimumLength exact 0 s f 0 0 hlen
    (by intro q; simpa using hall q)
  simpa using h

/-- The vector component of one iteration of the scoring and deduplication loop: only the
length of record `i` can change, and only when the candidate is accepted with a non-zero
`locSnip`. -/
theorem dedupStep_fst (S : List (List Char)) (fragment : List Char) (minimumLength : Int)
    (exact : Bool) (st : List DNAMatch × NameTable) (i : Nat) :
    (dedupStep S fragment minimumLength exact st i).1
      = if (checkSnip (S.getD i []) fragment minimumLength 0 exact).1 = true
          ∧ (checkSnip (S.getD i []) fragment minimumLength 0 exact).2 ≠ 0 then
          st.1.set i { matchAt st.1 (i : Int) with
            length := (checkSnip (S.getD i []) fragment minimumLength 0 exact).2 }
        else st.1 := by
  by_cases hr : (checkSnip (S.getD i []) fragment minimumLength 0 exact).1 = true
  · simp only [dedupStep, hr, Bool.not_true, Bool.false_eq_true, if_false, true_and]
    by_cases hz : (checkSnip (S.getD i []) fragment minimumLength 0 exact).2 ≠ 0
    · simp only [hz, ne_eq, not_false_eq_true, if_true]
      split_ifs <;> rfl
    · simp only [hz, if_false]
      split_ifs <;> rfl
  · have hr' : (checkSnip (S.getD i []) fragment minimumLength 0 exact).1 = false := by
      simpa using hr
    simp only [dedupStep, hr', Bool.not_false, if_true, Bool.false_eq_true, false_and, if_false]

theorem matchAt_set_self (l : List DNAMatch) (i : Nat) (x : DNAMatch) (hi : i < l.length) :
    matchAt (l.set i x) (i : Int) = x := by
  unfold matchAt
  have hi0 : ¬ ((i : Int) < 0) := by omega
  simp [hi0, List.getD_eq_getElem?_getD, hi]

/-! ## Exact mode against approximate mode: auxiliary lemmas -/

/-- One iteration of the scoring loop, with the exit test written with the budget. -/
theorem checkSnipLoop_cons (minimumLength : Int) (exact : Bool) (locSnip : Int) (c : Char)
    (s f : List Char) (i n : Int) :
    checkSnipLoop minimumLength exact locSnip (c :: s) f i n
      = if ((mismatchBudget exact : Nat) : Int)
            < (if c ≠ f.headD (Char.ofNat 0) then n + 1 else n) then
          (if i < minimumLength then (false, locSnip) else (true, i))
        else checkSnipLoop minimumLength exact locSnip s f.tail (i + 1)
          (if c ≠ f.headD (Char.ofNat 0) then n + 1 else n) := by
  rw [checkSnipLoop]
  by_cases hcond : ((mismatchBudget exact : Nat) : Int)
      < (if c ≠ f.headD (Char.ofNat 0) then n + 1 else n)
  · rw [if_pos hcond, if_pos ((checkSnip_cond_iff _ exact).2 hcond)]
  · rw [if_neg hcond, if_neg (fun h => hcond ((checkSnip_cond_iff _ exact).1 h))]

theorem checkSnipLoop_past_minimum (minimumLength : Int) (exact : Bool) (locSnip : Int)
    (s : List Char) :
    ∀ (f : List Char) (i n : Int), minimumLength ≤ i →
      (checkSnipLoop minimumLength exact locSnip s f i n).1 = true := by
  induction s with
  | nil => intro f i n _; simp [checkSnipLoop]
  | cons c s ih =>
    intro f i n hi
    rw [checkSnipLoop_cons]
    generalize (if c ≠ f.headD (Char.ofNat 0) then n + 1 else n) = n'
    by_cases hcond : ((mismatchBudget exact : Nat) : Int) < n'
    · rw [if_pos hcond, if_neg (by omega)]
    · rw [if_neg hcond]
      exact ih _ _ _ (by omega)

theorem checkSnipLoop_exact_imp (minimumLength : Int) (locSnip locSnip' : Int)
    (s : List Char) :
    ∀ (f : List Char) (i : Int),
      (checkSnipLoop minimumLength true locSnip s f i 0).1 = true →
      (checkSnipLoop minimumLength false locSnip' s f i 0).1 = true := by
  induction s with
  | nil => intro f i _; simp [checkSnipLoop]
  | cons c s ih =>
    intro f i h
    rw [checkSnipLoop_cons] at h ⊢
    by_cases hc : c ≠ f.headD (Char.ofNat 0)
    · rw [if_pos hc] at h ⊢
      rw [if_pos (by simp [mismatchBudget])] at h
      have hi : minimumLength ≤ i := by
        by_contra hlt
        rw [if_pos (by omega)] at h
        simp at h
      rw [if_neg (by simp [mismatchBudget])]
      exact checkSnipLoop_past_minimum _ _ _ _ _ _ _ (by omega)
    · rw [if_neg hc] at h ⊢
      rw [if_neg (by simp [mismatchBudget])] at h
      rw [if_neg (by simp [mismatchBudget])]
      exact ih _ _ h

/-- A candidate sequence accepted by the exact scoring is accepted by the approximate one. -/
theorem accepted_exact_imp (S : List (List Char)) (fragment : List Char) (minimumLength : Int)
    (i : Nat) (h : accepted S fragment minimumLength true i = true) :
    accepted S fragment minimumLength false i = true := by
  unfold accepted checkSnip at h ⊢
  exact checkSnipLoop_exact_imp minimumLength 0 0 _ _ _ h

theorem candidates_eq (m : GenomeMatcherImpl) (fragment : List Char) (minimumLength : Int)
    (exact : Bool) :
    m.candidates fragment minimumLength exact
      = (((m.seedMatches fragment exact).filterMap
            (candidateOf m.m_genomes minimumLength (fragment.length : Int))).map Prod.fst,
         ((m.seedMatches fragment exact).filterMap
            (candidateOf m.m_genomes minimumLength (fragment.length : Int))).map Prod.snd) := by
  unfold GenomeMatcherImpl.candidates
  rw [getStrings_eq]

/-- The candidates of the exact seed lookup are the first candidates of the approximate one. -/
theorem candidates_exact_prefix (m : GenomeMatcherImpl) (fragment : List Char)
    (minimumLength : Int) :
    ∃ extra : List (DNAMatch × List Char),
      (m.seedMatches fragment false).filterMap
          (candidateOf m.m_genomes minimumLength (fragment.length : Int))
        = (m.seedMatches fragment true).filterMap
            (candidateOf m.m_genomes minimumLength (fragment.length : Int)) ++ extra := by
  obtain ⟨t, ht⟩ := find_true_prefix m.m_trie
    (fragment.take (m.m_minSearchLength % 2 ^ 64).toNat)
  refine ⟨t.filterMap (candidateOf m.m_genomes minimumLength (fragment.length : Int)), ?_⟩
  unfold GenomeMatcherImpl.seedMatches
  rw [← ht, List.filterMap_append]

theorem matchAt_append_left (l t : List DNAMatch) (i : Nat) (h : i < l.length) :
    matchAt (l ++ t) (i : Int) = matchAt l (i : Int) := by
  unfold matchAt
  have hi0 : ¬ ((i : Int) < 0) := by omega
  simp [hi0, List.getD_eq_getElem?_getD, List.getElem?_append_left h]

/-- The names of the candidates surviving the exact scoring are among the names of those
surviving the approximate scoring. -/
theorem survivors_exact_subset (m : GenomeMatcherImpl) (fragment : List Char)
    (minimumLength : Int) (N : String)
    (h : N ∈ (m.survivors fragment minimumLength true).map DNAMatch.genomeName) :
    N ∈ (m.survivors fragment minimumLength false).map DNAMatch.genomeName := by
  rw [mem_survivors_names] at h ⊢
  obtain ⟨extra, hex⟩ := candidates_exact_prefix m fragment minimumLength
  rw [candidates_eq] at h ⊢
  rw [hex]
  obtain ⟨i, hi, hacc, hname⟩ := h
  simp only [List.length_map] at hi
  refine ⟨i, by simp only [List.length_map, List.length_append]; omega, ?_, ?_⟩
  · apply accepted_exact_imp
    unfold accepted at hacc ⊢
    simp only at hacc ⊢
    have : (List.map Prod.snd ((m.seedMatches fragment true).filterMap
          (candidateOf m.m_genomes minimumLength (fragment.length : Int)) ++ extra)).getD i []
        = (List.map Prod.snd ((m.seedMatches fragment true).filterMap
          (candidateOf m.m_genomes minimumLength (fragment.length : Int)))).getD i [] := by
      simp [List.getD_eq_getElem?_getD, List.getElem?_append_left, hi]
    rw [this]
    exact hacc
  · simp only at hname ⊢
    rw [List.map_append, matchAt_append_left _ _ _ (by simpa using hi)]
    exact hname

/-- Success and result names of the exact mode carry over to the approximate mode. -/
theorem findGenomes_exact_imp (m : GenomeMatcherImpl) (fragment : List Char)
    (minimumLength : Int) (mtchs mtchs' : List DNAMatch)
    (h : (m.findGenomesWithThisDNA fragment minimumLength true mtchs).1 = true) :
    (m.findGenomesWithThisDNA fragment minimumLength false mtchs').1 = true
    ∧ ∀ N : String,
        N ∈ (m.findGenomesWithThisDNA fragment minimumLength true mtchs).2.map
            DNAMatch.genomeName →
        N ∈ (m.findGenomesWithThisDNA fragment minimumLength false mtchs').2.map
            DNAMatch.genomeName := by
  by_cases hguard : (fragment.length : Int) < minimumLength % 2 ^ 64
      ∨ minimumLength < m.m_minSearchLength
  · unfold GenomeMatcherImpl.findGenomesWithThisDNA at h
    rw [if_pos hguard] at h
    simp at h
  · obtain ⟨re, hre, _, hne, _⟩ := findGenomes_passed m fragment minimumLength true mtchs hguard
    obtain ⟨ra, hra, _, hna, _⟩ :=
      findGenomes_passed m fragment minimumLength false mtchs' hguard
    rw [hre] at h ⊢
    rw [hra]
    have hre0 : re ≠ [] := by
      intro h0; rw [if_pos h0] at h; simp at h
    rw [if_neg hre0]
    have hsub : ∀ N, N ∈ re.map DNAMatch.genomeName → N ∈ ra.map DNAMatch.genomeName :=
      fun N hN => (hna N).2 (survivors_exact_subset m fragment minimumLength N ((hne N).1 hN))
    have hra0 : ra ≠ [] := by
      intro h0
      cases hre' : re with
      | nil => exact hre0 hre'
      | cons a l =>
        have := hsub a.genomeName (by rw [hre']; simp)
        rw [h0] at this
        simp at this
    rw [if_neg hra0]
    exact ⟨rfl, hsub⟩

theorem reportsName_exact_imp (m : GenomeMatcherImpl) (query : Genome) (fragmentLength : Int)
    (N : String) (j : Nat) (h : reportsName m query fragmentLength true N j = true) :
    reportsName m query fragmentLength false N j = true := by
  unfold reportsName at h ⊢
  simp only [Bool.and_eq_true, decide_eq_true_eq] at h ⊢
  have := findGenomes_exact_imp m (queryFragment query fragmentLength j) fragmentLength [] []
    h.1
  exact ⟨this.1, this.2 N h.2⟩

theorem hitsBelow_exact_le (m : GenomeMatcherImpl) (query : Genome) (fragmentLength : Int)
    (N : String) (j : Nat) :
    hitsBelow m query fragmentLength true N j ≤ hitsBelow m query fragmentLength false N j := by
  induction j with
  | zero => simp [hitsBelow]
  | succ j ih =>
    rw [hitsBelow_succ, hitsBelow_succ]
    by_cases h : reportsName m query fragmentLength true N j = true
    · rw [if_pos h, if_pos (reportsName_exact_imp m query fragmentLength N j h)]
      omega
    · rw [if_neg h]
      split <;> omega

/-! ## Values stored in the trie: auxiliary lemmas -/

theorem Node.All_createNode {V : Type} (P : V → Prop) : Node.All P (createNode : Node V) := by
  simp [createNode, Node.All]

theorem Node.All_childAt {V : Type} (P : V → Prop) (ch : Fin 26 → Node V)
    (h : ∀ j : Fin 26, Node.All P (ch j)) (i : Int) : Node.All P (childAt ch i) := by
  unfold childAt
  split
  · exact h _
  · simp [Node.All]

theorem Node.All_setChild {V : Type} (P : V → Prop) (ch : Fin 26 → Node V)
    (h : ∀ j : Fin 26, Node.All P (ch j)) (i : Int) (p : Node V) (hp : Node.All P p) :
    ∀ j : Fin 26, Node.All P (setChild ch i p j) := by
  intro j
  unfold setChild
  split
  · exact hp
  · exact h j

theorem Node.All_insertLoop {V : Type} (P : V → Prop) (v : V) (hv : P v) (key : List Char) :
    ∀ p : Node V, Node.All P p → Node.All P (insertLoop p key v) := by
  induction key with
  | nil =>
    intro p hp
    cases p with
    | null => simp [insertLoop, Node.All]
    | mk d ch =>
      simp only [insertLoop, Node.All] at hp ⊢
      refine ⟨?_, hp.2⟩
      intro x hx
      rcases List.mem_append.1 hx with h | h
      · exact hp.1 x h
      · simp only [List.mem_singleton] at h; rw [h]; exact hv
  | cons c cs ih =>
    intro p hp
    cases p with
    | null => simp [insertLoop, Node.All]
    | mk d ch =>
      simp only [Node.All] at hp
      simp only [insertLoop, Node.All]
      refine ⟨hp.1, ?_⟩
      have hch1 : ∀ j : Fin 26, Node.All P
          ((if (childAt ch (charIndex c)).isNull = true then
              setChild ch (charIndex c) createNode else ch) j) := by
        intro j
        split
        · exact Node.All_setChild P ch hp.2 _ _ (Node.All_createNode P) j
        · exact hp.2 j
      exact Node.All_setChild P _ hch1 _ _ (ih _ (Node.All_childAt P _ hch1 _))

theorem Node.All_findHelper {V : Type} (P : V → Prop) (key : List Char) :
    ∀ (root : Node V) (b : Bool), Node.All P root → ∀ v ∈ findHelper root key b, P v := by
  induction key with
  | nil =>
    intro root b h v hv
    cases root with
    | null => simp at hv
    | mk d ch =>
      simp only [findHelper_nil] at hv
      exact h.1 v hv
  | cons c cs ih =>
    intro root b h v hv
    cases root with
    | null => simp at hv
    | mk d ch =>
      simp only [Node.All] at h
      cases b with
      | true =>
        rw [findHelper_cons_true] at hv
        exact ih _ true (Node.All_childAt P ch h.2 _) v hv
      | false =>
        rw [findHelper_cons_false, List.mem_append, List.mem_flatMap] at hv
        rcases hv with hv | ⟨i, _, hv⟩
        · exact ih _ false (Node.All_childAt P ch h.2 _) v hv
        · exact ih _ true (Node.All_childAt P ch h.2 _) v hv

theorem Node.All_find {V : Type} (P : V → Prop) (t : Trie V) (h : Node.All P t.m_root)
    (key : List Char) (b : Bool) : ∀ v ∈ t.find key b, P v := by
  obtain ⟨r⟩ := t
  cases key with
  | nil => intro v hv; simp [Trie.find] at hv
  | cons c cs =>
    cases r with
    | null => intro v hv; simp [Trie.find] at hv
    | mk d ch =>
      rw [find_cons_eq]
      simp only [Node.All] at h
      exact Node.All_findHelper P cs _ b (Node.All_childAt P ch h.2 _)

theorem addGenomeStep_all (g : Genome) (seed pos : Int) (st : Trie GenomeLoc × List Char)
    (i : Nat) (h : Node.All (fun loc : GenomeLoc => 0 ≤ loc.index) st.1.m_root) :
    Node.All (fun loc : GenomeLoc => 0 ≤ loc.index) (addGenomeStep g seed pos st i).1.m_root := by
  unfold addGenomeStep
  simp only
  split
  · exact Node.All_insertLoop _ _ (by simp) _ _ h
  · exact h

theorem addGenome_all (m : GenomeMatcherImpl) (g : Genome)
    (h : Node.All (fun loc : GenomeLoc => 0 ≤ loc.index) m.m_trie.m_root) :
    Node.All (fun loc : GenomeLoc => 0 ≤ loc.index) (m.addGenome g).m_trie.m_root := by
  unfold GenomeMatcherImpl.addGenome
  simp only
  generalize (List.range (g.length - m.m_minSearchLength).toNat) = l
  have : ∀ (st : Trie GenomeLoc × List Char),
      Node.All (fun loc : GenomeLoc => 0 ≤ loc.index) st.1.m_root →
      Node.All (fun loc : GenomeLoc => 0 ≤ loc.index)
        (l.foldl (addGenomeStep g m.m_minSearchLength
          (((m.m_genomes ++ [g]).length : Int) - 1)) st).1.m_root := by
    induction l with
    | nil => intro st hst; exact hst
    | cons i l ih => intro st hst; exact ih _ (addGenomeStep_all g _ _ st i hst)
  exact this _ h

/-- Every location stored in the trie of a library has a non-negative offset. -/
theorem buildLibrary_all (seed : Int) (gs : List Genome) :
    Node.All (fun loc : GenomeLoc => 0 ≤ loc.index) (buildLibrary seed gs).m_trie.m_root := by
  induction gs using List.reverseRecOn with
  | nil => exact Node.All_createNode _
  | append_singleton gs g ih => rw [buildLibrary_snoc]; exact addGenome_all _ g ih

theorem seedMatches_index_nonneg (seed : Int) (gs : List Genome) (fragment : List Char)
    (exact : Bool) :
    ∀ loc ∈ (buildLibrary seed gs).seedMatches fragment exact, 0 ≤ loc.index :=
  Node.All_find _ _ (buildLibrary_all seed gs) _ _

/-! ## Bounds of candidates and returned records: auxiliary lemmas -/

theorem genomeAt_mem (genomes : List Genome) (i : Int) (g : Genome)
    (h : genomeAt genomes i = some g) : g ∈ genomes := by
  unfold genomeAt at h
  split at h
  · simp at h
  · exact List.getElem?_mem h

/-- What `getStrings` builds for a trie match with a non-negative offset: name and position of
the record, the bounds of its window, and the extracted sequence. -/
theorem candidateOf_bounds (genomes : List Genome) (minLength maxLength : Int)
    (loc : GenomeLoc) (rec : DNAMatch) (seq : List Char)
    (h : candidateOf genomes minLength maxLength loc = some (rec, seq))
    (hidx : 0 ≤ loc.index) (hmin : 1 ≤ minLength) (hle : minLength ≤ maxLength) :
    ∃ g ∈ genomes, g.name = rec.genomeName ∧ rec.position = loc.index
      ∧ minLength ≤ rec.length ∧ rec.length ≤ maxLength
      ∧ rec.position + rec.length ≤ g.length ∧ rec.position + minLength < g.length
      ∧ g.extract loc.index rec.length [] = (true, seq)
      ∧ ((seq.length : Nat) : Int) = rec.length := by
  unfold candidateOf at h
  cases hg : genomeAt genomes loc.genomePos with
  | none => rw [hg] at h; simp at h
  | some g =>
    rw [hg] at h
    simp only at h
    by_cases hskip : loc.index + minLength ≥ g.length
    · rw [if_pos hskip] at h; simp at h
    · rw [if_neg hskip] at h
      simp only [Option.some.injEq, Prod.mk.injEq] at h
      obtain ⟨hrec, hseq⟩ := h
      refine ⟨g, genomeAt_mem genomes _ g hg, ?_⟩
      by_cases hbig : loc.index + maxLength > g.length
      · rw [if_pos hbig] at hrec hseq
        have hex := extract_in_range g loc.index (g.length - 1 - loc.index) [] hidx
          (by omega) (by omega)
        rw [hex] at hseq
        subst hrec
        refine ⟨rfl, rfl, by simp only; omega, by simp only; omega, by simp only; omega,
          by simp only; omega, ?_, ?_⟩
        · rw [hex, ← hseq]
        · rw [← hseq]
          simp only [List.length_take, List.length_drop]
          unfold Genome.length at hskip ⊢
          omega
      · rw [if_neg hbig] at hrec hseq
        have hex := extract_in_range g loc.index maxLength [] hidx (by omega) (by omega)
        rw [hex] at hseq
        subst hrec
        refine ⟨rfl, rfl, by simp only; omega, by simp only; omega, by simp only; omega,
          by simp only; omega, ?_, ?_⟩
        · rw [hex, ← hseq]
        · rw [← hseq]
          simp only [List.length_take, List.length_drop]
          unfold Genome.length at hbig
          omega

theorem checkSnipLoop_true_bound (minimumLength : Int) (exact : Bool) (locSnip : Int)
    (s : List Char) :
    ∀ (f : List Char) (i n x : Int),
      checkSnipLoop minimumLength exact locSnip s f i n = (true, x) →
      x = 0 ∨ (minimumLength ≤ x ∧ i ≤ x ∧ x < i + (s.length : Int)) := by
  induction s with
  | nil =>
    intro f i n x h
    simp only [checkSnipLoop, Prod.mk.injEq, true_and] at h
    exact Or.inl h.symm
  | cons c s ih =>
    intro f i n x h
    rw [checkSnipLoop_cons] at h
    generalize (if c ≠ f.headD (Char.ofNat 0) then n + 1 else n) = n' at h
    by_cases hcond : ((mismatchBudget exact : Nat) : Int) < n'
    · rw [if_pos hcond] at h
      by_cases hlt : i < minimumLength
      · rw [if_pos hlt] at h; simp at h
      · rw [if_neg hlt] at h
        simp only [Prod.mk.injEq, true_and] at h
        right
        simp only [List.length_cons]
        push_cast
        omega
    · rw [if_neg hcond] at h
      rcases ih _ _ _ _ h with h0 | ⟨h1, h2, h3⟩
      · exact Or.inl h0
      · right
        simp only [List.length_cons]
        push_cast
        omega

theorem checkSnip_true_bound (s f : List Char) (minimumLength : Int) (exact : Bool)
    (h1 : (checkSnip s f minimumLength 0 exact).1 = true)
    (h2 : (checkSnip s f minimumLength 0 exact).2 ≠ 0) :
    minimumLength ≤ (checkSnip s f minimumLength 0 exact).2
    ∧ (checkSnip s f minimumLength 0 exact).2 < (s.length : Int) := by
  have h : checkSnipLoop minimumLength exact 0 s f 0 0
      = (true, (checkSnip s f minimumLength 0 exact).2) := by
    unfold checkSnip at h1 ⊢
    exact Prod.ext h1 rfl
  rcases checkSnipLoop_true_bound minimumLength exact 0 s f 0 0 _ h with h0 | ⟨ha, _, hc⟩
  · exact absurd h0 h2
  · exact ⟨ha, by omega⟩

theorem matchAt_set_ne (l : List DNAMatch) (i j : Nat) (x : DNAMatch) (h : i ≠ j) :
    matchAt (l.set i x) (j : Int) = matchAt l (j : Int) := by
  unfold matchAt
  have hj0 : ¬ ((j : Int) < 0) := by omega
  simp [hj0, List.getD_eq_getElem?_getD, List.getElem?_set_ne h]

/-- The lengths in the vector `DNAMatches` during the scoring loop: the length of a record is
the one `getStrings` gave it, or a truncation point that is at least `minimumLength` and below
the length of its sequence. -/
theorem dedupState_lengths (D0 : List DNAMatch) (S : List (List Char)) (fragment : List Char)
    (minimumLength : Int) (exact : Bool) (j : Nat) :
    (dedupState D0 S fragment minimumLength exact j).1.length = D0.length
    ∧ ∀ i : Nat, i < D0.length →
        (matchAt (dedupState D0 S fragment minimumLength exact j).1 (i : Int)).length
            = (matchAt D0 (i : Int)).length
        ∨ (minimumLength
              ≤ (matchAt (dedupState D0 S fragment minimumLength exact j).1 (i : Int)).length
            ∧ (matchAt (dedupState D0 S fragment minimumLength exact j).1 (i : Int)).length
              < ((S.getD i []).length : Int)) := by
  induction j with
  | zero => exact ⟨rfl, fun i _ => Or.inl rfl⟩
  | succ j ih =>
    rw [dedupState_succ, dedupStep_fst]
    obtain ⟨hlen, hall⟩ := ih
    by_cases hc : (checkSnip (S.getD j []) fragment minimumLength 0 exact).1 = true
        ∧ (checkSnip (S.getD j []) fragment minimumLength 0 exact).2 ≠ 0
    · rw [if_pos hc]
      refine ⟨by rw [List.length_set]; exact hlen, fun i hi => ?_⟩
      by_cases hij : j = i
      · subst hij
        rw [matchAt_set_self _ _ _ (by omega)]
        exact Or.inr (checkSnip_true_bound _ _ _ _ hc.1 hc.2)
      · rw [matchAt_set_ne _ _ _ _ hij]
        exact hall i hi
    · rw [if_neg hc]
      exact ⟨hlen, hall⟩

/-- The result of `findGenomesWithThisDNA` once the parameter check has passed, read off the
final state of the scoring and deduplication loop. -/
theorem findGenomes_eq_dedup (m : GenomeMatcherImpl) (fragment : List Char)
    (minimumLength : Int) (exact : Bool) (mtchs : List DNAMatch)
    (hguard : ¬ ((fragment.length : Int) < minimumLength % 2 ^ 64
      ∨ minimumLength < m.m_minSearchLength)) :
    m.findGenomesWithThisDNA fragment minimumLength exact mtchs
      = (if (dedupState (m.candidates fragment minimumLength exact).1
              (m.candidates fragment minimumLength exact).2 fragment minimumLength exact
              (m.candidates fragment minimumLength exact).1.length).2.map
            (fun it => matchAt (dedupState (m.candidates fragment minimumLength exact).1
              (m.candidates fragment minimumLength exact).2 fragment minimumLength exact
              (m.candidates fragment minimumLength exact).1.length).1 it.2) = []
         then (false, mtchs)
         else (true, (dedupState (m.candidates fragment minimumLength exact).1
              (m.candidates fragment minimumLength exact).2 fragment minimumLength exact
              (m.candidates fragment minimumLength exact).1.length).2.map
            (fun it => matchAt (dedupState (m.candidates fragment minimumLength exact).1
              (m.candidates fragment minimumLength exact).2 fragment minimumLength exact
              (m.candidates fragment minimumLength exact).1.length).1 it.2))) := by
  unfold GenomeMatcherImpl.findGenomesWithThisDNA
  rw [if_neg hguard]
  have hc : m.getStrings (m.m_trie.find (fragment.take (m.m_minSearchLength % 2 ^ 64).toNat)
      exact) minimumLength (fragment.length : Int)
      = m.candidates fragment minimumLength exact := rfl
  simp only [hc]
  generalize m.candidates fragment minimumLength exact = gs
  have hd : (List.range gs.1.length).foldl (dedupStep gs.2 fragment minimumLength exact)
      (gs.1, []) = dedupState gs.1 gs.2 fragment minimumLength exact gs.1.length := rfl
  rw [hd]
  generalize dedupState gs.1 gs.2 fragment minimumLength exact gs.1.length = st
  by_cases he : st.2.map (fun it => matchAt st.1 it.2) = []
  · simp [he]
  · simp [he]

/-! ## Trie: lookup theorems -/

/-- C4: exact lookup.  In a trie built by inserts with non-empty keys over `'A'..'Z'`,
`find(k, exactOnly = true)` for a non-empty key `k` over `'A'..'Z'` is the list of the values
inserted under exactly `k`, in insertion order (empty when `k` was never inserted).  Equivalently
one more `insert(key, v)` appends `v` to `find(key, true)` and leaves `find(k, true)` unchanged
for every other `k`. -/
theorem trie_find_exact {V : Type} (ins : List (List Char × V)) (k : List Char)
    (hins : ∀ p ∈ ins, validKey p.1 = true) (hk : validKey k = true) :
    (buildTrie ins).find k true = (ins.filter (fun p => decide (p.1 = k))).map Prod.snd
    ∧ ∀ (key : List Char) (v : V), validKey key = true →
        ((buildTrie ins).insert key v).find k true
          = (buildTrie ins).find k true ++ (if k = key then [v] else []) := by
  have hk' : k ≠ [] := by
    obtain ⟨c, cs, rfl, _⟩ := validKey_cons hk
    simp
  refine ⟨?_, ?_⟩
  · unfold buildTrie
    rw [find_foldl_insert_true ins Trie.new rfl k hins hk', find_new]
    simp
  · intro key v hkey
    exact find_insert_true _ (buildTrie_isNull ins) key k v hkey hk'

/-- Witness for C4 on three inserts, two of them under the looked-up key. -/
theorem trie_find_exact_witness :
    (buildTrie [("ACGT".toList, 1), ("ACGA".toList, 2), ("ACGT".toList, 3)]).find
      "ACGT".toList true = [1, 3] :=
  (trie_find_exact [("ACGT".toList, 1), ("ACGA".toList, 2), ("ACGT".toList, 3)] "ACGT".toList
    (by decide) (by decide)).1

/-- C3: approximate lookup.  In a trie built by inserts with non-empty keys over `'A'..'Z'`,
`find(k, exactOnly = false)` for a non-empty key `k` over `'A'..'Z'` is a permutation of the
values inserted under the keys of the same length as `k`, with the same first character, that
differ from `k` in at most one position.  In particular a value inserted under such a key is
returned, and a value inserted only under keys whose first character differs from that of `k`
is not. -/
theorem trie_find_approximate {V : Type} (ins : List (List Char × V)) (k : List Char)
    (hins : ∀ p ∈ ins, validKey p.1 = true) (hk : validKey k = true) :
    List.Perm ((buildTrie ins).find k false)
      ((ins.filter (fun p => nearKey k p.1)).map Prod.snd)
    ∧ (∀ (k' : List Char) (v : V), (k', v) ∈ ins → k'.length = k.length →
        k'.head? = k.head? → mismatchCount k' k ≤ 1 → v ∈ (buildTrie ins).find k false)
    ∧ (∀ v : V, (∀ k' : List Char, (k', v) ∈ ins → k'.head? ≠ k.head?) →
        v ∉ (buildTrie ins).find k false) := by
  have hk' : k ≠ [] := by
    obtain ⟨c, cs, rfl, _⟩ := validKey_cons hk
    simp
  have hperm : List.Perm ((buildTrie ins).find k false)
      ((ins.filter (fun p => nearKey k p.1)).map Prod.snd) := by
    have h := find_foldl_insert_false ins Trie.new rfl k hins hk'
    rw [find_new] at h
    simpa [buildTrie] using h
  refine ⟨hperm, ?_, ?_⟩
  · intro k' v hmem hlen hhead hmis
    rw [hperm.mem_iff, List.mem_map]
    refine ⟨(k', v), ?_, rfl⟩
    rw [List.mem_filter]
    exact ⟨hmem, by simp [nearKey, hlen, hhead, hmis]⟩
  · intro v hv hfind
    rw [hperm.mem_iff, List.mem_map] at hfind
    obtain ⟨⟨k', v'⟩, hp, rfl⟩ := hfind
    rw [List.mem_filter] at hp
    have hn : nearKey k k' = true := hp.2
    simp only [nearKey, decide_eq_true_eq] at hn
    exact hv k' hp.1 hn.2.1

/-- Witness for C3: a neighbour differing at index 3 is found, one differing at index 0 is not. -/
theorem trie_find_approximate_witness :
    List.Perm
      ((buildTrie [("ACGT".toList, 1), ("ACGA".toList, 2), ("CCGT".toList, 3)]).find
        "ACGT".toList false)
      [1, 2] :=
  (trie_find_approximate [("ACGT".toList, 1), ("ACGA".toList, 2), ("CCGT".toList, 3)]
    "ACGT".toList (by decide) (by decide)).1

/-! ## GenomeMatcher: parameter validation and indexing -/

/-- C7: parameter validation of `findGenomesWithThisDNA`.  For every engine state, fragment and
`int` value `minimumLength`, if `length(fragment) < minimumLength` or
`minimumLength < seedLength`, the call returns `false` and the output vector `matches` is what
it was before the call. -/
theorem findGenomes_rejects_bad_lengths (m : GenomeMatcherImpl) (fragment : List Char)
    (minimumLength : Int) (exactMatchOnly : Bool) (mtchs : List DNAMatch)
    (hint : isInt32 minimumLength)
    (h : (fragment.length : Int) < minimumLength ∨ minimumLength < m.m_minSearchLength) :
    m.findGenomesWithThisDNA fragment minimumLength exactMatchOnly mtchs = (false, mtchs) := by
  unfold GenomeMatcherImpl.findGenomesWithThisDNA
  have hg : (fragment.length : Int) < minimumLength % 2 ^ 64
      ∨ minimumLength < m.m_minSearchLength := by
    rcases h with h | h
    · left
      have h0 : 0 ≤ minimumLength := by omega
      have h1 : minimumLength < 2 ^ 64 := by
        have := hint.2
        omega
      rw [Int.emod_eq_of_lt h0 h1]
      exact h
    · right; exact h
  rw [if_pos hg]

/-- Witness for C7: a fragment of 3 characters asked with minimum length 4 on an engine of seed
length 4, with a non-empty output vector. -/
theorem findGenomes_rejects_bad_lengths_witness :
    (buildLibrary 4 [Genome.new "Alpha" "ACGTACGTAA".toList]).findGenomesWithThisDNA
      "ACG".toList 4 false [⟨"old", 1, 2⟩] = (false, [⟨"old", 1, 2⟩]) :=
  findGenomes_rejects_bad_lengths _ _ 4 false _ (by decide) (Or.inl (by decide))

/-- C8: indexing done by `addGenome`.  On an engine with seed length at least 1 and a genome `g`
over `{A,C,G,T,N}`, `addGenome(g)` appends `g` to the genome vector (at index `k`, the previous
size) and changes the trie by exactly the inserts, in increasing order of the offset `i` with
`0 <= i < length(g) - seedLength`, of the key `g[i .. i + seedLength)` with value
`(offset i, genome k)`.  Every indexed offset has `i + seedLength <= length(g)` (the key has
`seedLength` characters), and afterwards the exact lookup of that key contains `(i, k)`. -/
theorem addGenome_indexes_seeds (seedLength : Int) (gs : List Genome) (g : Genome)
    (hseed : 1 ≤ seedLength) (hg : dnaSequence g.m_sequence = true) :
    ((buildLibrary seedLength gs).addGenome g).m_genomes = gs ++ [g]
    ∧ ((buildLibrary seedLength gs).addGenome g).m_minSearchLength = seedLength
    ∧ ((buildLibrary seedLength gs).addGenome g).m_trie
        = ((List.range (g.length - seedLength).toNat).map
            (fun i => (substringAt g.m_sequence i seedLength,
              (⟨(i : Int), (gs.length : Int)⟩ : GenomeLoc)))).foldl
            (fun t p => t.insert p.1 p.2) (buildLibrary seedLength gs).m_trie
    ∧ (∀ i : Nat, (i : Int) < g.length - seedLength →
        (i : Int) + seedLength ≤ g.length
        ∧ ((substringAt g.m_sequence i seedLength).length : Int) = seedLength
        ∧ (⟨(i : Int), (gs.length : Int)⟩ : GenomeLoc) ∈
            ((buildLibrary seedLength gs).addGenome g).m_trie.find
              (substringAt g.m_sequence i seedLength) true) := by
  have htrie := addGenome_trie (buildLibrary seedLength gs) g
    (by rw [buildLibrary_seed]; omega)
  rw [buildLibrary_seed, buildLibrary_genomes] at htrie
  refine ⟨by rw [addGenome_genomes, buildLibrary_genomes],
    by rw [addGenome_seed, buildLibrary_seed], htrie, ?_⟩
  intro i hi
  have hle : (i : Int) + seedLength ≤ (g.m_sequence.length : Int) := by
    unfold Genome.length at hi; omega
  have hlen := length_substringAt g.m_sequence i seedLength hle
  refine ⟨by unfold Genome.length; omega, by rw [hlen]; omega, ?_⟩
  rw [htrie]
  have hvalid : ∀ p ∈ (List.range (g.length - seedLength).toNat).map
      (fun i => (substringAt g.m_sequence i seedLength,
        (⟨(i : Int), (gs.length : Int)⟩ : GenomeLoc))), validKey p.1 = true := by
    intro p hp
    rw [List.mem_map] at hp
    obtain ⟨j, hj, rfl⟩ := hp
    rw [List.mem_range] at hj
    exact validKey_substringAt _ _ _ hg hseed (by unfold Genome.length at hj; omega)
  have hne : substringAt g.m_sequence i seedLength ≠ [] := by
    intro h0; rw [h0] at hlen; simp at hlen; omega
  rw [find_foldl_insert_true _ _ (buildLibrary_root seedLength gs) _ hvalid hne]
  apply List.mem_append_right
  rw [List.mem_map]
  refine ⟨(substringAt g.m_sequence i seedLength, ⟨(i : Int), (gs.length : Int)⟩), ?_, rfl⟩
  rw [List.mem_filter]
  refine ⟨?_, by simp⟩
  rw [List.mem_map]
  exact ⟨i, by rw [List.mem_range]; omega, rfl⟩

/-- Witness for C8: adding a second genome of 10 characters with seed length 4 indexes the
offsets 0..5 under genome index 1. -/
theorem addGenome_indexes_seeds_witness :
    ((buildLibrary 4 [Genome.new "Alpha" "ACGTACGTAA".toList]).addGenome
        (Genome.new "Beta" "ACGGACGTAA".toList)).m_genomes
      = [Genome.new "Alpha" "ACGTACGTAA".toList] ++ [Genome.new "Beta" "ACGGACGTAA".toList] :=
  (addGenome_indexes_seeds 4 [Genome.new "Alpha" "ACGTACGTAA".toList]
    (Genome.new "Beta" "ACGGACGTAA".toList) (by decide) (by decide)).1

/-- C6: result name set of `findGenomesWithThisDNA`.  On every library built by `addGenome` and
every call with `seedLength <= minimumLength <= length(fragment)`, the call returns `true` if
and only if at least one seeded candidate survives scoring (so it fails when the seed lookup is
empty); on success the returned records have pairwise distinct `genomeName`s and the set of
these names is the set of the names of the surviving candidates. -/
theorem findGenomes_names_of_survivors (seedLength : Int) (gs : List Genome)
    (fragment : List Char) (minimumLength : Int) (exactMatchOnly : Bool)
    (mtchs : List DNAMatch)
    (h1 : seedLength ≤ minimumLength) (h2 : minimumLength ≤ (fragment.length : Int)) :
    (((buildLibrary seedLength gs).findGenomesWithThisDNA fragment minimumLength exactMatchOnly
          mtchs).1 = true
        ↔ (buildLibrary seedLength gs).survivors fragment minimumLength exactMatchOnly ≠ [])
    ∧ ((buildLibrary seedLength gs).seedMatches fragment exactMatchOnly = [] →
        ((buildLibrary seedLength gs).findGenomesWithThisDNA fragment minimumLength
          exactMatchOnly mtchs).1 = false)
    ∧ (((buildLibrary seedLength gs).findGenomesWithThisDNA fragment minimumLength exactMatchOnly
          mtchs).1 = true →
        (((buildLibrary seedLength gs).findGenomesWithThisDNA fragment minimumLength
            exactMatchOnly mtchs).2.map DNAMatch.genomeName).Nodup
        ∧ ∀ N : String,
            N ∈ ((buildLibrary seedLength gs).findGenomesWithThisDNA fragment minimumLength
                exactMatchOnly mtchs).2.map DNAMatch.genomeName
            ↔ N ∈ ((buildLibrary seedLength gs).survivors fragment minimumLength
                exactMatchOnly).map DNAMatch.genomeName) := by
  generalize hm : buildLibrary seedLength gs = m
  have hseed : m.m_minSearchLength = seedLength := by rw [← hm, buildLibrary_seed]
  have key : (m.findGenomesWithThisDNA fragment minimumLength exactMatchOnly mtchs).1 = true
        ↔ m.survivors fragment minimumLength exactMatchOnly ≠ [] := by
    by_cases hguard : (fragment.length : Int) < minimumLength % 2 ^ 64
        ∨ minimumLength < m.m_minSearchLength
    · have hneg : seedLength ≤ 0 := by
        rcases hguard with hg | hg
        · by_contra hpos
          have : minimumLength % 2 ^ 64 ≤ minimumLength := by omega
          omega
        · omega
      have hs : m.survivors fragment minimumLength exactMatchOnly = [] := by
        rw [← hm]
        exact survivors_nil_of_seedMatches_nil _ _ _ _
          (seedMatches_nil_of_nonpos seedLength gs hneg fragment exactMatchOnly)
      unfold GenomeMatcherImpl.findGenomesWithThisDNA
      rw [if_pos hguard, hs]
      simp
    · obtain ⟨results, hr, _, hnames, _⟩ :=
        findGenomes_passed m fragment minimumLength exactMatchOnly mtchs hguard
      rw [hr]
      by_cases he : results = []
      · have hs : m.survivors fragment minimumLength exactMatchOnly = [] := by
          cases hsv : m.survivors fragment minimumLength exactMatchOnly with
          | nil => rfl
          | cons a l =>
            have := (hnames a.genomeName).2 (by rw [hsv]; simp)
            rw [he] at this
            simp at this
        simp [he, hs]
      · have hs : m.survivors fragment minimumLength exactMatchOnly ≠ [] := by
          intro hsv
          cases hres : results with
          | nil => exact he hres
          | cons a l =>
            have := (hnames a.genomeName).1 (by rw [hres]; simp)
            rw [hsv] at this
            simp at this
        simp [he, hs]
  refine ⟨key, ?_, ?_⟩
  · intro hsm
    have hs := survivors_nil_of_seedMatches_nil m fragment minimumLength exactMatchOnly hsm
    cases hb : (m.findGenomesWithThisDNA fragment minimumLength exactMatchOnly mtchs).1 with
    | false => rfl
    | true => exact absurd hs (key.1 hb)
  · intro hsucc
    by_cases hguard : (fragment.length : Int) < minimumLength % 2 ^ 64
        ∨ minimumLength < m.m_minSearchLength
    · unfold GenomeMatcherImpl.findGenomesWithThisDNA at hsucc
      rw [if_pos hguard] at hsucc
      simp at hsucc
    · obtain ⟨results, hr, hnd, hnames, _⟩ :=
        findGenomes_passed m fragment minimumLength exactMatchOnly mtchs hguard
      rw [hr] at hsucc ⊢
      by_cases he : results = []
      · rw [if_pos he] at hsucc; simp at hsucc
      · rw [if_neg he]
        exact ⟨hnd, hnames⟩

/-- Witness for C6 on the two-genome library with seed length 4 and the fragment `ACGT`. -/
theorem findGenomes_names_of_survivors_witness :
    ((buildLibrary 4 [Genome.new "Alpha" "ACGTACGTAA".toList,
          Genome.new "Beta" "ACGGACGTAA".toList]).findGenomesWithThisDNA "ACGT".toList 4 true
          []).1 = true
      ↔ (buildLibrary 4 [Genome.new "Alpha" "ACGTACGTAA".toList,
          Genome.new "Beta" "ACGGACGTAA".toList]).survivors "ACGT".toList 4 true ≠ [] :=
  (findGenomes_names_of_survivors 4 [Genome.new "Alpha" "ACGTACGTAA".toList,
      Genome.new "Beta" "ACGGACGTAA".toList] "ACGT".toList 4 true [] (by decide) (by decide)).1

/-! ## `findRelatedGenomes`: theorems -/

/-- C9 (amended): reference definition of `findRelatedGenomes`.  With
`fragmentLength >= seedLength >= 1`, `n = floor(length(query) / fragmentLength)` and `hits(N)`
the number of query fragments for which `findGenomesWithThisDNA` reports `N`, the call computes
a vector with exactly one record `(N, p)` for each name `N` with `hits(N) >= 1` and
`p >= thresholdPercent`, where `p` is the binary64 value of `(double(hits(N)) / double(n)) * 100`
(two roundings), and no other record.  The call returns `true` with that vector when it is
non-empty, and `false` leaving `results` untouched otherwise (in particular when `n = 0`).
Every reported percentage `p` satisfies `0 < p <= 100`. -/
theorem findRelated_reference (m : GenomeMatcherImpl) (query : Genome) (fragmentLength : Int)
    (exactMatchOnly : Bool) (threshold : ℚ) (results : List GenomeMatch)
    (hseed : 1 ≤ m.m_minSearchLength) (hfl : m.m_minSearchLength ≤ fragmentLength) :
    ∃ recs : List GenomeMatch,
      m.findRelatedGenomes query fragmentLength exactMatchOnly threshold results
        = (if recs = [] then (false, results) else (true, recs))
      ∧ (recs.map GenomeMatch.genomeName).Nodup
      ∧ (∀ (N : String) (p : ℚ), (⟨N, p⟩ : GenomeMatch) ∈ recs ↔
          1 ≤ hitCount m query fragmentLength exactMatchOnly N
          ∧ p = percentOf (hitCount m query fragmentLength exactMatchOnly N : Int)
                (fragmentCount query fragmentLength : Int)
          ∧ threshold ≤ p)
      ∧ (fragmentCount query fragmentLength = 0 → recs = [])
      ∧ (∀ r ∈ recs, 0 < r.percentMatch ∧ r.percentMatch ≤ 100) := by
  have hfl1 : 1 ≤ fragmentLength := by omega
  have hmem := mem_relatedRecords m query fragmentLength exactMatchOnly threshold hfl1
  have hhits : ∀ N, hitCount m query fragmentLength exactMatchOnly N
      ≤ fragmentCount query fragmentLength :=
    fun N => hitsBelow_le m query fragmentLength exactMatchOnly N _
  refine ⟨relatedRecords m query fragmentLength exactMatchOnly threshold,
    findRelated_eq m query fragmentLength exactMatchOnly threshold results hseed hfl,
    relatedRecords_nodup m query fragmentLength exactMatchOnly threshold hfl1, hmem, ?_, ?_⟩
  · intro hn
    cases hrec : relatedRecords m query fragmentLength exactMatchOnly threshold with
    | nil => rfl
    | cons a l =>
      have h1 := ((hmem a.genomeName a.percentMatch).1 (by rw [hrec]; simp)).1
      have h2 := hhits a.genomeName
      omega
  · intro r hr
    obtain ⟨h1, h2, _⟩ := (hmem r.genomeName r.percentMatch).1 hr
    rw [h2]
    exact percentOf_bounds _ _ (by exact_mod_cast h1) (by exact_mod_cast hhits r.genomeName)

/-- Witness for C9 (amended) on the two-genome library with seed length 4. -/
theorem findRelated_reference_witness :
    ∃ recs : List GenomeMatch,
      (buildLibrary 4 [Genome.new "Alpha" "ACGTACGTAA".toList,
          Genome.new "Beta" "ACGGACGTAA".toList]).findRelatedGenomes
          (Genome.new "Q" "ACGTACGTAA".toList) 5 false 50 []
        = (if recs = [] then (false, []) else (true, recs))
      ∧ (recs.map GenomeMatch.genomeName).Nodup := by
  obtain ⟨recs, h1, h2, _⟩ := findRelated_reference
    (buildLibrary 4 [Genome.new "Alpha" "ACGTACGTAA".toList,
      Genome.new "Beta" "ACGGACGTAA".toList])
    (Genome.new "Q" "ACGTACGTAA".toList) 5 false 50 [] (by decide) (by decide)
  exact ⟨recs, h1, h2⟩

/-- C10: threshold extremes of `findRelatedGenomes`.  With `fragmentLength >= seedLength >= 1`,
a query whose length is an `int`, and `n = floor(length(query) / fragmentLength) >= 1`: the
names returned with `thresholdPercent = 0` are exactly the names `findGenomesWithThisDNA`
reports for at least one of the `n` query fragments, and the names returned with
`thresholdPercent = 100` are exactly the names it reports for every one of the `n` fragments. -/
theorem findRelated_threshold_extremes (m : GenomeMatcherImpl) (query : Genome)
    (fragmentLength : Int) (exactMatchOnly : Bool) (results : List GenomeMatch)
    (hseed : 1 ≤ m.m_minSearchLength) (hfl : m.m_minSearchLength ≤ fragmentLength)
    (hn : 1 ≤ fragmentCount query fragmentLength) (hint : isInt32 query.length) :
    (∀ N : String,
      N ∈ returnedNames (m.findRelatedGenomes query fragmentLength exactMatchOnly 0 results)
        ↔ ∃ j, j < fragmentCount query fragmentLength
            ∧ reportsName m query fragmentLength exactMatchOnly N j = true)
    ∧ (∀ N : String,
      N ∈ returnedNames (m.findRelatedGenomes query fragmentLength exactMatchOnly 100 results)
        ↔ ∀ j, j < fragmentCount query fragmentLength
            → reportsName m query fragmentLength exactMatchOnly N j = true) := by
  have hhits : ∀ N, hitCount m query fragmentLength exactMatchOnly N
      ≤ fragmentCount query fragmentLength :=
    fun N => hitsBelow_le m query fragmentLength exactMatchOnly N _
  have hn31 : ((fragmentCount query fragmentLength : Nat) : Int) < 2 ^ 31 := by
    have hlen : (0 : Int) ≤ query.length := by unfold Genome.length; omega
    have h1 : query.length / fragmentLength ≤ query.length :=
      Int.ediv_le_self _ hlen
    have h2 := hint.2
    unfold fragmentCount
    omega
  refine ⟨fun N => ?_, fun N => ?_⟩
  · rw [mem_returnedNames m query fragmentLength exactMatchOnly 0 results hseed hfl]
    rw [← one_le_hitsBelow_iff]
    constructor
    · intro h; exact h.1
    · intro h
      refine ⟨h, le_of_lt (percentOf_bounds _ _ ?_ ?_).1⟩
      · exact_mod_cast h
      · exact_mod_cast hhits N
  · rw [mem_returnedNames m query fragmentLength exactMatchOnly 100 results hseed hfl]
    rw [← hitsBelow_eq_iff]
    constructor
    · rintro ⟨h1, h2⟩
      have := (percentOf_ge_hundred_iff _ _ (by exact_mod_cast h1)
        (by exact_mod_cast hhits N) hn31).1 h2
      exact_mod_cast this
    · intro h
      have hc : hitCount m query fragmentLength exactMatchOnly N
          = fragmentCount query fragmentLength := h
      refine ⟨by omega, ?_⟩
      rw [hc, percentOf_self _ (by exact_mod_cast hn)]

/-- Witness for C10 on the two-genome library with seed length 4 and a query of two fragments:
`Alpha` is reported for both fragments, hence returned at threshold 100. -/
theorem findRelated_threshold_extremes_witness :
    "Alpha" ∈ returnedNames ((buildLibrary 4 [Genome.new "Alpha" "ACGTACGTAA".toList,
      Genome.new "Beta" "ACGGACGTAA".toList]).findRelatedGenomes
      (Genome.new "Q" "ACGTACGTAA".toList) 5 false 100 []) :=
  ((findRelated_threshold_extremes
    (buildLibrary 4 [Genome.new "Alpha" "ACGTACGTAA".toList,
      Genome.new "Beta" "ACGGACGTAA".toList])
    (Genome.new "Q" "ACGTACGTAA".toList) 5 false [] (by decide) (by decide) (by decide)
    (by decide)).2 "Alpha").2 (by decide)

/-- C9 (counterexample): seed length 1, library `G = AAA`, a query of 50 characters of which 29
are `A`, fragment length 1 and threshold 58.  Here `n = 50`, `hits(G) = 29` and
`100 * 29 / 50 = 58 >= 58`, so the claim asks for the record `(G, 58)` and success; the code
computes `(29.0 / 50.0) * 100 = 57.99999999999999 < 58` and returns failure. -/
theorem findRelated_rounding_counterexample :
    fragmentCount roundingQuery 1 = 50
    ∧ hitCount roundingLibrary roundingQuery 1 false "G" = 29
    ∧ (58 : ℚ) ≤ 100 * 29 / 50
    ∧ roundingLibrary.findRelatedGenomes roundingQuery 1 false 58 [] = (false, []) := by
  refine ⟨rounding_fragmentCount, rounding_hitCount, by norm_num, ?_⟩
  rw [findRelated_eq roundingLibrary roundingQuery 1 false 58 [] (by decide) (by decide)]
  have hrec : relatedRecords roundingLibrary roundingQuery 1 false 58 = [] := by
    unfold relatedRecords
    rw [rounding_fragmentCount, rounding_tally]
    have hp : ¬ (percentOf 29 ((50 : Nat) : Int) ≥ 58) := by
      have : ((50 : Nat) : Int) = 50 := rfl
      rw [this, percentOf_29_50]
      norm_num
    simp only [List.filterMap_cons, if_neg hp, List.filterMap_nil]
  rw [if_pos hrec]

/-! ## `findGenomesWithThisDNA`: behaviour on the inputs where the code departs from the
specified behaviour -/

/-- C1 (evaluation at the failing input): seed length 4, library `G = ACGTTTACGTAAA`, call
`findGenomesWithThisDNA("ACGTAA", 6, exactMatchOnly = false)`.  The only candidate that survives
scoring is the one at position 6; the candidate at position 0 (`ACGTTT`, two mismatches) is
rejected.  The call nevertheless returns the single record `(G, position 0, length 6)`, which is
not a genuine match: the name table keeps the value 0 it was default-initialised with, and 0 is
also the index of the rejected candidate. -/
theorem findGenomes_returns_rejected_candidate :
    (buildLibrary 4 [Genome.new "G" "ACGTTTACGTAAA".toList]).survivors "ACGTAA".toList 6 false
      = [⟨"G", 6, 6⟩]
    ∧ (buildLibrary 4 [Genome.new "G" "ACGTTTACGTAAA".toList]).findGenomesWithThisDNA
        "ACGTAA".toList 6 false [] = (true, [⟨"G", 6, 0⟩])
    ∧ mismatchCount (substringAt "ACGTTTACGTAAA".toList 0 6) "ACGTAA".toList = 2
    ∧ genuineMatch [Genome.new "G" "ACGTTTACGTAAA".toList] "ACGTAA".toList false ⟨"G", 6, 0⟩
        = false := by
  decide

/-- C5 (evaluation at the failing input): seed length 4, library `G = ACGTTACGTAACGTAA`, call
`findGenomesWithThisDNA("ACGTA", 5, exactMatchOnly = true)`.  The genome contains the fragment
at exactly the offsets 5 and 10, and these are the candidates that survive scoring; the record
returned for `G` has position 0, the position of the rejected first candidate. -/
theorem findGenomes_position_of_rejected_candidate :
    (List.range 16).filter
        (fun i => decide (substringAt "ACGTTACGTAACGTAA".toList i 5 = "ACGTA".toList)) = [5, 10]
    ∧ (buildLibrary 4 [Genome.new "G" "ACGTTACGTAACGTAA".toList]).survivors "ACGTA".toList 5
        true = [⟨"G", 5, 5⟩, ⟨"G", 5, 10⟩]
    ∧ (buildLibrary 4 [Genome.new "G" "ACGTTACGTAACGTAA".toList]).findGenomesWithThisDNA
        "ACGTA".toList 5 true [] = (true, [⟨"G", 5, 0⟩]) := by
  decide

/-- C2 (evaluation at the failing input): seed length 4, library `G = ACGTA`.  The genome
contains `CGTA` (at offset 1) and `ACGTA` (at offset 0), yet the calls
`findGenomesWithThisDNA("CGTA", 4, _)` and `findGenomesWithThisDNA("ACGTA", 5, _)` fail: the
seed at the last offset `length - seedLength` is never indexed, and a window that ends exactly
at the end of the genome is discarded by `getStrings`. -/
theorem findGenomes_misses_occurrence_at_genome_end :
    substringAt "ACGTA".toList 1 4 = "CGTA".toList
    ∧ substringAt "ACGTA".toList 0 5 = "ACGTA".toList
    ∧ (buildLibrary 4 [Genome.new "G" "ACGTA".toList]).seedMatches "CGTA".toList false = []
    ∧ (buildLibrary 4 [Genome.new "G" "ACGTA".toList]).findGenomesWithThisDNA
        "CGTA".toList 4 true [] = (false, [])
    ∧ (buildLibrary 4 [Genome.new "G" "ACGTA".toList]).findGenomesWithThisDNA
        "CGTA".toList 4 false [] = (false, [])
    ∧ (buildLibrary 4 [Genome.new "G" "ACGTA".toList]).seedMatches "ACGTA".toList true
        = [⟨0, 0⟩]
    ∧ (buildLibrary 4 [Genome.new "G" "ACGTA".toList]).findGenomesWithThisDNA
        "ACGTA".toList 5 true [] = (false, [])
    ∧ (buildLibrary 4 [Genome.new "G" "ACGTA".toList]).findGenomesWithThisDNA
        "ACGTA".toList 5 false [] = (false, []) := by
  decide

/-! ## Further theorems on the trie, the genome and the matcher -/

/-- C20: exact results lead approximate results.  For every trie built by inserts and every
key `k` (in particular for non-empty keys over `'A'..'Z'`), the list `find(k, true)` is a prefix
of the list `find(k, false)`: the values of the one-substitution neighbours only follow the
values of the exact key. -/
theorem trie_find_exact_prefix_of_approximate {V : Type} (ins : List (List Char × V))
    (k : List Char) :
    (buildTrie ins).find k true <+: (buildTrie ins).find k false :=
  find_true_prefix _ k

/-- C11: parameter validation of `findRelatedGenomes`.  For every engine state, query, mode and
threshold, if `fragmentMatchLength < seedLength` the call returns `false` and the output vector
`results` is what it was before the call. -/
theorem findRelated_rejects_short_fragment (m : GenomeMatcherImpl) (query : Genome)
    (fragmentMatchLength : Int) (exactMatchOnly : Bool) (matchPercentThreshold : ℚ)
    (results : List GenomeMatch) (h : fragmentMatchLength < m.m_minSearchLength) :
    m.findRelatedGenomes query fragmentMatchLength exactMatchOnly matchPercentThreshold results
      = (false, results) := by
  unfold GenomeMatcherImpl.findRelatedGenomes
  rw [if_pos h]

/-- Witness for C11: fragment length 3 on an engine of seed length 4, with a non-empty output
vector. -/
theorem findRelated_rejects_short_fragment_witness :
    (buildLibrary 4 [Genome.new "Alpha" "ACGTACGTAA".toList]).findRelatedGenomes
      (Genome.new "Q" "ACGTACGTAA".toList) 3 false 50 [⟨"old", 7⟩] = (false, [⟨"old", 7⟩]) :=
  findRelated_rejects_short_fragment _ _ 3 false 50 _ (by decide)

/-- C12 (counterexample): Scenario 1.  With seed length 4 and the library Alpha = `ACGTACGTAA`,
Beta = `ACGGACGTAA`, the call `findGenomesWithThisDNA("ACGT", 4, exactMatchOnly = true)` does
not return the single record for Alpha: Beta contains `ACGT` at position 4 and its record is
returned as well. -/
theorem scenario_one_not_single_record :
    substringAt "ACGGACGTAA".toList 4 4 = "ACGT".toList
    ∧ (⟨"Beta", 4, 4⟩ : DNAMatch)
        ∈ ((buildLibrary 4 [Genome.new "Alpha" "ACGTACGTAA".toList,
            Genome.new "Beta" "ACGGACGTAA".toList]).findGenomesWithThisDNA
            "ACGT".toList 4 true []).2
    ∧ (buildLibrary 4 [Genome.new "Alpha" "ACGTACGTAA".toList,
        Genome.new "Beta" "ACGGACGTAA".toList]).findGenomesWithThisDNA "ACGT".toList 4 true []
        ≠ (true, [⟨"Alpha", 4, 0⟩]) := by
  decide

/-- C12 (amended): Scenario 1.  With seed length 4 and the library Alpha = `ACGTACGTAA`,
Beta = `ACGGACGTAA`, the call `findGenomesWithThisDNA("ACGT", 4, exactMatchOnly = true)`
succeeds and returns exactly two records, `(Alpha, position 0, length 4)` and
`(Beta, position 4, length 4)`. -/
theorem scenario_one_two_records :
    ((buildLibrary 4 [Genome.new "Alpha" "ACGTACGTAA".toList,
        Genome.new "Beta" "ACGGACGTAA".toList]).findGenomesWithThisDNA
        "ACGT".toList 4 true []).1 = true
    ∧ List.Perm
        ((buildLibrary 4 [Genome.new "Alpha" "ACGTACGTAA".toList,
          Genome.new "Beta" "ACGGACGTAA".toList]).findGenomesWithThisDNA
          "ACGT".toList 4 true []).2
        [⟨"Alpha", 4, 0⟩, ⟨"Beta", 4, 4⟩] := by
  have h : (buildLibrary 4 [Genome.new "Alpha" "ACGTACGTAA".toList,
        Genome.new "Beta" "ACGGACGTAA".toList]).findGenomesWithThisDNA "ACGT".toList 4 true []
      = (true, [⟨"Alpha", 4, 0⟩, ⟨"Beta", 4, 4⟩]) := by decide
  rw [h]
  exact ⟨rfl, List.Perm.refl _⟩

/-- C13: Scenario 2.  With seed length 4 and the library Alpha = `ACGTACGTAA`,
Beta = `ACGGACGTAA`, the call `findRelatedGenomes` with a query genome of sequence `ACGTACGTAA`
(of any name), fragment length 5, approximate matching and threshold 50 succeeds, and its
result contains the record `(Alpha, 100)`. -/
theorem scenario_two_alpha_at_hundred (nm : String) :
    ((buildLibrary 4 [Genome.new "Alpha" "ACGTACGTAA".toList,
        Genome.new "Beta" "ACGGACGTAA".toList]).findRelatedGenomes
        (Genome.new nm "ACGTACGTAA".toList) 5 false 50 []).1 = true
    ∧ (⟨"Alpha", 100⟩ : GenomeMatch)
        ∈ ((buildLibrary 4 [Genome.new "Alpha" "ACGTACGTAA".toList,
            Genome.new "Beta" "ACGGACGTAA".toList]).findRelatedGenomes
            (Genome.new nm "ACGTACGTAA".toList) 5 false 50 []).2 := by
  rw [Genome.new_eq nm, findRelated_query_name _ nm "Q"]
  generalize hm : buildLibrary 4 [Genome.new "Alpha" "ACGTACGTAA".toList,
    Genome.new "Beta" "ACGGACGTAA".toList] = m
  have hseed : m.m_minSearchLength = 4 := by rw [← hm, buildLibrary_seed]
  have hcount : fragmentCount ⟨"Q", "ACGTACGTAA".toList⟩ 5 = 2 := by decide
  have hhits : hitCount m ⟨"Q", "ACGTACGTAA".toList⟩ 5 false "Alpha" = 2 := by
    rw [← hm]; decide
  have hmem : (⟨"Alpha", 100⟩ : GenomeMatch)
      ∈ relatedRecords m ⟨"Q", "ACGTACGTAA".toList⟩ 5 false 50 := by
    rw [mem_relatedRecords m _ 5 false 50 (by decide), hhits, hcount]
    refine ⟨by decide, ?_, by norm_num⟩
    have : percentOf ((2 : Nat) : Int) ((2 : Nat) : Int) = 100 := percentOf_self 2 (by decide)
    rw [this]
  rw [findRelated_eq m _ 5 false 50 [] (by rw [hseed]; decide) (by rw [hseed]; decide)]
  have hne : relatedRecords m ⟨"Q", "ACGTACGTAA".toList⟩ 5 false 50 ≠ [] := by
    intro h0; rw [h0] at hmem; simp at hmem
  rw [if_neg hne]
  exact ⟨rfl, hmem⟩

/-- C14: contract of `Genome::extract`.  For every genome and all `int` values
`position >= 0` and `length >= 0`: the call fails if and only if
`position + length > length()`, and then the output `fragment` is unchanged; otherwise it
succeeds and the output consists of exactly `length` characters, the `j`-th of which is the
stored symbol at index `position + j`.  (The method is `const`: it has no access path to change
the stored sequence or the name, and the embedding accordingly returns no genome.) -/
theorem extract_contract (g : Genome) (position length : Int) (fragment : List Char)
    (hp : 0 ≤ position) (hl : 0 ≤ length) (hpi : isInt32 position) (hli : isInt32 length) :
    ((g.extract position length fragment).1 = false ↔ position + length > g.length)
    ∧ (position + length > g.length → g.extract position length fragment = (false, fragment))
    ∧ (position + length ≤ g.length →
        (g.extract position length fragment).1 = true
        ∧ (g.extract position length fragment).2
            = substringAt g.m_sequence position.toNat length
        ∧ (((g.extract position length fragment).2.length : Nat) : Int) = length
        ∧ ∀ j : Nat, (j : Int) < length →
            (g.extract position length fragment).2[j]? = g.m_sequence[position.toNat + j]?) := by
  have hfail : position + length > g.length →
      g.extract position length fragment = (false, fragment) := by
    intro h
    unfold Genome.extract
    have h64 : (position + length) % 2 ^ 64 = position + length :=
      Int.emod_eq_of_lt (by omega) (by have := hpi.2; have := hli.2; omega)
    rw [if_pos (by rw [h64]; unfold Genome.length at h; exact h)]
  have hok : position + length ≤ g.length →
      g.extract position length fragment
        = (true, substringAt g.m_sequence position.toNat length) := by
    intro h
    rw [extract_in_range g position length fragment hp hl h]
    rfl
  refine ⟨?_, hfail, ?_⟩
  · constructor
    · intro h
      by_contra hc
      rw [hok (by omega)] at h
      simp at h
    · intro h
      rw [hfail h]
  · intro h
    rw [hok h]
    have hlen : (substringAt g.m_sequence position.toNat length).length = length.toNat :=
      length_substringAt _ _ _ (by unfold Genome.length at h; omega)
    refine ⟨rfl, rfl, by simp only [hlen]; omega, ?_⟩
    intro j hj
    simp only [substringAt]
    rw [List.getElem?_take_of_lt (by omega), List.getElem?_drop]

/-- Witness for C14: three characters from index 4 of a genome of ten characters. -/
theorem extract_contract_witness :
    (Genome.new "Alpha" "ACGTACGTAA".toList).extract 4 3 "old".toList = (true, "ACG".toList) := by
  have h := (extract_contract (Genome.new "Alpha" "ACGTACGTAA".toList) 4 3 "old".toList
    (by decide) (by decide) (by decide) (by decide)).2.2 (by decide)
  exact Prod.ext h.1 (by rw [h.2.1]; decide)

/-- C15 (evaluation at the failing input): `load` accepts blank lines inside a record.  On the
text `>A`, `ACGT`, an empty line, `ACGT` (each line ended by a newline) the call returns `true`
with the genome `A = ACGTACGT`, and likewise with the empty line directly after the name line:
the local `prev` is never assigned, so the test `c == '\n' && prev == '\n'` is never true. -/
theorem load_accepts_blank_line :
    Genome.load ">A\nACGT\n\nACGT\n".toList []
      = some (true, [Genome.new "A" "ACGTACGT".toList])
    ∧ Genome.load ">A\n\nACGT\n".toList [] = some (true, [Genome.new "A" "ACGT".toList]) := by
  decide

/-- C16 (evaluation at the failing input): seed length 4, library `G = TTACGTAA`, call with
fragment `ACGTAAGG` and minimum length 4.  The only seeded location is offset 2 of `G`; it is
kept as a candidate with window length 5 (sequence `ACGTA`), whereas
`min(length(fragment), length(G) - 2) = 6`: when the fragment does not fit, the code takes
`genomeLength - 1 - index` characters, one less than remain. -/
theorem getStrings_window_one_short :
    (buildLibrary 4 [Genome.new "G" "TTACGTAA".toList]).seedMatches "ACGTAAGG".toList true
      = [⟨2, 0⟩]
    ∧ (buildLibrary 4 [Genome.new "G" "TTACGTAA".toList]).candidates "ACGTAAGG".toList 4 true
      = ([⟨"G", 5, 2⟩], ["ACGTA".toList])
    ∧ min (("ACGTAAGG".toList.length : Int))
        ((Genome.new "G" "TTACGTAA".toList).length - 2) = 6 := by
  decide

/-- C17: scoring rule of `checkSnip` and its use in the scoring loop.  Let `s` be the sequence of
candidate `i`, with `length(s) <= length(fragment)`, let `minimumLength >= 1` and let `b` be the
mismatch budget (0 when `exactMatchOnly`, else 1).  If `p` is the least index such that
`s[0..p]` and `fragment[0..p]` differ in more than `b` positions, then for `p < minimumLength`
the candidate is rejected (the iteration changes nothing), and for `p >= minimumLength` it is
accepted and the length of its record is set to `p`.  If the mismatches never exceed `b`, the
candidate is accepted and its record is left as `getStrings` built it (its length stays the
comparison window). -/
theorem scoring_rule (s fragment : List Char) (minimumLength : Int) (exactMatchOnly : Bool)
    (S : List (List Char)) (D : List DNAMatch) (T : NameTable) (i : Nat)
    (hlen : s.length ≤ fragment.length) (hmin : 1 ≤ minimumLength) (hi : i < D.length)
    (hS : S.getD i [] = s) :
    (∀ p : Nat, firstExceeding s fragment (mismatchBudget exactMatchOnly) p →
      (p : Int) < minimumLength →
        accepted S fragment minimumLength exactMatchOnly i = false
        ∧ dedupStep S fragment minimumLength exactMatchOnly (D, T) i = (D, T))
    ∧ (∀ p : Nat, firstExceeding s fragment (mismatchBudget exactMatchOnly) p →
      minimumLength ≤ (p : Int) →
        accepted S fragment minimumLength exactMatchOnly i = true
        ∧ (dedupStep S fragment minimumLength exactMatchOnly (D, T) i).1
            = D.set i { matchAt D (i : Int) with length := (p : Int) }
        ∧ (matchAt (dedupStep S fragment minimumLength exactMatchOnly (D, T) i).1
            (i : Int)).length = (p : Int))
    ∧ ((∀ q : Nat, mismatchesThrough s fragment q ≤ mismatchBudget exactMatchOnly) →
        accepted S fragment minimumLength exactMatchOnly i = true
        ∧ (dedupStep S fragment minimumLength exactMatchOnly (D, T) i).1 = D) := by
  refine ⟨?_, ?_, ?_⟩
  · intro p hp hlt
    have hc := checkSnip_exceeding s fragment minimumLength exactMatchOnly p hlen hp
    rw [if_pos hlt] at hc
    have hacc : accepted S fragment minimumLength exactMatchOnly i = false := by
      unfold accepted; rw [hS, hc]
    exact ⟨hacc, dedupStep_rejected S fragment minimumLength exactMatchOnly (D, T) i hacc⟩
  · intro p hp hge
    have hc := checkSnip_exceeding s fragment minimumLength exactMatchOnly p hlen hp
    rw [if_neg (by omega)] at hc
    have hacc : accepted S fragment minimumLength exactMatchOnly i = true := by
      unfold accepted; rw [hS, hc]
    have hfst : (dedupStep S fragment minimumLength exactMatchOnly (D, T) i).1
        = D.set i { matchAt D (i : Int) with length := (p : Int) } := by
      rw [dedupStep_fst, hS, hc]
      rw [if_pos ⟨rfl, by simp only [ne_eq]; omega⟩]
    refine ⟨hacc, hfst, ?_⟩
    rw [hfst, matchAt_set_self _ _ _ hi]
  · intro hall
    have hc := checkSnip_within s fragment minimumLength exactMatchOnly hlen hall
    have hacc : accepted S fragment minimumLength exactMatchOnly i = true := by
      unfold accepted; rw [hS, hc]
    refine ⟨hacc, ?_⟩
    rw [dedupStep_fst, hS, hc]
    simp

/-- Witness for C17: `ACGTTT` against `ACGTAA` in approximate mode exceeds the budget first at
index 5, below the minimum length 6, and is rejected. -/
theorem scoring_rule_witness :
    accepted ["ACGTTT".toList] "ACGTAA".toList 6 false 0 = false :=
  ((scoring_rule "ACGTTT".toList "ACGTAA".toList 6 false ["ACGTTT".toList] [⟨"G", 6, 0⟩] [] 0
    (by decide) (by decide) (by decide) (by decide)).1 5
    (by unfold firstExceeding; decide) (by decide)).1

/-- C19: exact mode is subsumed by approximate mode.  For every engine state, fragment and
minimum length, if `findGenomesWithThisDNA(fragment, minimumLength, exactMatchOnly = true)`
succeeds, then the call with `exactMatchOnly = false` succeeds as well and every genome name of
the exact result occurs in the approximate result.  Consequently, for every query and fragment
length, the hit count of each genome name in `findRelatedGenomes` with approximate matching is
at least its hit count with exact matching. -/
theorem exact_subsumed_by_approximate (m : GenomeMatcherImpl) (fragment : List Char)
    (minimumLength : Int) (mtchs mtchs' : List DNAMatch)
    (h : (m.findGenomesWithThisDNA fragment minimumLength true mtchs).1 = true) :
    (m.findGenomesWithThisDNA fragment minimumLength false mtchs').1 = true
    ∧ (∀ N : String,
        N ∈ (m.findGenomesWithThisDNA fragment minimumLength true mtchs).2.map
            DNAMatch.genomeName →
        N ∈ (m.findGenomesWithThisDNA fragment minimumLength false mtchs').2.map
            DNAMatch.genomeName)
    ∧ (∀ (query : Genome) (fragmentLength : Int) (N : String),
        hitCount m query fragmentLength true N ≤ hitCount m query fragmentLength false N) := by
  obtain ⟨h1, h2⟩ := findGenomes_exact_imp m fragment minimumLength mtchs mtchs' h
  exact ⟨h1, h2, fun query fragmentLength N =>
    hitsBelow_exact_le m query fragmentLength N _⟩

/-- Witness for C19 on the two-genome library with seed length 4 and the fragment `ACGT`. -/
theorem exact_subsumed_by_approximate_witness :
    ((buildLibrary 4 [Genome.new "Alpha" "ACGTACGTAA".toList,
        Genome.new "Beta" "ACGGACGTAA".toList]).findGenomesWithThisDNA
        "ACGT".toList 4 false []).1 = true :=
  (exact_subsumed_by_approximate
    (buildLibrary 4 [Genome.new "Alpha" "ACGTACGTAA".toList,
      Genome.new "Beta" "ACGGACGTAA".toList]) "ACGT".toList 4 [] [] (by decide)).1

/-- C18: bounds of the returned records.  On every library built by `addGenome` with seed length
at least 1, for every successful call `findGenomesWithThisDNA(fragment, minimumLength, _)` (with
`minimumLength` an `int`), each returned record has a library genome `g` of its name with
`0 <= position`, `minimumLength <= length <= length(fragment)`,
`position + length <= length(g)` and `position + minimumLength < length(g)`.  Moreover every
extraction made by `getStrings` for a kept candidate succeeds and yields exactly as many
characters as the record's window, and never more than `fragment` has, so that the scoring
loop indexes `fragment` inside its range. -/
theorem returned_record_bounds (seedLength : Int) (gs : List Genome) (fragment : List Char)
    (minimumLength : Int) (exactMatchOnly : Bool) (mtchs : List DNAMatch)
    (hseed : 1 ≤ seedLength) (hint : isInt32 minimumLength)
    (hsucc : ((buildLibrary seedLength gs).findGenomesWithThisDNA fragment minimumLength
      exactMatchOnly mtchs).1 = true) :
    (∀ r ∈ ((buildLibrary seedLength gs).findGenomesWithThisDNA fragment minimumLength
        exactMatchOnly mtchs).2,
      ∃ g ∈ gs, g.name = r.genomeName ∧ 0 ≤ r.position
        ∧ minimumLength ≤ r.length ∧ r.length ≤ (fragment.length : Int)
        ∧ r.position + r.length ≤ g.length ∧ r.position + minimumLength < g.length)
    ∧ (∀ loc ∈ (buildLibrary seedLength gs).seedMatches fragment exactMatchOnly,
      ∀ (rec : DNAMatch) (seq : List Char),
        candidateOf gs minimumLength (fragment.length : Int) loc = some (rec, seq) →
        ∃ g ∈ gs, g.extract loc.index rec.length [] = (true, seq)
          ∧ ((seq.length : Nat) : Int) = rec.length ∧ seq.length ≤ fragment.length) := by
  generalize hm : buildLibrary seedLength gs = m at hsucc
  have hmseed : m.m_minSearchLength = seedLength := by rw [← hm, buildLibrary_seed]
  have hmgen : m.m_genomes = gs := by rw [← hm, buildLibrary_genomes]
  have hidx : ∀ loc ∈ m.seedMatches fragment exactMatchOnly, 0 ≤ loc.index := by
    rw [← hm]; exact seedMatches_index_nonneg seedLength gs fragment exactMatchOnly
  -- the parameter check has passed
  have hguard : ¬ ((fragment.length : Int) < minimumLength % 2 ^ 64
      ∨ minimumLength < m.m_minSearchLength) := by
    intro hg
    unfold GenomeMatcherImpl.findGenomesWithThisDNA at hsucc
    rw [if_pos hg] at hsucc
    simp at hsucc
  have hmin : 1 ≤ minimumLength := by rw [hmseed] at hguard; omega
  have hle : minimumLength ≤ (fragment.length : Int) := by
    have h64 : minimumLength % 2 ^ 64 = minimumLength :=
      Int.emod_eq_of_lt (by omega) (by have := hint.2; omega)
    rw [h64] at hguard
    omega
  have hcandb : ∀ loc ∈ m.seedMatches fragment exactMatchOnly,
      ∀ (rec : DNAMatch) (seq : List Char),
        candidateOf gs minimumLength (fragment.length : Int) loc = some (rec, seq) →
        ∃ g ∈ gs, g.name = rec.genomeName ∧ rec.position = loc.index
          ∧ minimumLength ≤ rec.length ∧ rec.length ≤ (fragment.length : Int)
          ∧ rec.position + rec.length ≤ g.length ∧ rec.position + minimumLength < g.length
          ∧ g.extract loc.index rec.length [] = (true, seq)
          ∧ ((seq.length : Nat) : Int) = rec.length :=
    fun loc hloc rec seq hc =>
      candidateOf_bounds gs minimumLength _ loc rec seq hc (hidx loc hloc) hmin hle
  refine ⟨?_, ?_⟩
  · intro r hr
    rw [findGenomes_eq_dedup m fragment minimumLength exactMatchOnly mtchs hguard] at hr hsucc
    have hcands := candidates_eq m fragment minimumLength exactMatchOnly
    rw [hmgen] at hcands
    generalize hC : (m.seedMatches fragment exactMatchOnly).filterMap
      (candidateOf gs minimumLength (fragment.length : Int)) = C at hcands
    rw [hcands] at hr hsucc
    have hinv := dedupInv_state (C.map Prod.fst) (C.map Prod.snd) fragment minimumLength
      exactMatchOnly (C.map Prod.fst).length (le_refl _)
    have hlens := dedupState_lengths (C.map Prod.fst) (C.map Prod.snd) fragment minimumLength
      exactMatchOnly (C.map Prod.fst).length
    generalize dedupState (C.map Prod.fst) (C.map Prod.snd) fragment minimumLength
      exactMatchOnly (C.map Prod.fst).length = st at hr hsucc hinv hlens
    obtain ⟨_, h2, _, h4, _⟩ := hinv
    by_cases hempty : st.2.map (fun it => matchAt st.1 it.2) = []
    · rw [if_pos hempty] at hsucc
      simp at hsucc
    · rw [if_neg hempty] at hr
      simp only [List.mem_map] at hr
      obtain ⟨e, he, rfl⟩ := hr
      obtain ⟨hlo, hhi, _⟩ := h4 e he
      simp only [List.length_map] at hhi
      have hiC : e.2.toNat < C.length := by omega
      have hcast : ((e.2.toNat : Nat) : Int) = e.2 := Int.toNat_of_nonneg hlo
      -- the candidate this record stems from
      have hrec : matchAt (C.map Prod.fst) e.2 = (C.get ⟨e.2.toNat, hiC⟩).1 := by
        have h := matchAt_map_fst C _ hiC
        rw [hcast] at h
        exact h
      have hseq : (C.map Prod.snd).getD e.2.toNat [] = (C.get ⟨e.2.toNat, hiC⟩).2 :=
        getD_map_snd C _ hiC
      have hmemC : C.get ⟨e.2.toNat, hiC⟩ ∈ C := List.get_mem _ _ _
      generalize C.get ⟨e.2.toNat, hiC⟩ = x at hrec hseq hmemC
      have hmemF : x ∈ (m.seedMatches fragment exactMatchOnly).filterMap
          (candidateOf gs minimumLength (fragment.length : Int)) := by
        rw [hC]; exact hmemC
      rw [List.mem_filterMap] at hmemF
      obtain ⟨loc, hloc, hcand⟩ := hmemF
      obtain ⟨g, hg, hname, hpos, hminl, hmaxl, hfit, hstrict, _, hseqlen⟩ :=
        hcandb loc hloc x.1 x.2 hcand
      have hn := (h2 e.2).1
      have hp := (h2 e.2).2
      rw [hrec] at hn hp
      have hl := hlens.2 e.2.toNat (by simpa using hiC)
      rw [hcast, hrec, hseq] at hl
      refine ⟨g, hg, by rw [hn]; exact hname, by rw [hp, hpos]; exact hidx loc hloc, ?_, ?_,
        ?_, by rw [hp]; exact hstrict⟩
      · rcases hl with hl | hl
        · rw [hl]; exact hminl
        · exact hl.1
      · rcases hl with hl | hl
        · rw [hl]; exact hmaxl
        · omega
      · rw [hp]
        rcases hl with hl | hl
        · rw [hl]; exact hfit
        · omega
  · intro loc hloc rec seq hc
    obtain ⟨g, hg, _, _, _, hmaxl, _, _, hex, hseqlen⟩ := hcandb loc hloc rec seq hc
    exact ⟨g, hg, hex, hseqlen, by omega⟩

/-- Witness for C18 on the two-genome library with seed length 4: the record
`(Beta, position 4, length 5)` returned for `ACGTA` with minimum length 4 in exact mode lies
inside a genome named `Beta`. -/
theorem returned_record_bounds_witness :
    ∃ g ∈ [Genome.new "Alpha" "ACGTACGTAA".toList, Genome.new "Beta" "ACGGACGTAA".toList],
      g.name = "Beta" ∧ (0 : Int) ≤ 4 ∧ (4 : Int) ≤ 5
      ∧ (5 : Int) ≤ (("ACGTA".toList.length : Nat) : Int)
      ∧ (4 : Int) + 5 ≤ g.length ∧ (4 : Int) + 4 < g.length :=
  (returned_record_bounds 4 [Genome.new "Alpha" "ACGTACGTAA".toList,
    Genome.new "Beta" "ACGGACGTAA".toList] "ACGTA".toList 4 true [] (by decide) (by decide)
    (by decide)).1 ⟨"Beta", 5, 4⟩ (by decide)

end GeeNomics
